import Mathlib

/-!
Verification of the heatshrink_demo streaming LZSS codec.

This file gives a shallow embedding of the C sources
(src/unnamed/part_000, the encoder, and src/heatshrink_decoder.c, the
decoder) as executable Lean definitions, and proves or refutes the
frozen claims about them.

Machine integers are modelled as Nat with explicit reductions modulo
2^8, 2^16 or 2^32 exactly where the C performs a narrowing conversion
or where unsigned wrap-around can occur; buffers are lists of byte
values.  Constants that live in the (absent) headers
heatshrink_encoder.h / heatshrink_decoder.h are taken from the
specification where noted.
-/

namespace Heatshrink

/-- Read a byte from a buffer; out of range reads default to 0 (they do
not occur in any execution the theorems below talk about). -/
def bget (buf : List Nat) (i : Nat) : Nat := buf.getD i 0

/-- Write the given bytes into the buffer starting at the given offset,
reducing each value modulo 256 (the implicit uint8_t conversion in the
C memcpy into a byte buffer). -/
def writeBytes (buf : List Nat) : Nat → List Nat → List Nat
  | _, [] => buf
  | off, b :: bs => writeBytes (buf.set off (b % 256)) (off + 1) bs

/-! ## Encoder model (src/unnamed/part_000) -/

/-- HEATSHRINK_ENCODER_STATE from the encoder source. -/
inductive EState where
  | notFull
  | filled
  | search
  | yieldTagBit
  | yieldLiteral
  | yieldBrIndex
  | yieldBrLength
  | saveBacklog
  | flushBits
  | done
deriving DecidableEq, Repr

/-- The heatshrink_encoder struct.  Field names follow the source (the
struct itself lives in the missing header; its fields are exactly the
ones the encoder source reads and writes).  window_sz2 and
lookahead_sz2 are w and l. -/
structure Encoder where
  w : Nat
  l : Nat
  buffer : List Nat
  input_size : Nat
  msi : Nat
  flags : Nat
  st : EState
  match_pos : Nat
  match_length : Nat
  outgoing_bits : Nat
  outgoing_count : Nat
  bit_index : Nat
  current_byte : Nat
  search_index : List Nat
deriving DecidableEq, Repr

/-- Modelled from the spec: parameter bounds, W in [4,15], L in [3,W]
(HEATSHRINK_MIN/MAX_WINDOW_BITS and HEATSHRINK_MIN_LOOKAHEAD_BITS live
in the missing header; the spec fixes them to 4, 15 and 3). -/
def validCfg (w l : Nat) : Prop := 4 ≤ w ∧ w ≤ 15 ∧ 3 ≤ l ∧ l ≤ w

instance (w l : Nat) : Decidable (validCfg w l) := by
  unfold validCfg; infer_instance

/-- get_input_buffer_size: 1 << window_sz2. -/
def ibsz (e : Encoder) : Nat := 2 ^ e.w

/-- get_input_offset: equals the input buffer size. -/
def inputOffset (e : Encoder) : Nat := ibsz e

/-- get_lookahead_size: 1 << lookahead_sz2. -/
def lasz (e : Encoder) : Nat := 2 ^ e.l

/-- FLAG_IS_FINISHING test. -/
def is_finishing (e : Encoder) : Bool := e.flags &&& 1 ≠ 0

/-- FLAG_HAS_LITERAL test. -/
def has_literal (e : Encoder) : Bool := e.flags &&& 2 ≠ 0

/-- FLAG_ON_FINAL_LITERAL test. -/
def on_final_literal (e : Encoder) : Bool := e.flags &&& 4 ≠ 0

/-- FLAG_BACKLOG_IS_PARTIAL test. -/
def backlogPart (e : Encoder) : Bool := e.flags &&& 8 ≠ 0

/-- FLAG_BACKLOG_IS_FILLED test. -/
def backlogFilled (e : Encoder) : Bool := e.flags &&& 16 ≠ 0

/-- heatshrink_encoder_reset.  The search index contents are
unspecified until do_indexing runs; we start them at the
MATCH_NOT_FOUND sentinel 0xFFFF. -/
def encoder_reset (w l : Nat) : Encoder :=
  { w := w
    l := l
    buffer := List.replicate (2 * 2 ^ w) 0
    input_size := 0
    msi := 0
    flags := 0
    st := .notFull
    match_pos := 0
    match_length := 0
    outgoing_bits := 0
    outgoing_count := 0
    bit_index := 0x80
    current_byte := 0
    search_index := List.replicate (2 * 2 ^ w) 0xFFFF }

/-- HEATSHRINK_ENCODER_SINK_RES (null-pointer errors are not
representable in the embedding and omitted). -/
inductive ESinkRes where
  | ok
  | errMisuse
deriving DecidableEq, Repr

/-- heatshrink_encoder_sink.  Returns the updated encoder, the number
of bytes accepted, and the result code. -/
def encoder_sink (e : Encoder) (inp : List Nat) : Encoder × Nat × ESinkRes :=
  if is_finishing e then (e, 0, .errMisuse)
  else if e.st ≠ EState.notFull then (e, 0, .errMisuse)
  else
    let write_offset := inputOffset e + e.input_size
    let ibs := ibsz e
    let rem := ibs - e.input_size
    let cp := min rem inp.length
    let e1 : Encoder :=
      { e with buffer := writeBytes e.buffer write_offset (inp.take cp)
               input_size := e.input_size + cp }
    let e2 := if cp = rem then { e1 with st := EState.filled } else e1
    (e2, cp, .ok)

/-- The inner comparison loop of find_longest_match: the number of
initial positions at which the bytes at pos and needle agree, capped at
the third argument (C computes it as the value of len at loop exit). -/
def matchLen (buf : List Nat) (pos needle : Nat) : Nat → Nat
  | 0 => 0
  | m + 1 =>
    if bget buf pos = bget buf needle then matchLen buf (pos + 1) (needle + 1) m + 1
    else 0

/-- MATCH_NOT_FOUND, (uint16_t)-1. -/
def MATCH_NOT_FND : Nat := 0xFFFF

/-- One candidate step shared by both find_longest_match variants:
record the match at pos when its length is above the break-even point
and strictly better than the best so far; the boolean is the
early-exit taken when a recorded length reaches maxlen. -/
def flmStep (buf : List Nat) (needle maxlen pos : Nat) (acc : Nat × Nat) :
    (Nat × Nat) × Bool :=
  let len := matchLen buf pos needle maxlen
  if 2 < len ∧ acc.1 < len then ((len, pos), len == maxlen) else (acc, false)

/-- The non-indexed candidate scan of find_longest_match.  The counter
k encodes the current candidate position pos = start + k; candidates
are visited from end-1 downwards.  The accumulator holds
(match_maxlen, match_index). -/
def flmLoop (buf : List Nat) (start needle maxlen : Nat) :
    Nat → Nat × Nat → Nat × Nat
  | 0, acc => (flmStep buf needle maxlen start acc).1
  | k + 1, acc =>
    if (flmStep buf needle maxlen (start + k + 1) acc).2 then
      (flmStep buf needle maxlen (start + k + 1) acc).1
    else flmLoop buf start needle maxlen k (flmStep buf needle maxlen (start + k + 1) acc).1

/-- find_longest_match, the variant compiled without
HEATSHRINK_USE_INDEX.  The buffer is passed explicitly; returns
(distance, length) or none for MATCH_NOT_FOUND. -/
def find_longest_match (buf : List Nat) (start end_ maxlen : Nat) :
    Option (Nat × Nat) :=
  if start = end_ then none
  else
    let r := flmLoop buf start end_ maxlen (end_ - 1 - start) (0, MATCH_NOT_FND)
    if 0 < r.1 then some (end_ - r.2, r.1) else none

/-- Index lookup hsi->index[i]; entries are uint16 values with 0xFFFF
as the MATCH_NOT_FOUND sentinel. -/
def idxget (idx : List Nat) (i : Nat) : Nat := idx.getD i MATCH_NOT_FND

/-- The chain-following loop of the indexed find_longest_match.  fuel
bounds the number of chain steps (the chain built by do_indexing is
strictly decreasing, so end_+1 steps always suffice; see
buildIndex_chain lemmas below). -/
def flmIdxLoop (buf idx : List Nat) (start needle maxlen : Nat) :
    Nat → Nat → Nat × Nat → Nat × Nat
  | 0, _, acc => acc
  | fuel + 1, pos, acc =>
    if pos = MATCH_NOT_FND then acc
    else
      if (flmStep buf needle maxlen pos acc).2 then (flmStep buf needle maxlen pos acc).1
      else
        if idxget idx pos < start then (flmStep buf needle maxlen pos acc).1
        else
          flmIdxLoop buf idx start needle maxlen fuel (idxget idx pos)
            (flmStep buf needle maxlen pos acc).1

/-- find_longest_match, the variant compiled with
HEATSHRINK_USE_INDEX. -/
def find_longest_match_idx (buf idx : List Nat) (start end_ maxlen : Nat) :
    Option (Nat × Nat) :=
  if start = end_ then none
  else
    let pos0 := idxget idx end_
    if pos0 < start then none
    else
      let r := flmIdxLoop buf idx start end_ maxlen (end_ + 1) pos0 (0, MATCH_NOT_FND)
      if 0 < r.1 then some (end_ - r.2, r.1) else none

/-- The filling loop of do_indexing: for i in [i0, i0+n), set
index[i] to last[buf[i]] and update last[buf[i]] := i.  last is the
per-byte-value most recent offset, 0xFFFF when none. -/
def buildIndexGo (buf : List Nat) : Nat → Nat → List Nat → (Nat → Nat) → List Nat
  | 0, _, idx, _ => idx
  | n + 1, i, idx, last =>
    let v := bget buf i
    buildIndexGo buf n (i + 1) (idx.set i (last v))
      (fun x => if x = v then i else last x)

/-- do_indexing: rebuild the byte-chain index over
buffer[0 .. input_offset + input_size). -/
def buildIndex (e : Encoder) : List Nat :=
  buildIndexGo e.buffer (inputOffset e + e.input_size) 0
    (List.replicate (2 * ibsz e) MATCH_NOT_FND) (fun _ => MATCH_NOT_FND)

/-- The most recent offset strictly below i holding byte value v, or
the 0xFFFF sentinel: the contents of do_indexing\'s last[] table at the
moment offset i is processed. -/
def prevIdxGo (buf : List Nat) (v : Nat) : Nat → Nat
  | 0 => MATCH_NOT_FND
  | j + 1 => if bget buf j = v then j else prevIdxGo buf v j

/-- The chain value do_indexing stores at offset i: the previous
offset with the same byte, or the sentinel. -/
def prevIdx (buf : List Nat) (i : Nat) : Nat :=
  prevIdxGo buf (bget buf i) i

/-- The encoder states in which the search index stored by the last
FILLED dispatch is still the index of the current buffer contents
(buffer and staged input are unchanged while the machine stays inside
the search/yield/save cluster). -/
def sixOk (st : EState) : Prop :=
  st = EState.search ∨ st = EState.yieldTagBit ∨ st = EState.yieldLiteral
  ∨ st = EState.yieldBrIndex ∨ st = EState.yieldBrLength
  ∨ st = EState.saveBacklog

instance (st : EState) : Decidable (sixOk st) := by
  unfold sixOk
  infer_instance

/-- The search range upper bound of st_step_search: input_offset + msi. -/
def searchEnd (e : Encoder) : Nat := inputOffset e + e.msi

/-- The search range lower bound selection of st_step_search (the
three-way backlog test; the C clamps start up to lookahead_sz in the
partial case). -/
def searchStart (e : Encoder) : Nat :=
  if backlogFilled e then searchEnd e - ibsz e + 1
  else if backlogPart e then max (searchEnd e - ibsz e + 1) (lasz e)
  else inputOffset e

/-- max_possible of st_step_search. -/
def searchMax (e : Encoder) : Nat := min (lasz e) (e.input_size - e.msi)

/-- The find_longest_match call of st_step_search; useIdx selects the
HEATSHRINK_USE_INDEX compile-time variant. -/
def searchRes (useIdx : Bool) (e : Encoder) : Option (Nat × Nat) :=
  if useIdx then
    find_longest_match_idx e.buffer e.search_index (searchStart e) (searchEnd e)
      (searchMax e)
  else find_longest_match e.buffer (searchStart e) (searchEnd e) (searchMax e)

/-- st_step_search.  The C boundary comparison
msi >= input_size - (fin ? 0 : lookahead_sz) is evaluated, as in C,
after integer promotion (no unsigned wrap), i.e. as
input_size <= msi + (fin ? 0 : lookahead_sz). -/
def st_step_search (useIdx : Bool) (e : Encoder) : Encoder × EState :=
  if e.input_size ≤ e.msi + (if is_finishing e then 0 else lasz e) then
    (e, .saveBacklog)
  else
    match searchRes useIdx e with
    | none =>
      ({ e with msi := e.msi + 1, flags := e.flags ||| 2, match_length := 0 },
       .yieldTagBit)
    | some (dist, len) =>
      ({ e with match_pos := dist, match_length := len }, .yieldTagBit)

/-- can_take_byte: the output buffer written so far is below its
capacity. -/
def canTake (out : List Nat) (cap : Nat) : Bool := out.length < cap

/-- push_bits: push count (max 8) bits, taken from the low count bits
of the second argument, most significant first, through current_byte /
bit_index into the output list. -/
def push_bits : Nat → Nat → Encoder → List Nat → Encoder × List Nat
  | 0, _, e, out => (e, out)
  | c + 1, bits, e, out =>
    let cb := if bits &&& (1 <<< c) ≠ 0 then e.current_byte ||| e.bit_index
              else e.current_byte
    let bi := e.bit_index >>> 1
    if bi = 0 then
      push_bits c bits { e with current_byte := 0, bit_index := 0x80 } (out ++ [cb])
    else
      push_bits c bits { e with current_byte := cb, bit_index := bi } out

/-- push_outgoing_bits: push the top remaining (up to 8) bits of the
staged outgoing_bits field; returns the count pushed.  The uint8_t
truncation of the bits argument is the % 256. -/
def push_outgoing_bits (e : Encoder) (out : List Nat) : Encoder × List Nat × Nat :=
  let cb :=
    if 8 < e.outgoing_count then (8, (e.outgoing_bits >>> (e.outgoing_count - 8)) % 256)
    else (e.outgoing_count, e.outgoing_bits % 256)
  let r := push_bits cb.1 cb.2 e out
  ({ r.1 with outgoing_count := r.1.outgoing_count - cb.1 }, r.2, cb.1)

/-- push_literal_byte: push the byte at
buffer[input_offset + match_scan_index - 1]. -/
def push_literal_byte (e : Encoder) (out : List Nat) : Encoder × List Nat :=
  let processed_offset := e.msi - 1
  let input_offset := inputOffset e + processed_offset
  push_bits 8 (bget e.buffer input_offset) e out

/-- st_yield_tag_bit.  HEATSHRINK_LITERAL_MARKER = 1 and
HEATSHRINK_BACKREF_MARKER = 0 live in the missing header; the spec
fixes them (MARK_LIT = 1, MARK_REF = 0). -/
def st_yield_tag_bit (e : Encoder) (out : List Nat) (cap : Nat) :
    Encoder × List Nat × EState :=
  if canTake out cap then
    if e.match_length = 0 then
      let r := push_bits 1 1 e out
      (r.1, r.2, .yieldLiteral)
    else
      let r := push_bits 1 0 e out
      ({ r.1 with outgoing_bits := r.1.match_pos - 1, outgoing_count := r.1.w },
       r.2, .yieldBrIndex)
  else (e, out, .yieldTagBit)

/-- st_yield_literal. -/
def st_yield_literal (e : Encoder) (out : List Nat) (cap : Nat) :
    Encoder × List Nat × EState :=
  if canTake out cap then
    let r := push_literal_byte e out
    let e1 : Encoder := { r.1 with flags := r.1.flags &&& 0xFD }
    if on_final_literal e1 then (e1, r.2, .flushBits)
    else (e1, r.2, if 0 < e1.match_length then .yieldTagBit else .search)
  else (e, out, .yieldLiteral)

/-- st_yield_br_index. -/
def st_yield_br_index (e : Encoder) (out : List Nat) (cap : Nat) :
    Encoder × List Nat × EState :=
  if canTake out cap then
    let r := push_outgoing_bits e out
    if 0 < r.2.2 then (r.1, r.2.1, .yieldBrIndex)
    else
      ({ r.1 with outgoing_bits := r.1.match_length - 1, outgoing_count := r.1.l },
       r.2.1, .yieldBrLength)
  else (e, out, .yieldBrIndex)

/-- st_yield_br_length. -/
def st_yield_br_length (e : Encoder) (out : List Nat) (cap : Nat) :
    Encoder × List Nat × EState :=
  if canTake out cap then
    let r := push_outgoing_bits e out
    if 0 < r.2.2 then (r.1, r.2.1, .yieldBrLength)
    else
      ({ r.1 with msi := r.1.msi + r.1.match_length, match_length := 0 },
       r.2.1, .search)
  else (e, out, .yieldBrLength)

/-- The buffer shift of save_backlog: result[j] = buffer[src + j] for
j < len, unchanged above (the memmove of shift_sz bytes down to the
start of the buffer). -/
def memmoveDown (buf : List Nat) (src len : Nat) : List Nat :=
  (List.range buf.length).map fun j => if j < len then bget buf (src + j) else bget buf j

/-- save_backlog. -/
def save_backlog (e : Encoder) : Encoder :=
  let input_buf_sz := ibsz e
  let msi := e.msi
  let rem := input_buf_sz - msi
  let shift_sz := input_buf_sz + rem
  let buf' := memmoveDown e.buffer (input_buf_sz - rem) shift_sz
  let flags' := if backlogPart e then e.flags ||| 16 else e.flags ||| 8
  { e with buffer := buf', flags := flags', msi := 0,
           input_size := e.input_size - (input_buf_sz - rem) }

/-- st_save_backlog. -/
def st_save_backlog (e : Encoder) : Encoder × EState :=
  if is_finishing e then
    if has_literal e then ({ e with flags := e.flags ||| 4 }, .yieldTagBit)
    else (e, .flushBits)
  else (save_backlog e, .notFull)

/-- st_flush_bit_buffer. -/
def st_flush_bit_buffer (e : Encoder) (out : List Nat) (cap : Nat) :
    Encoder × List Nat × EState :=
  if e.bit_index = 0x80 then (e, out, .done)
  else if canTake out cap then (e, out ++ [e.current_byte], .done)
  else (e, out, .flushBits)

/-- HEATSHRINK_ENCODER_POLL_RES (null-pointer error omitted). -/
inductive EPollRes where
  | empty
  | more
  | errMisuse
deriving DecidableEq, Repr

/-- The while(1) dispatch loop of heatshrink_encoder_poll, with fuel.
The FLUSH_BITS case reproduces the missing break in the C switch: after
st_flush_bit_buffer runs, control falls through into the DONE case and
returns POLL_EMPTY in the same iteration. -/
def pollLoop (useIdx : Bool) (cap : Nat) :
    Nat → Encoder → List Nat → Option (EPollRes × Encoder × List Nat)
  | 0, _, _ => none
  | fuel + 1, e, out =>
    let inSt := e.st
    match inSt with
    | .notFull => some (.empty, e, out)
    | .done => some (.empty, e, out)
    | .flushBits =>
      let r := st_flush_bit_buffer e out cap
      some (.empty, { r.1 with st := r.2.2 }, r.2.1)
    | .filled =>
      let e1 := if useIdx then { e with search_index := buildIndex e } else e
      pollLoop useIdx cap fuel { e1 with st := .search } out
    | _ =>
      let r : Encoder × List Nat × EState :=
        match inSt with
        | .search => let s := st_step_search useIdx e; (s.1, out, s.2)
        | .yieldTagBit => st_yield_tag_bit e out cap
        | .yieldLiteral => st_yield_literal e out cap
        | .yieldBrIndex => st_yield_br_index e out cap
        | .yieldBrLength => st_yield_br_length e out cap
        | _ => let s := st_save_backlog e; (s.1, out, s.2)
      let e' : Encoder := { r.1 with st := r.2.2 }
      if r.2.2 = inSt then
        if r.2.1.length = cap then some (.more, e', r.2.1)
        else pollLoop useIdx cap fuel e' r.2.1
      else pollLoop useIdx cap fuel e' r.2.1

/-- heatshrink_encoder_poll.  Output written so far is modelled as the
returned list; *output_size is its length.  fuel bounds the number of
loop iterations (none = fuel ran out, which no execution below hits). -/
def encoder_poll (useIdx : Bool) (e : Encoder) (cap fuel : Nat) :
    Option (EPollRes × Encoder × List Nat) :=
  if cap = 0 then some (.errMisuse, e, [])
  else pollLoop useIdx cap fuel e []

/-- HEATSHRINK_ENCODER_FINISH_RES (null-pointer error omitted). -/
inductive EFinishRes where
  | done
  | more
deriving DecidableEq, Repr

/-- heatshrink_encoder_finish. -/
def encoder_finish (e : Encoder) : Encoder × EFinishRes :=
  let e1 : Encoder := { e with flags := e.flags ||| 1 }
  let e2 := if e1.st = EState.notFull then { e1 with st := EState.filled } else e1
  (e2, if e2.st = EState.done then .done else .more)

/-! ## Decoder model (src/heatshrink_decoder.c) -/

/-- HEATSHRINK_DECODER_STATE. -/
inductive DState where
  | empty
  | inputAvailable
  | yieldLiteral
  | backrefIndex
  | backrefCount
  | yieldBackref
  | checkForMoreInput
deriving DecidableEq, Repr

/-- The heatshrink_decoder struct.  buffers has length ibs + 2^w: the
first ibs bytes are the compressed-input region, the following 2^w
bytes the history window.  head_index, output_count and output_index
are uint16 fields and are kept reduced modulo 2^16; bit_accumulator is
uint32 and kept reduced modulo 2^32. -/
structure Decoder where
  w : Nat
  l : Nat
  ibs : Nat
  buffers : List Nat
  st : DState
  input_size : Nat
  input_index : Nat
  bit_index : Nat
  current_byte : Nat
  output_count : Nat
  output_index : Nat
  head_index : Nat
  bit_accumulator : Nat
deriving DecidableEq, Repr

/-- One raw access to the buffers array of a decoder, by index. -/
inductive DAccess where
  | read (i : Nat)
  | write (i : Nat)
deriving DecidableEq, Repr

/-- The raw buffers index an access touches. -/
def DAccess.idx : DAccess → Nat
  | .read i => i
  | .write i => i

/-- heatshrink_decoder_reset. -/
def decoder_reset (ibs w l : Nat) : Decoder :=
  { w := w
    l := l
    ibs := ibs
    buffers := List.replicate (ibs + 2 ^ w) 0
    st := .empty
    input_size := 0
    input_index := 0
    bit_index := 0
    current_byte := 0
    output_count := 0
    output_index := 0
    head_index := 0
    bit_accumulator := 0 }

/-- HEATSHRINK_DECODER_SINK_RES (null-pointer error omitted). -/
inductive DSinkRes where
  | ok
  | full
deriving DecidableEq, Repr

/-- heatshrink_decoder_sink.  Returns the updated decoder, accepted
byte count, result code, and the raw buffer accesses performed. -/
def decoder_sink (d : Decoder) (inp : List Nat) : Decoder × Nat × DSinkRes × List DAccess :=
  let rem := d.ibs - d.input_size
  if rem = 0 then (d, 0, .full, [])
  else
    let sz := min rem inp.length
    let d1 : Decoder :=
      { d with buffers := writeBytes d.buffers d.input_size (inp.take sz)
               input_size := d.input_size + sz }
    let d2 := if d1.st = DState.empty then
                { d1 with st := DState.inputAvailable, input_index := 0 }
              else d1
    (d2, sz, .ok, (List.range sz).map fun j => .write (d.input_size + j))

/-- The byte-pull at the top of the loop body of get_bits: when
bit_index is zero, pull the next input byte (resetting the input
region when it empties) or report out of input. -/
def getBitsPull (d : Decoder) (tr : List DAccess) :
    Option (Decoder × List DAccess) :=
  if d.bit_index = 0 then
    if d.input_size = 0 then none
    else
      let byte := bget d.buffers d.input_index
      let ii := d.input_index + 1
      let d1 : Decoder :=
        if ii = d.input_size then
          { d with current_byte := byte, input_index := 0, input_size := 0,
                   bit_index := 0x80 }
        else
          { d with current_byte := byte, input_index := ii, bit_index := 0x80 }
      some (d1, tr ++ [.read d.input_index])
  else some (d, tr)

/-- The body of the bit-consuming for loop of get_bits, one bit per
step.  Returns true in the first component when the mid-loop
out-of-input exit (return (uint32_t)-1 inside the loop) was taken; the
decoder then keeps whatever the loop consumed so far, exactly as in C. -/
def getBitsLoop : Nat → Decoder → List DAccess → Bool × Decoder × List DAccess
  | 0, d, tr => (false, d, tr)
  | c + 1, d, tr =>
    match getBitsPull d tr with
    | none => (true, d, tr)
    | some (d1, tr1) =>
      let acc := (d1.bit_accumulator <<< 1) % 2 ^ 32
      let acc' := if d1.current_byte &&& d1.bit_index ≠ 0 then acc ||| 1 else acc
      getBitsLoop c
        { d1 with bit_accumulator := acc', bit_index := d1.bit_index >>> 1 } tr1

/-- get_bits.  Returns the uint32 result value (0xFFFFFFFF doubles as
the end-of-input sentinel, exactly as in C), a flag recording whether
one of the two underflow return statements was taken, the updated
decoder and the accesses.  The callers only look at the value. -/
def get_bits (d : Decoder) (count : Nat) : Nat × Bool × Decoder × List DAccess :=
  if 31 < count then (0xFFFFFFFF, true, d, [])
  else if d.input_size = 0 ∧ d.bit_index < 2 ^ (count - 1) then
    (0xFFFFFFFF, true, d, [])
  else
    match getBitsLoop count d [] with
    | (true, d1, tr) => (0xFFFFFFFF, true, d1, tr)
    | (false, d1, tr) => (d1.bit_accumulator, false, { d1 with bit_accumulator := 0 }, tr)

/-- st_input_available. -/
def st_input_available (d : Decoder) : Decoder × DState × List DAccess :=
  let r := get_bits d 1
  (r.2.2.1, if r.1 ≠ 0 then .yieldLiteral else .backrefIndex, r.2.2.2)

/-- st_yield_literal (decoder). -/
def st_yield_literal_d (d : Decoder) (out : List Nat) (cap : Nat) :
    Decoder × List Nat × DState × List DAccess :=
  if out.length < cap then
    let r := get_bits d 8
    let d1 := r.2.2.1
    if r.1 = 0xFFFFFFFF then (d1, out, .yieldLiteral, r.2.2.2)
    else
      let mask := 2 ^ d.w - 1
      let c := r.1 &&& 0xFF
      let widx := d.ibs + (d1.head_index &&& mask)
      ({ d1 with buffers := d1.buffers.set widx c
                 head_index := (d1.head_index + 1) % 2 ^ 16 },
       out ++ [c], .checkForMoreInput, r.2.2.2 ++ [.write widx])
  else (d, out, .yieldLiteral, [])

/-- st_backref_index. -/
def st_backref_index (d : Decoder) : Decoder × DState × List DAccess :=
  let r := get_bits d d.w
  let d1 := r.2.2.1
  if r.1 = 0xFFFFFFFF then (d1, .backrefIndex, r.2.2.2)
  else ({ d1 with output_index := (r.1 + 1) % 2 ^ 16 }, .backrefCount, r.2.2.2)

/-- st_backref_count. -/
def st_backref_count (d : Decoder) : Decoder × DState × List DAccess :=
  let r := get_bits d d.l
  let d1 := r.2.2.1
  if r.1 = 0xFFFFFFFF then (d1, .backrefCount, r.2.2.2)
  else ({ d1 with output_count := (r.1 + 1) % 2 ^ 16 }, .yieldBackref, r.2.2.2)

/-- The emit loop of st_yield_backref: per iteration read the byte
output_index back in the window (uint16 subtraction then mask), push
it, write it at the head, advance the head. -/
def backrefEmit (mask : Nat) : Nat → Decoder → List Nat → List DAccess →
    Decoder × List Nat × List DAccess
  | 0, d, out, tr => (d, out, tr)
  | n + 1, d, out, tr =>
    let ridx := d.ibs + ((d.head_index + 2 ^ 16 - d.output_index) &&& mask)
    let c := bget d.buffers ridx
    let widx := d.ibs + (d.head_index &&& mask)
    backrefEmit mask n
      { d with buffers := d.buffers.set widx c
               head_index := (d.head_index + 1) % 2 ^ 16 }
      (out ++ [c]) (tr ++ [.read ridx, .write widx])

/-- st_yield_backref. -/
def st_yield_backref (d : Decoder) (out : List Nat) (cap : Nat) :
    Decoder × List Nat × DState × List DAccess :=
  let count0 := cap - out.length
  if 0 < count0 then
    let count := if d.output_count < count0 then d.output_count else count0
    let mask := 2 ^ d.w - 1
    let r := backrefEmit mask count d out []
    let d1 : Decoder := { r.1 with output_count := r.1.output_count - count }
    if d1.output_count = 0 then (d1, r.2.1, .checkForMoreInput, r.2.2)
    else (d1, r.2.1, .yieldBackref, r.2.2)
  else (d, out, .yieldBackref, [])

/-- st_check_for_input. -/
def st_check_for_input (d : Decoder) : DState :=
  if d.input_size = 0 then .empty else .inputAvailable

/-- HEATSHRINK_DECODER_POLL_RES (null-pointer error omitted; the
decoder has no misuse code for poll). -/
inductive DPollRes where
  | empty
  | more
  | errUnknown
deriving DecidableEq, Repr

/-- The while(1) dispatch loop of heatshrink_decoder_poll, with fuel.
When the dispatched state handler comes back with the same state, the
loop returns MORE if the output buffer is exactly full, and EMPTY
otherwise. -/
def dPollLoop (cap : Nat) :
    Nat → Decoder → List Nat → List DAccess →
    Option (DPollRes × Decoder × List Nat × List DAccess)
  | 0, _, _, _ => none
  | fuel + 1, d, out, tr =>
    let inSt := d.st
    match inSt with
    | .empty => some (.empty, d, out, tr)
    | _ =>
      let r : Decoder × List Nat × DState × List DAccess :=
        match inSt with
        | .inputAvailable => let s := st_input_available d; (s.1, out, s.2.1, s.2.2)
        | .yieldLiteral => st_yield_literal_d d out cap
        | .backrefIndex => let s := st_backref_index d; (s.1, out, s.2.1, s.2.2)
        | .backrefCount => let s := st_backref_count d; (s.1, out, s.2.1, s.2.2)
        | .yieldBackref => st_yield_backref d out cap
        | _ => (d, out, st_check_for_input d, [])
      let d' : Decoder := { r.1 with st := r.2.2.1 }
      if r.2.2.1 = inSt then
        if r.2.1.length = cap then some (.more, d', r.2.1, tr ++ r.2.2.2)
        else some (.empty, d', r.2.1, tr ++ r.2.2.2)
      else dPollLoop cap fuel d' r.2.1 (tr ++ r.2.2.2)

/-- heatshrink_decoder_poll. -/
def decoder_poll (d : Decoder) (cap fuel : Nat) :
    Option (DPollRes × Decoder × List Nat × List DAccess) :=
  dPollLoop cap fuel d [] []

/-- HEATSHRINK_DECODER_FINISH_RES (null-pointer error omitted). -/
inductive DFinishRes where
  | done
  | more
deriving DecidableEq, Repr

/-- heatshrink_decoder_finish. -/
def decoder_finish (d : Decoder) : DFinishRes :=
  match d.st with
  | .empty => .done
  | .backrefIndex => if d.input_size = 0 then .done else .more
  | .backrefCount => if d.input_size = 0 then .done else .more
  | _ => .more

/-- The number of buffered bits a one-hot (or zero) bit_index mask
represents: bit_index = 2^(b-1) means b bits of the current byte are
still unread, bit_index = 0 means none. -/
def bufferedBits (m : Nat) : Nat :=
  if 128 <= m then 8 else if 64 <= m then 7 else if 32 <= m then 6
  else if 16 <= m then 5 else if 8 <= m then 4 else if 4 <= m then 3
  else if 2 <= m then 2 else if 1 <= m then 1 else 0

/-- The decoder bit_index is either 0 (no byte in flight) or a one-hot
mask 0x80 .. 0x01. -/
def DBitIdxOk (b : Nat) : Prop :=
  b = 0 ∨ b = 1 ∨ b = 2 ∨ b = 4 ∨ b = 8 ∨ b = 16 ∨ b = 32 ∨ b = 64 ∨ b = 128

instance (b : Nat) : Decidable (DBitIdxOk b) := by
  unfold DBitIdxOk
  infer_instance

/-- The bits available to get_bits: the buffered bits of the current
byte plus eight per unread byte of the input region. -/
def davail (d : Decoder) : Nat :=
  bufferedBits d.bit_index + 8 * (d.input_size - d.input_index)

/-- The decoder input-region invariant: the staged compressed input
fits in the input region, and the read cursor is strictly inside it
(or the region is empty with the cursor reset). -/
def DInv (d : Decoder) : Prop :=
  d.input_size ≤ d.ibs
  ∧ (d.input_index < d.input_size ∨ (d.input_index = 0 ∧ d.input_size = 0))

instance (d : Decoder) : Decidable (DInv d) := by
  unfold DInv
  infer_instance

/-! ## Canonical drivers

The loops of compress_and_expand_and_check in the test harness: sink as
much input as is accepted, mark the stream finished once everything is
sunk, poll everything out, and repeat. -/

/-- One round of the encoder drive: sink the remaining input, finish if
all of it has now been sunk, then poll with a large buffer.  The state
is (encoder, remaining input, output so far). -/
def encDriveRound (useIdx : Bool) (cap fuel : Nat)
    (s : Encoder × List Nat × List Nat) :
    Option (Encoder × List Nat × List Nat) :=
  match encoder_sink s.1 s.2.1 with
  | (e1, acc, .ok) =>
    let rem := s.2.1.drop acc
    let e2 := if rem = [] then (encoder_finish e1).1 else e1
    match encoder_poll useIdx e2 cap fuel with
    | some (.empty, e3, o) => some (e3, rem, s.2.2 ++ o)
    | _ => none
  | _ => none

/-- Iterate encoder drive rounds. -/
def encDriveN (useIdx : Bool) (cap fuel : Nat)
    (s : Encoder × List Nat × List Nat) : Nat → Option (Encoder × List Nat × List Nat)
  | 0 => some s
  | n + 1 => (encDriveRound useIdx cap fuel s).bind fun s' => encDriveN useIdx cap fuel s' n

/-- Drive the encoder until the whole input is consumed and the stream
is done, with a round budget; returns the complete encoded output.
Mirrors the compress loop of compress_and_expand_and_check. -/
def encodeDrive (useIdx : Bool) (w l : Nat) (inp : List Nat) :
    Nat → (Encoder × List Nat × List Nat) → Option (List Nat)
  | 0, _ => none
  | rounds + 1, s =>
    match encDriveRound useIdx 4096 1000000 s with
    | some s' =>
      if s'.2.1 = [] then
        if (encoder_finish s'.1).2 = .done then some s'.2.2
        else none
      else encodeDrive useIdx w l inp rounds s'
    | none => none

/-- encode: full canonical compression of a byte list. -/
def encode (useIdx : Bool) (w l : Nat) (inp : List Nat) : Option (List Nat) :=
  encodeDrive useIdx w l inp (inp.length + 2) (encoder_reset w l, inp, [])

/-- The bit mask that walks the current output byte is always exactly
one of 0x80 .. 0x01. -/
def BitIdxOk (b : Nat) : Prop :=
  b = 128 ∨ b = 64 ∨ b = 32 ∨ b = 16 ∨ b = 8 ∨ b = 4 ∨ b = 2 ∨ b = 1

instance (b : Nat) : Decidable (BitIdxOk b) := by
  unfold BitIdxOk; infer_instance

/-- The encoder state invariant: the four invariants of the claim
(input_size bounded by the window, match_scan_index within the valid
input, FILLED only when the active half is full or the stream is
finishing, one-hot bit mask) plus the strengthening that makes them
inductive: the pending match always fits inside the valid input. -/
def EncInv (e : Encoder) : Prop :=
  e.input_size ≤ 2 ^ e.w
  ∧ e.msi ≤ e.input_size
  ∧ (e.st = EState.filled → e.input_size = 2 ^ e.w ∨ is_finishing e = true)
  ∧ BitIdxOk e.bit_index
  ∧ e.msi + e.match_length ≤ e.input_size

instance (e : Encoder) : Decidable (EncInv e) := by
  unfold EncInv; infer_instance

/-- The loop invariant of the candidate scans of find_longest_match:
acc = (match_maxlen, match_index) correctly summarises the candidates
in [lo, needle): either nothing above the break-even point was seen,
or acc records a length above it, attained at acc.2, maximal over the
range, with every candidate above acc.2 strictly smaller (the
first-reached tie-break). -/
def FlmInv (buf : List Nat) (needle maxlen lo : Nat) (acc : Nat × Nat) : Prop :=
  (acc.1 = 0 → ∀ q, lo ≤ q → q < needle → matchLen buf q needle maxlen ≤ 2)
  ∧ (0 < acc.1 →
      2 < acc.1 ∧ acc.1 ≤ maxlen ∧ lo ≤ acc.2 ∧ acc.2 < needle ∧
      matchLen buf acc.2 needle maxlen = acc.1 ∧
      (∀ q, lo ≤ q → q < needle → matchLen buf q needle maxlen ≤ acc.1) ∧
      (∀ q, acc.2 < q → q < needle → matchLen buf q needle maxlen < acc.1))

/-- The fields of the encoder that push_bits never touches. -/
def sameCore (e e' : Encoder) : Prop :=
  e'.w = e.w ∧ e'.l = e.l ∧ e'.buffer = e.buffer ∧ e'.input_size = e.input_size
  ∧ e'.msi = e.msi ∧ e'.flags = e.flags ∧ e'.st = e.st
  ∧ e'.match_pos = e.match_pos ∧ e'.match_length = e.match_length
  ∧ e'.search_index = e.search_index

/-- The livelocked encoder-drive state for window_sz2 = lookahead_sz2
= 4 on 17 input bytes: after two drive rounds, 16 bytes are sunk, one
byte remains, and the state repeats forever. -/
def c1Stuck : Encoder × List Nat × List Nat :=
  (encDriveN false 64 100 (encoder_reset 4 4, List.replicate 17 97, []) 2).getD
    (encoder_reset 4 4, [], [])

/-! ## Theorems -/

/-- Helper: the decoder poll loop only ever completes with EMPTY or
MORE (its ERROR_UNKNOWN default arm is unreachable: every decoder
state has a dispatch case). -/
theorem dPollLoop_result (fuel : Nat) :
    ∀ (cap : Nat) (d : Decoder) (out : List Nat) (tr : List DAccess)
      (r : DPollRes × Decoder × List Nat × List DAccess),
      dPollLoop cap fuel d out tr = some r →
      r.1 = DPollRes.empty ∨ r.1 = DPollRes.more := by
  induction fuel with
  | zero => intro cap d out tr r h; simp [dPollLoop] at h
  | succ n ih =>
    intro cap d out tr r h
    rw [dPollLoop] at h
    cases hst : d.st <;> simp only [hst] at h
    case empty => cases h; exact Or.inl rfl
    all_goals
      split at h
      · split at h
        · cases h; exact Or.inr rfl
        · cases h; exact Or.inl rfl
      · exact ih _ _ _ _ _ h

/-- C1.  The round-trip claim fails on the code: with the valid
configuration W = L = 4 and the 17-byte input 'a' * 17, the canonical
drive protocol (sink remaining, finish once all is sunk, poll all)
reaches after two rounds a state with one byte still unaccepted and no
output, and one further round maps this state to itself: the boundary
test of st_step_search (msi >= input_size - (fin ? 0 : lookahead_sz))
makes SEARCH save the backlog immediately when L = W, save_backlog
shifts by zero bytes, and the encoder accepts nothing and emits
nothing forever, so the input can never be fully fed to the encoder
and decode(encode(X)) = X fails. -/
theorem C1_roundtrip_livelock_L_eq_W :
    encDriveN false 64 100 (encoder_reset 4 4, List.replicate 17 97, []) 2 =
      some c1Stuck
    ∧ encDriveRound false 64 100 c1Stuck = some c1Stuck
    ∧ c1Stuck.2.1 = [97]
    ∧ c1Stuck.2.2 = []
    ∧ c1Stuck.1.st = EState.notFull
    ∧ c1Stuck.1.input_size = 16 := by
  refine ⟨by decide!, by decide!, by decide!, by decide!, by decide!, by decide!⟩

/-- C5 (amended).  Encoder sink after finish, encoder sink in a state
other than NOT_FULL, and encoder poll with a zero-capacity output
buffer all return the misuse error and leave the encoder unchanged;
the decoder poll, however, has no zero-capacity misuse check: whenever
it completes it returns EMPTY or MORE (its result type has no misuse
code at all). -/
theorem C5_sequencing_misuse (e : Encoder) (inp : List Nat) (useIdx : Bool)
    (fuel : Nat) (d : Decoder) (fuel2 : Nat)
    (r : DPollRes × Decoder × List Nat × List DAccess) :
    (is_finishing e = true → encoder_sink e inp = (e, 0, .errMisuse))
    ∧ (e.st ≠ EState.notFull → encoder_sink e inp = (e, 0, .errMisuse))
    ∧ encoder_poll useIdx e 0 fuel = some (.errMisuse, e, [])
    ∧ (decoder_poll d 0 fuel2 = some r →
        r.1 = DPollRes.empty ∨ r.1 = DPollRes.more) := by
  refine ⟨fun h => ?_, fun h => ?_, ?_, fun h => dPollLoop_result _ _ _ _ _ _ h⟩
  · simp [encoder_sink, h]
  · unfold encoder_sink
    split
    · rfl
    · simp [h]
  · simp [encoder_poll]

/-- Witness for C5_sequencing_misuse at a concrete encoder that is
both finishing and not in NOT_FULL, and a concrete decoder poll. -/
theorem C5_sequencing_misuse_witness :
    (encoder_sink { encoder_reset 4 3 with flags := 1, st := EState.filled } [5] =
      ({ encoder_reset 4 3 with flags := 1, st := EState.filled }, 0, .errMisuse))
    ∧ (decoder_poll (decoder_reset 4 4 3) 0 5).map Prod.fst = some DPollRes.empty := by
  have h := C5_sequencing_misuse
    { encoder_reset 4 3 with flags := 1, st := EState.filled } [5] false 3
    (decoder_reset 4 4 3) 5
    ((decoder_poll (decoder_reset 4 4 3) 0 5).getD (.empty, decoder_reset 4 4 3, [], []))
  exact ⟨h.1 (by decide), by decide!⟩

/-- Counterexample for C5 as stated: the claim requires decoder poll
with a zero-capacity output buffer to return ERR_MISUSE with the state
unchanged, but the decoder poll of the code performs no capacity
check: on a decoder holding one sunk byte it consumes the tag bit,
moves from INPUT_AVAILABLE to YIELD_LITERAL, and returns MORE. -/
theorem C5_decoder_poll_zero_cap_not_misuse :
    (decoder_poll ((decoder_sink (decoder_reset 16 8 4) [0xb3]).1) 0 50).map
        (fun r => (r.1, r.2.1.st)) =
      some (DPollRes.more, DState.yieldLiteral)
    ∧ ((decoder_sink (decoder_reset 16 8 4) [0xb3]).1).st = DState.inputAvailable := by
  exact ⟨by decide!, by decide!⟩

/-- C4 (amended).  If the output buffer is full, each of the four
yield states leaves the encoder unchanged and the poll loop returns
MORE; the FLUSH_BITS state with a pending partial byte also leaves the
encoder unchanged, but because the C switch lacks a break after its
case, control falls through into the DONE case and poll returns EMPTY
in the same iteration instead of MORE. -/
theorem C4_full_buffer_stall (useIdx : Bool) (e : Encoder) (out : List Nat)
    (cap fuel : Nat) (hfull : out.length = cap) :
    (e.st = EState.yieldTagBit →
      pollLoop useIdx cap (fuel + 1) e out = some (.more, e, out))
    ∧ (e.st = EState.yieldLiteral →
      pollLoop useIdx cap (fuel + 1) e out = some (.more, e, out))
    ∧ (e.st = EState.yieldBrIndex →
      pollLoop useIdx cap (fuel + 1) e out = some (.more, e, out))
    ∧ (e.st = EState.yieldBrLength →
      pollLoop useIdx cap (fuel + 1) e out = some (.more, e, out))
    ∧ (e.st = EState.flushBits → e.bit_index ≠ 0x80 →
      pollLoop useIdx cap (fuel + 1) e out = some (.empty, e, out)) := by
  have hcant : canTake out cap = false := by
    simp [canTake, hfull]
  refine ⟨fun h => ?_, fun h => ?_, fun h => ?_, fun h => ?_, fun h hbi => ?_⟩
  all_goals
    rw [pollLoop]
    rw [h]
  · simp only [st_yield_tag_bit, hcant, Bool.false_eq_true, if_false, hfull,
      if_pos rfl]
    have he : { e with st := EState.yieldTagBit } = e := by
      cases e; simp_all
    rw [he]; simp
  · simp only [st_yield_literal, hcant, Bool.false_eq_true, if_false, hfull,
      if_pos rfl]
    have he : { e with st := EState.yieldLiteral } = e := by
      cases e; simp_all
    rw [he]; simp
  · simp only [st_yield_br_index, hcant, Bool.false_eq_true, if_false, hfull,
      if_pos rfl]
    have he : { e with st := EState.yieldBrIndex } = e := by
      cases e; simp_all
    rw [he]; simp
  · simp only [st_yield_br_length, hcant, Bool.false_eq_true, if_false, hfull,
      if_pos rfl]
    have he : { e with st := EState.yieldBrLength } = e := by
      cases e; simp_all
    rw [he]; simp
  · simp only [st_flush_bit_buffer, hbi, if_neg hbi, hcant, Bool.false_eq_true,
      if_false]
    have he : { e with st := EState.flushBits } = e := by
      cases e; simp_all
    rw [he]

/-- Witness for C4_full_buffer_stall: a stalled YIELD_TAG_BIT state
and a stalled FLUSH_BITS state on a full (zero-capacity here) output
buffer. -/
theorem C4_full_buffer_stall_witness :
    pollLoop false 2 5 { encoder_reset 4 3 with st := EState.yieldTagBit } [9, 9] =
      some (.more, { encoder_reset 4 3 with st := EState.yieldTagBit }, [9, 9])
    ∧ pollLoop false 2 5
        { encoder_reset 4 3 with st := EState.flushBits, bit_index := 0x10 } [9, 9] =
      some (.empty,
        { encoder_reset 4 3 with st := EState.flushBits, bit_index := 0x10 }, [9, 9]) :=
  ⟨(C4_full_buffer_stall false { encoder_reset 4 3 with st := EState.yieldTagBit }
      [9, 9] 2 4 rfl).1 rfl,
   (C4_full_buffer_stall false
      { encoder_reset 4 3 with st := EState.flushBits, bit_index := 0x10 }
      [9, 9] 2 4 rfl).2.2.2.2 rfl (by decide)⟩

/-- Counterexample for C4 as stated: a full poll run on the 3-byte
input a b c with W = 4, L = 3 and output capacity 3 fills the buffer
with the three literal bytes and then stalls in FLUSH_BITS with a
pending partial byte (bit_index 0x10) and a full output buffer, yet
poll returns EMPTY, not MORE, because of the switch fall-through. -/
theorem C4_flush_bits_full_returns_empty :
    (encoder_poll false
        ((encoder_finish (encoder_sink (encoder_reset 4 3) [97, 98, 99]).1).1)
        3 400).map (fun r => (r.1, r.2.1.st, r.2.1.bit_index, r.2.2.length)) =
      some (EPollRes.empty, EState.flushBits, 0x10, 3) := by
  decide!

/-- Helper: the inner comparison loop never reports more than its cap. -/
theorem matchLen_le (buf : List Nat) :
    ∀ (m pos needle : Nat), matchLen buf pos needle m ≤ m := by
  intro m
  induction m with
  | zero => intro pos needle; simp [matchLen]
  | succ n ih =>
    intro pos needle
    rw [matchLen]
    split
    · exact Nat.succ_le_succ (ih _ _)
    · exact Nat.zero_le _

/-- Helper: one candidate step preserves the invariant, extending the
summarised range downwards by one position. -/
theorem flmStep_inv (buf : List Nat) (needle maxlen pos : Nat) (acc : Nat × Nat)
    (hpos : pos < needle) (hinv : FlmInv buf needle maxlen (pos + 1) acc) :
    FlmInv buf needle maxlen pos (flmStep buf needle maxlen pos acc).1 := by
  unfold FlmInv at hinv
  obtain ⟨hinv1, hinv2⟩ := hinv
  unfold flmStep
  by_cases hupd : 2 < matchLen buf pos needle maxlen
      ∧ acc.1 < matchLen buf pos needle maxlen
  · rw [if_pos hupd]
    unfold FlmInv
    dsimp only
    constructor
    · intro hz q hq1 hq2
      omega
    · intro _
      refine ⟨hupd.1, matchLen_le buf maxlen pos needle, Nat.le_refl pos, hpos,
        rfl, ?_, ?_⟩
      · intro q hq1 hq2
        rcases Nat.eq_or_lt_of_le hq1 with h | h
        · rw [← h]
        · rcases Nat.eq_zero_or_pos acc.1 with hm | hm
          · have := hinv1 hm q h hq2
            omega
          · have := (hinv2 hm).2.2.2.2.2.1 q h hq2
            omega
      · intro q hq1 hq2
        rcases Nat.eq_zero_or_pos acc.1 with hm | hm
        · have := hinv1 hm q (by omega) hq2
          omega
        · have := (hinv2 hm).2.2.2.2.2.1 q (by omega) hq2
          omega
  · rw [if_neg hupd]
    unfold FlmInv
    dsimp only
    constructor
    · intro hz q hq1 hq2
      rcases Nat.eq_or_lt_of_le hq1 with h | h
      · rw [← h]
        omega
      · exact hinv1 hz q h hq2
    · intro hp
      have h2 := hinv2 hp
      refine ⟨h2.1, h2.2.1, by omega, h2.2.2.2.1, h2.2.2.2.2.1, ?_,
        h2.2.2.2.2.2.2⟩
      intro q hq1 hq2
      rcases Nat.eq_or_lt_of_le hq1 with h | h
      · rw [← h]
        omega
      · exact h2.2.2.2.2.2.1 q h hq2

/-- Helper: when the early exit fires (a recorded length reached
maxlen), the invariant holds down to any lower bound at most pos,
because no candidate can beat maxlen. -/
theorem flmStep_brk (buf : List Nat) (needle maxlen pos : Nat) (acc : Nat × Nat)
    (lo : Nat) (hlo : lo ≤ pos) (hpos : pos < needle)
    (hinv : FlmInv buf needle maxlen (pos + 1) acc)
    (hbrk : (flmStep buf needle maxlen pos acc).2 = true) :
    FlmInv buf needle maxlen lo (flmStep buf needle maxlen pos acc).1 := by
  unfold FlmInv at hinv
  obtain ⟨hinv1, hinv2⟩ := hinv
  unfold flmStep at hbrk ⊢
  by_cases hupd : 2 < matchLen buf pos needle maxlen
      ∧ acc.1 < matchLen buf pos needle maxlen
  · rw [if_pos hupd] at hbrk ⊢
    dsimp only at hbrk
    have hml : matchLen buf pos needle maxlen = maxlen := by
      simpa using hbrk
    unfold FlmInv
    dsimp only
    constructor
    · intro hz q hq1 hq2
      omega
    · intro _
      refine ⟨hupd.1, matchLen_le buf maxlen pos needle, hlo, hpos, rfl, ?_, ?_⟩
      · intro q hq1 hq2
        have := matchLen_le buf maxlen q needle
        omega
      · intro q hq1 hq2
        rcases Nat.eq_zero_or_pos acc.1 with hm | hm
        · have := hinv1 hm q (by omega) hq2
          omega
        · have := (hinv2 hm).2.2.2.2.2.1 q (by omega) hq2
          omega
  · rw [if_neg hupd] at hbrk
    simp at hbrk

/-- Helper: running the scan from position start + k down to start
turns an invariant for the empty-so-far range into one for the whole
candidate range. -/
theorem flmLoop_inv (buf : List Nat) (start needle maxlen : Nat) :
    ∀ (k : Nat) (acc : Nat × Nat), start + k < needle →
      FlmInv buf needle maxlen (start + k + 1) acc →
      FlmInv buf needle maxlen start (flmLoop buf start needle maxlen k acc) := by
  intro k
  induction k with
  | zero =>
    intro acc hk hinv
    rw [flmLoop]
    exact flmStep_inv buf needle maxlen start acc hk hinv
  | succ n ih =>
    intro acc hk hinv
    rw [flmLoop]
    by_cases hbrk : (flmStep buf needle maxlen (start + n + 1) acc).2 = true
    · rw [if_pos hbrk]
      exact flmStep_brk buf needle maxlen (start + n + 1) acc start (by omega) hk
        hinv hbrk
    · rw [if_neg hbrk]
      refine ih _ (by omega) ?_
      exact flmStep_inv buf needle maxlen (start + n + 1) acc hk hinv

/-- C7.  find_longest_match returns the longest match in
[start, end-1] against the bytes at end: when it reports
(distance, length), the length is above the break-even point (strictly
greater than 2) and at most maxlen and is the maximum of the
per-candidate match lengths over the whole range, the candidate
end - distance attains it, and every candidate above end - distance
(reached earlier in the most-recent-first scan order) has a strictly
smaller match length, so a later candidate of equal length never
replaces the first one reached; when it reports no match, every
candidate matches at most 2 bytes. -/
theorem C7_find_longest_match_correct (buf : List Nat) (start end_ maxlen : Nat)
    (hse : start ≤ end_) :
    (find_longest_match buf start end_ maxlen = none →
      ∀ q, start ≤ q → q < end_ → matchLen buf q end_ maxlen ≤ 2)
    ∧ (∀ dist len, find_longest_match buf start end_ maxlen = some (dist, len) →
        2 < len ∧ len ≤ maxlen ∧ 1 ≤ dist ∧ dist ≤ end_ - start ∧
        matchLen buf (end_ - dist) end_ maxlen = len ∧
        (∀ q, start ≤ q → q < end_ → matchLen buf q end_ maxlen ≤ len) ∧
        (∀ q, end_ - dist < q → q < end_ → matchLen buf q end_ maxlen < len)) := by
  unfold find_longest_match
  by_cases heq : start = end_
  · rw [if_pos heq]
    constructor
    · intro _ q hq1 hq2; omega
    · intro dist len h; cases h
  · rw [if_neg heq]
    have hlt : start < end_ := by omega
    have hinv0 : FlmInv buf end_ maxlen (start + (end_ - 1 - start) + 1)
        (0, MATCH_NOT_FND) := by
      refine ⟨fun _ q hq1 hq2 => by omega, fun h => by omega⟩
    have hspec := flmLoop_inv buf start end_ maxlen (end_ - 1 - start)
      (0, MATCH_NOT_FND) (by omega) hinv0
    set r := flmLoop buf start end_ maxlen (end_ - 1 - start) (0, MATCH_NOT_FND)
      with hr
    constructor
    · intro hnone
      have hz : r.1 = 0 := by
        by_contra hnz
        rw [if_pos (by omega)] at hnone
        cases hnone
      intro q hq1 hq2
      exact hspec.1 hz q hq1 hq2
    · intro dist len hsome
      have hpos : 0 < r.1 := by
        by_contra hz
        rw [if_neg hz] at hsome
        cases hsome
      rw [if_pos hpos] at hsome
      have h2 := hspec.2 hpos
      have hdl : dist = end_ - r.2 ∧ len = r.1 := by
        cases hsome; exact ⟨rfl, rfl⟩
      obtain ⟨hd, hl⟩ := hdl
      subst hd hl
      have hsub : end_ - (end_ - r.2) = r.2 := by omega
      refine ⟨h2.1, h2.2.1, by omega, by omega, by rw [hsub]; exact h2.2.2.2.2.1,
        h2.2.2.2.2.2.1, ?_⟩
      rw [hsub]
      exact h2.2.2.2.2.2.2

/-- Witness for C7_find_longest_match_correct: on a run of equal
bytes, searching candidates [2,4] against position 5 with maxlen 3
finds distance 1, length 3: the first candidate reached. -/
theorem C7_find_longest_match_correct_witness :
    find_longest_match (List.replicate 8 5) 2 5 3 = some (1, 3)
    ∧ 2 < 3 ∧ matchLen (List.replicate 8 5) (5 - 1) 5 3 = 3 := by
  have h := C7_find_longest_match_correct (List.replicate 8 5) 2 5 3 (by decide)
  have hfind : find_longest_match (List.replicate 8 5) 2 5 3 = some (1, 3) := by
    decide
  have h2 := h.2 1 3 hfind
  exact ⟨hfind, h2.1, h2.2.2.2.2.1⟩

/-- Helper: halving a one-hot mask gives a one-hot mask unless it hits
zero. -/
theorem BitIdxOk_shift {b : Nat} (hb : BitIdxOk b) (hnz : ¬ b >>> 1 = 0) :
    BitIdxOk (b >>> 1) := by
  rcases hb with h | h | h | h | h | h | h | h <;> subst h <;>
    first
      | decide
      | exact absurd (by decide) hnz

/-- Helper: push_bits only changes current_byte, bit_index and the
output. -/
theorem push_bits_core : ∀ (c bits : Nat) (e : Encoder) (out : List Nat),
    sameCore e (push_bits c bits e out).1 := by
  intro c
  induction c with
  | zero =>
    intro bits e out
    exact ⟨rfl, rfl, rfl, rfl, rfl, rfl, rfl, rfl, rfl, rfl⟩
  | succ n ih =>
    intro bits e out
    rw [push_bits]
    split
    · exact ih bits { e with current_byte := 0, bit_index := 0x80 } (out ++ [_])
    · exact ih bits { e with current_byte := _, bit_index := e.bit_index >>> 1 } out

/-- Helper: push_bits keeps the bit mask one-hot. -/
theorem push_bits_bitIdx : ∀ (c bits : Nat) (e : Encoder) (out : List Nat),
    BitIdxOk e.bit_index → BitIdxOk (push_bits c bits e out).1.bit_index := by
  intro c
  induction c with
  | zero => intro bits e out h; exact h
  | succ n ih =>
    intro bits e out h
    rw [push_bits]
    split
    · exact ih bits { e with current_byte := 0, bit_index := 0x80 } (out ++ [_])
        (Or.inl rfl)
    · exact ih bits { e with current_byte := _, bit_index := e.bit_index >>> 1 } out
        (BitIdxOk_shift h (by assumption))

/-- Helper: a recorded candidate length never exceeds maxlen (for any
accumulator and any index contents). -/
theorem flmStep_le (buf : List Nat) (needle maxlen pos : Nat) (acc : Nat × Nat) :
    (flmStep buf needle maxlen pos acc).1.1 ≤ max acc.1 maxlen := by
  simp only [flmStep]
  split
  · have := matchLen_le buf maxlen pos needle
    show matchLen buf pos needle maxlen ≤ max acc.1 maxlen
    omega
  · show acc.1 ≤ max acc.1 maxlen
    omega

/-- Helper: the non-indexed scan result length is bounded by the
accumulator and maxlen. -/
theorem flmLoop_le (buf : List Nat) (start needle maxlen : Nat) :
    ∀ (k : Nat) (acc : Nat × Nat),
      (flmLoop buf start needle maxlen k acc).1 ≤ max acc.1 maxlen := by
  intro k
  induction k with
  | zero =>
    intro acc
    rw [flmLoop]
    exact flmStep_le buf needle maxlen start acc
  | succ n ih =>
    intro acc
    rw [flmLoop]
    split
    · exact flmStep_le buf needle maxlen (start + n + 1) acc
    · have h1 := ih (flmStep buf needle maxlen (start + n + 1) acc).1
      have h2 := flmStep_le buf needle maxlen (start + n + 1) acc
      omega

/-- Helper: the indexed scan result length is bounded by the
accumulator and maxlen, for arbitrary index contents. -/
theorem flmIdxLoop_le (buf idx : List Nat) (start needle maxlen : Nat) :
    ∀ (fuel pos : Nat) (acc : Nat × Nat),
      (flmIdxLoop buf idx start needle maxlen fuel pos acc).1 ≤ max acc.1 maxlen := by
  intro fuel
  induction fuel with
  | zero => intro pos acc; rw [flmIdxLoop]; omega
  | succ n ih =>
    intro pos acc
    rw [flmIdxLoop]
    split
    · omega
    · split
      · exact flmStep_le buf needle maxlen pos acc
      · split
        · exact flmStep_le buf needle maxlen pos acc
        · have h1 := ih (idxget idx pos) (flmStep buf needle maxlen pos acc).1
          have h2 := flmStep_le buf needle maxlen pos acc
          omega

/-- Helper: a match reported by the non-indexed find_longest_match has
length at most maxlen. -/
theorem find_longest_match_len_le {buf : List Nat} {start end_ maxlen dist len : Nat}
    (h : find_longest_match buf start end_ maxlen = some (dist, len)) :
    len ≤ maxlen := by
  simp only [find_longest_match] at h
  split at h
  · cases h
  · split at h
    · have := flmLoop_le buf start end_ maxlen (end_ - 1 - start) (0, MATCH_NOT_FND)
      cases h
      omega
    · cases h

/-- Helper: a match reported by the indexed find_longest_match has
length at most maxlen, whatever the index contains. -/
theorem find_longest_match_idx_len_le {buf idx : List Nat}
    {start end_ maxlen dist len : Nat}
    (h : find_longest_match_idx buf idx start end_ maxlen = some (dist, len)) :
    len ≤ maxlen := by
  simp only [find_longest_match_idx] at h
  split at h
  · cases h
  · split at h
    · cases h
    · split at h
      · have := flmIdxLoop_le buf idx start end_ maxlen (end_ + 1)
          (idxget idx end_) (0, MATCH_NOT_FND)
        cases h
        omega
      · cases h

/-- Helper: a match reported by searchRes fits in the remaining
input. -/
theorem searchRes_len_le {useIdx : Bool} {e : Encoder} {dist len : Nat}
    (h : searchRes useIdx e = some (dist, len)) :
    len ≤ min (lasz e) (e.input_size - e.msi) := by
  unfold searchRes at h
  split at h
  · exact find_longest_match_idx_len_le h
  · exact find_longest_match_len_le h

/-- Helper: st_step_search preserves the invariant (with the state the
poll loop will store). -/
theorem st_step_search_inv (useIdx : Bool) (e : Encoder) (h : EncInv e) :
    EncInv { (st_step_search useIdx e).1 with st := (st_step_search useIdx e).2 } := by
  obtain ⟨hA, hB, hC, hD, hE⟩ := h
  rw [st_step_search]
  by_cases hb : e.input_size ≤ e.msi + (if is_finishing e = true then 0 else lasz e)
  · rw [if_pos hb]
    exact ⟨hA, hB, fun hc => EState.noConfusion hc, hD, hE⟩
  · rw [if_neg hb]
    rcases hres : searchRes useIdx e with _ | ⟨dist, len⟩
    · refine ⟨hA, ?_, fun hc => EState.noConfusion hc, hD, ?_⟩
      · show e.msi + 1 ≤ e.input_size
        omega
      · show e.msi + 1 + 0 ≤ e.input_size
        omega
    · have hlen := searchRes_len_le hres
      refine ⟨hA, hB, fun hc => EState.noConfusion hc, hD, ?_⟩
      show e.msi + len ≤ e.input_size
      omega

/-- Helper: push_outgoing_bits only changes current_byte, bit_index,
outgoing_count and the output. -/
theorem push_outgoing_bits_core (e : Encoder) (out : List Nat) :
    sameCore e (push_outgoing_bits e out).1 := by
  unfold push_outgoing_bits
  exact push_bits_core _ _ e out

/-- Helper: push_outgoing_bits keeps the bit mask one-hot. -/
theorem push_outgoing_bits_bitIdx (e : Encoder) (out : List Nat)
    (h : BitIdxOk e.bit_index) :
    BitIdxOk (push_outgoing_bits e out).1.bit_index := by
  unfold push_outgoing_bits
  exact push_bits_bitIdx _ _ e out h

/-- Helper: EncInv transfers along sameCore together with a one-hot
bit mask, for any stored non-FILLED state. -/
theorem EncInv_of_sameCore (e e' : Encoder) (st : EState)
    (hcore : sameCore e e') (hbi : BitIdxOk e'.bit_index)
    (hst : st ≠ EState.filled) (h : EncInv e) :
    EncInv { e' with st := st } := by
  obtain ⟨hA, hB, hC, hD, hE⟩ := h
  obtain ⟨hw, hl, hbuf, his, hmsi, hfl, hstc, hmp, hml, hsi⟩ := hcore
  refine ⟨?_, ?_, ?_, ?_, ?_⟩
  · show e'.input_size ≤ 2 ^ e'.w
    rw [his, hw]
    exact hA
  · show e'.msi ≤ e'.input_size
    rw [hmsi, his]
    exact hB
  · intro hcon
    exact absurd hcon hst
  · show BitIdxOk e'.bit_index
    exact hbi
  · show e'.msi + e'.match_length ≤ e'.input_size
    rw [hmsi, hml, his]
    exact hE

/-- Helper: st_yield_tag_bit preserves the invariant. -/
theorem st_yield_tag_bit_inv (e : Encoder) (out : List Nat) (cap : Nat)
    (h : EncInv e) :
    EncInv { (st_yield_tag_bit e out cap).1 with
             st := (st_yield_tag_bit e out cap).2.2 } := by
  simp only [st_yield_tag_bit]
  split
  · split
    · refine EncInv_of_sameCore e _ EState.yieldLiteral ?_ ?_
        (fun hc => EState.noConfusion hc) h
      · exact push_bits_core 1 1 e out
      · exact push_bits_bitIdx 1 1 e out h.2.2.2.1
    · refine EncInv_of_sameCore e _ EState.yieldBrIndex ?_ ?_
        (fun hc => EState.noConfusion hc) h
      · exact push_bits_core 1 0 e out
      · exact push_bits_bitIdx 1 0 e out h.2.2.2.1
  · refine EncInv_of_sameCore e e EState.yieldTagBit
      ⟨rfl, rfl, rfl, rfl, rfl, rfl, rfl, rfl, rfl, rfl⟩ h.2.2.2.1
      (fun hc => EState.noConfusion hc) h

/-- Helper: the literal-push step of st_yield_literal preserves the
invariant for any stored non-FILLED next state. -/
theorem EncInv_litStep (e : Encoder) (out : List Nat) (st : EState)
    (hst : st ≠ EState.filled) (h : EncInv e) :
    EncInv { (push_literal_byte e out).1 with
             flags := (push_literal_byte e out).1.flags &&& 0xFD, st := st } := by
  have hbi := push_bits_bitIdx 8 (bget e.buffer (inputOffset e + (e.msi - 1))) e out
    h.2.2.2.1
  obtain ⟨hw, hl, hbuf, his, hmsi, hfl, hstc, hmp, hml, hsi⟩ :=
    push_bits_core 8 (bget e.buffer (inputOffset e + (e.msi - 1))) e out
  obtain ⟨hA, hB, hC, hD, hE⟩ := h
  refine ⟨?_, ?_, fun hc => absurd hc hst, ?_, ?_⟩
  · show (push_bits 8 (bget e.buffer (inputOffset e + (e.msi - 1))) e out).1.input_size
      ≤ 2 ^ (push_bits 8 (bget e.buffer (inputOffset e + (e.msi - 1))) e out).1.w
    rw [his, hw]
    exact hA
  · show (push_bits 8 (bget e.buffer (inputOffset e + (e.msi - 1))) e out).1.msi
      ≤ (push_bits 8 (bget e.buffer (inputOffset e + (e.msi - 1))) e out).1.input_size
    rw [hmsi, his]
    exact hB
  · show BitIdxOk
      (push_bits 8 (bget e.buffer (inputOffset e + (e.msi - 1))) e out).1.bit_index
    exact hbi
  · show (push_bits 8 (bget e.buffer (inputOffset e + (e.msi - 1))) e out).1.msi
        + (push_bits 8 (bget e.buffer (inputOffset e + (e.msi - 1))) e out).1.match_length
      ≤ (push_bits 8 (bget e.buffer (inputOffset e + (e.msi - 1))) e out).1.input_size
    rw [hmsi, hml, his]
    exact hE

/-- Helper: st_yield_literal preserves the invariant. -/
theorem st_yield_literal_inv (e : Encoder) (out : List Nat) (cap : Nat)
    (h : EncInv e) :
    EncInv { (st_yield_literal e out cap).1 with
             st := (st_yield_literal e out cap).2.2 } := by
  simp only [st_yield_literal]
  split
  · split
    · exact EncInv_litStep e out EState.flushBits (fun hc => EState.noConfusion hc) h
    · split
      · exact EncInv_litStep e out EState.yieldTagBit (fun hc => EState.noConfusion hc) h
      · exact EncInv_litStep e out EState.search (fun hc => EState.noConfusion hc) h
  · obtain ⟨hA, hB, hC, hD, hE⟩ := h
    exact ⟨hA, hB, fun hc => EState.noConfusion hc, hD, hE⟩

/-- Helper: st_yield_br_index preserves the invariant. -/
theorem st_yield_br_index_inv (e : Encoder) (out : List Nat) (cap : Nat)
    (h : EncInv e) :
    EncInv { (st_yield_br_index e out cap).1 with
             st := (st_yield_br_index e out cap).2.2 } := by
  simp only [st_yield_br_index]
  split
  · split
    · refine EncInv_of_sameCore e _ EState.yieldBrIndex ?_ ?_
        (fun hc => EState.noConfusion hc) h
      · exact push_outgoing_bits_core e out
      · exact push_outgoing_bits_bitIdx e out h.2.2.2.1
    · refine EncInv_of_sameCore e _ EState.yieldBrLength ?_ ?_
        (fun hc => EState.noConfusion hc) h
      · exact push_outgoing_bits_core e out
      · exact push_outgoing_bits_bitIdx e out h.2.2.2.1
  · refine EncInv_of_sameCore e e EState.yieldBrIndex
      ⟨rfl, rfl, rfl, rfl, rfl, rfl, rfl, rfl, rfl, rfl⟩ h.2.2.2.1
      (fun hc => EState.noConfusion hc) h

/-- Helper: st_yield_br_length preserves the invariant. -/
theorem st_yield_br_length_inv (e : Encoder) (out : List Nat) (cap : Nat)
    (h : EncInv e) :
    EncInv { (st_yield_br_length e out cap).1 with
             st := (st_yield_br_length e out cap).2.2 } := by
  simp only [st_yield_br_length]
  have hbi := push_outgoing_bits_bitIdx e out h.2.2.2.1
  obtain ⟨hw, hl, hbuf, his, hmsi, hfl, hstc, hmp, hml, hsi⟩ :=
    push_outgoing_bits_core e out
  obtain ⟨hA, hB, hC, hD, hE⟩ := h
  split
  · split
    · refine EncInv_of_sameCore e _ EState.yieldBrLength ?_ hbi
        (fun hc => EState.noConfusion hc) ⟨hA, hB, hC, hD, hE⟩
      exact ⟨hw, hl, hbuf, his, hmsi, hfl, hstc, hmp, hml, hsi⟩
    · refine ⟨?_, ?_, fun hc => EState.noConfusion hc, ?_, ?_⟩
      · show (push_outgoing_bits e out).1.input_size
          ≤ 2 ^ (push_outgoing_bits e out).1.w
        rw [his, hw]
        exact hA
      · show (push_outgoing_bits e out).1.msi
            + (push_outgoing_bits e out).1.match_length
          ≤ (push_outgoing_bits e out).1.input_size
        rw [hmsi, hml, his]
        exact hE
      · show BitIdxOk (push_outgoing_bits e out).1.bit_index
        exact hbi
      · show (push_outgoing_bits e out).1.msi
            + (push_outgoing_bits e out).1.match_length + 0
          ≤ (push_outgoing_bits e out).1.input_size
        rw [hmsi, hml, his]
        omega
  · exact ⟨hA, hB, fun hc => EState.noConfusion hc, hD, hE⟩

/-- Helper: st_save_backlog preserves the invariant. -/
theorem st_save_backlog_inv (e : Encoder) (h : EncInv e) :
    EncInv { (st_save_backlog e).1 with st := (st_save_backlog e).2 } := by
  obtain ⟨hA, hB, hC, hD, hE⟩ := h
  rw [st_save_backlog]
  split
  · split
    · exact ⟨hA, hB, fun hc => EState.noConfusion hc, hD, hE⟩
    · exact ⟨hA, hB, fun hc => EState.noConfusion hc, hD, hE⟩
  · have hib : ibsz e = 2 ^ e.w := rfl
    refine ⟨?_, ?_, fun hc => EState.noConfusion hc, hD, ?_⟩
    · show e.input_size - (ibsz e - (ibsz e - e.msi)) ≤ 2 ^ e.w
      omega
    · show 0 ≤ e.input_size - (ibsz e - (ibsz e - e.msi))
      omega
    · show 0 + e.match_length ≤ e.input_size - (ibsz e - (ibsz e - e.msi))
      omega

/-- Helper: st_flush_bit_buffer preserves the invariant. -/
theorem st_flush_bit_buffer_inv (e : Encoder) (out : List Nat) (cap : Nat)
    (h : EncInv e) :
    EncInv { (st_flush_bit_buffer e out cap).1 with
             st := (st_flush_bit_buffer e out cap).2.2 } := by
  obtain ⟨hA, hB, hC, hD, hE⟩ := h
  rw [st_flush_bit_buffer]
  split
  · exact ⟨hA, hB, fun hc => EState.noConfusion hc, hD, hE⟩
  · split
    · exact ⟨hA, hB, fun hc => EState.noConfusion hc, hD, hE⟩
    · exact ⟨hA, hB, fun hc => EState.noConfusion hc, hD, hE⟩

/-- Helper: the encoder poll loop preserves the invariant. -/
theorem pollLoop_inv (useIdx : Bool) (cap : Nat) :
    ∀ (fuel : Nat) (e : Encoder) (out : List Nat)
      (r : EPollRes × Encoder × List Nat),
      EncInv e → pollLoop useIdx cap fuel e out = some r → EncInv r.2.1 := by
  intro fuel
  induction fuel with
  | zero => intro e out r h hp; simp [pollLoop] at hp
  | succ n ih =>
    intro e out r h hp
    simp only [pollLoop] at hp
    obtain ⟨hA, hB, hC, hD, hE⟩ := h
    revert hp
    cases hst : e.st <;> intro hp
    case notFull =>
      cases hp
      exact ⟨hA, hB, hC, hD, hE⟩
    case done =>
      cases hp
      exact ⟨hA, hB, hC, hD, hE⟩
    case flushBits =>
      cases hp
      exact st_flush_bit_buffer_inv e out cap ⟨hA, hB, hC, hD, hE⟩
    case filled =>
      change pollLoop useIdx cap n
        { (if useIdx = true then
             { e with st := EState.filled, search_index := buildIndex e }
           else e) with
          st := EState.search } out = some r at hp
      refine ih _ _ _ ?_ hp
      split
      · exact ⟨hA, hB, fun hc => EState.noConfusion hc, hD, hE⟩
      · exact ⟨hA, hB, fun hc => EState.noConfusion hc, hD, hE⟩
    case search =>
      have hstep := st_step_search_inv useIdx e ⟨hA, hB, hC, hD, hE⟩
      change (if (st_step_search useIdx e).2 = EState.search then
          if out.length = cap then
            some (EPollRes.more,
              { (st_step_search useIdx e).1 with st := (st_step_search useIdx e).2 },
              out)
          else pollLoop useIdx cap n
            { (st_step_search useIdx e).1 with st := (st_step_search useIdx e).2 } out
        else pollLoop useIdx cap n
          { (st_step_search useIdx e).1 with st := (st_step_search useIdx e).2 } out)
        = some r at hp
      split at hp
      · split at hp
        · cases hp
          exact hstep
        · exact ih _ _ _ hstep hp
      · exact ih _ _ _ hstep hp
    case yieldTagBit =>
      have hstep := st_yield_tag_bit_inv e out cap ⟨hA, hB, hC, hD, hE⟩
      change (if (st_yield_tag_bit e out cap).2.2 = EState.yieldTagBit then
          if (st_yield_tag_bit e out cap).2.1.length = cap then
            some (EPollRes.more,
              { (st_yield_tag_bit e out cap).1 with
                st := (st_yield_tag_bit e out cap).2.2 },
              (st_yield_tag_bit e out cap).2.1)
          else pollLoop useIdx cap n
            { (st_yield_tag_bit e out cap).1 with
              st := (st_yield_tag_bit e out cap).2.2 }
            (st_yield_tag_bit e out cap).2.1
        else pollLoop useIdx cap n
          { (st_yield_tag_bit e out cap).1 with
            st := (st_yield_tag_bit e out cap).2.2 }
          (st_yield_tag_bit e out cap).2.1)
        = some r at hp
      split at hp
      · split at hp
        · cases hp
          exact hstep
        · exact ih _ _ _ hstep hp
      · exact ih _ _ _ hstep hp
    case yieldLiteral =>
      have hstep := st_yield_literal_inv e out cap ⟨hA, hB, hC, hD, hE⟩
      change (if (st_yield_literal e out cap).2.2 = EState.yieldLiteral then
          if (st_yield_literal e out cap).2.1.length = cap then
            some (EPollRes.more,
              { (st_yield_literal e out cap).1 with
                st := (st_yield_literal e out cap).2.2 },
              (st_yield_literal e out cap).2.1)
          else pollLoop useIdx cap n
            { (st_yield_literal e out cap).1 with
              st := (st_yield_literal e out cap).2.2 }
            (st_yield_literal e out cap).2.1
        else pollLoop useIdx cap n
          { (st_yield_literal e out cap).1 with
            st := (st_yield_literal e out cap).2.2 }
          (st_yield_literal e out cap).2.1)
        = some r at hp
      split at hp
      · split at hp
        · cases hp
          exact hstep
        · exact ih _ _ _ hstep hp
      · exact ih _ _ _ hstep hp
    case yieldBrIndex =>
      have hstep := st_yield_br_index_inv e out cap ⟨hA, hB, hC, hD, hE⟩
      change (if (st_yield_br_index e out cap).2.2 = EState.yieldBrIndex then
          if (st_yield_br_index e out cap).2.1.length = cap then
            some (EPollRes.more,
              { (st_yield_br_index e out cap).1 with
                st := (st_yield_br_index e out cap).2.2 },
              (st_yield_br_index e out cap).2.1)
          else pollLoop useIdx cap n
            { (st_yield_br_index e out cap).1 with
              st := (st_yield_br_index e out cap).2.2 }
            (st_yield_br_index e out cap).2.1
        else pollLoop useIdx cap n
          { (st_yield_br_index e out cap).1 with
            st := (st_yield_br_index e out cap).2.2 }
          (st_yield_br_index e out cap).2.1)
        = some r at hp
      split at hp
      · split at hp
        · cases hp
          exact hstep
        · exact ih _ _ _ hstep hp
      · exact ih _ _ _ hstep hp
    case yieldBrLength =>
      have hstep := st_yield_br_length_inv e out cap ⟨hA, hB, hC, hD, hE⟩
      change (if (st_yield_br_length e out cap).2.2 = EState.yieldBrLength then
          if (st_yield_br_length e out cap).2.1.length = cap then
            some (EPollRes.more,
              { (st_yield_br_length e out cap).1 with
                st := (st_yield_br_length e out cap).2.2 },
              (st_yield_br_length e out cap).2.1)
          else pollLoop useIdx cap n
            { (st_yield_br_length e out cap).1 with
              st := (st_yield_br_length e out cap).2.2 }
            (st_yield_br_length e out cap).2.1
        else pollLoop useIdx cap n
          { (st_yield_br_length e out cap).1 with
            st := (st_yield_br_length e out cap).2.2 }
          (st_yield_br_length e out cap).2.1)
        = some r at hp
      split at hp
      · split at hp
        · cases hp
          exact hstep
        · exact ih _ _ _ hstep hp
      · exact ih _ _ _ hstep hp
    case saveBacklog =>
      have hstep := st_save_backlog_inv e ⟨hA, hB, hC, hD, hE⟩
      change (if (st_save_backlog e).2 = EState.saveBacklog then
          if out.length = cap then
            some (EPollRes.more,
              { (st_save_backlog e).1 with st := (st_save_backlog e).2 }, out)
          else pollLoop useIdx cap n
            { (st_save_backlog e).1 with st := (st_save_backlog e).2 } out
        else pollLoop useIdx cap n
          { (st_save_backlog e).1 with st := (st_save_backlog e).2 } out)
        = some r at hp
      split at hp
      · split at hp
        · cases hp
          exact hstep
        · exact ih _ _ _ hstep hp
      · exact ih _ _ _ hstep hp

/-- Helper: fresh encoders satisfy the invariant. -/
theorem encoder_reset_inv (w l : Nat) : EncInv (encoder_reset w l) := by
  refine ⟨Nat.zero_le _, Nat.le_refl _, fun hc => EState.noConfusion hc,
    Or.inl rfl, Nat.le_refl _⟩

/-- Helper: encoder_sink preserves the invariant. -/
theorem encoder_sink_inv (e : Encoder) (inp : List Nat) (h : EncInv e) :
    EncInv (encoder_sink e inp).1 := by
  obtain ⟨hA, hB, hC, hD, hE⟩ := h
  have hib : ibsz e = 2 ^ e.w := rfl
  have hle := Nat.min_le_left (ibsz e - e.input_size) inp.length
  simp only [encoder_sink]
  split
  · exact ⟨hA, hB, hC, hD, hE⟩
  · split
    · exact ⟨hA, hB, hC, hD, hE⟩
    next hok =>
      rw [Decidable.not_not] at hok
      by_cases hcp : min (ibsz e - e.input_size) inp.length = ibsz e - e.input_size
      · rw [if_pos hcp]
        refine ⟨?_, ?_, ?_, hD, ?_⟩
        · show e.input_size + min (ibsz e - e.input_size) inp.length ≤ 2 ^ e.w
          omega
        · show e.msi ≤ e.input_size + min (ibsz e - e.input_size) inp.length
          omega
        · intro _
          left
          show e.input_size + min (ibsz e - e.input_size) inp.length = 2 ^ e.w
          rw [hcp]
          omega
        · show e.msi + e.match_length
            ≤ e.input_size + min (ibsz e - e.input_size) inp.length
          omega
      · rw [if_neg hcp]
        refine ⟨?_, ?_, ?_, hD, ?_⟩
        · show e.input_size + min (ibsz e - e.input_size) inp.length ≤ 2 ^ e.w
          omega
        · show e.msi ≤ e.input_size + min (ibsz e - e.input_size) inp.length
          omega
        · intro hcon
          have hcon2 : e.st = EState.filled := hcon
          rw [hok] at hcon2
          exact EState.noConfusion hcon2
        · show e.msi + e.match_length
            ≤ e.input_size + min (ibsz e - e.input_size) inp.length
          omega

/-- Helper: setting the finishing flag makes is_finishing true. -/
theorem is_finishing_or_one (e : Encoder) :
    is_finishing { e with flags := e.flags ||| 1 } = true := by
  unfold is_finishing
  simp only [decide_eq_true_eq, ne_eq]
  intro hcon
  have ht : Nat.testBit 1 0 = true := by decide
  have h1 : ((e.flags ||| 1) &&& 1).testBit 0 = true := by
    rw [Nat.testBit_and, Nat.testBit_or, ht]
    simp
  rw [hcon] at h1
  exact absurd h1 (by decide)

/-- Helper: encoder_finish preserves the invariant. -/
theorem encoder_finish_inv (e : Encoder) (h : EncInv e) :
    EncInv (encoder_finish e).1 := by
  obtain ⟨hA, hB, hC, hD, hE⟩ := h
  rw [encoder_finish]
  split
  · exact ⟨hA, hB, fun _ => Or.inr (is_finishing_or_one e), hD, hE⟩
  · exact ⟨hA, hB, fun _ => Or.inr (is_finishing_or_one e), hD, hE⟩

/-- C6.  Every encoder operation preserves the state invariants
claimed by the spec: input_size bounded by 2^W, match_scan_index at
most input_size, FILLED implying a full active half or the finishing
flag, and a one-hot bit_index in 0x80 .. 0x01.  EncInv is the claimed
conjunction strengthened with the inductive fact that the pending
match fits inside the valid input (needed to preserve
match_scan_index <= input_size across YIELD_BR_LENGTH); reset
establishes it, and sink, finish and every completed poll preserve
it. -/
theorem C6_encoder_invariants (w l : Nat) (e : Encoder) (inp : List Nat)
    (useIdx : Bool) (cap fuel : Nat) (h : EncInv e) :
    EncInv (encoder_reset w l)
    ∧ EncInv (encoder_sink e inp).1
    ∧ EncInv (encoder_finish e).1
    ∧ ∀ r, encoder_poll useIdx e cap fuel = some r → EncInv r.2.1 := by
  refine ⟨encoder_reset_inv w l, encoder_sink_inv e inp h, encoder_finish_inv e h, ?_⟩
  intro r hr
  rw [encoder_poll] at hr
  split at hr
  · cases hr
    exact h
  · exact pollLoop_inv useIdx cap fuel e [] r h hr

/-- Witness for C6_encoder_invariants: a fresh W=4, L=3 encoder, one
sink of three bytes, a finish, and a completed poll. -/
theorem C6_encoder_invariants_witness :
    EncInv (encoder_reset 4 3)
    ∧ EncInv (encoder_sink (encoder_reset 4 3) [1, 2, 3]).1
    ∧ EncInv (encoder_finish (encoder_reset 4 3)).1
    ∧ ∀ r, encoder_poll false (encoder_reset 4 3) 8 50 = some r → EncInv r.2.1 :=
  C6_encoder_invariants 4 3 (encoder_reset 4 3) [1, 2, 3] false 8 50 (by decide)

/-- C10.  A zero-length decoder sink in state EMPTY (with room in the
input region) accepts nothing, returns OK, and still moves the state
to INPUT_AVAILABLE; decoder finish on the resulting state then reports
MORE even though no compressed byte was ever provided. -/
theorem C10_zero_size_sink_transitions (d : Decoder)
    (h1 : d.st = DState.empty) (h2 : d.input_size < d.ibs) :
    decoder_sink d [] =
      ({ d with st := DState.inputAvailable, input_index := 0 }, 0, .ok, [])
    ∧ decoder_finish { d with st := DState.inputAvailable, input_index := 0 } =
        DFinishRes.more := by
  have hrem : ¬ (d.ibs - d.input_size = 0) := by omega
  constructor
  · simp [decoder_sink, hrem, h1, writeBytes]
  · simp [decoder_finish]

/-- Witness for C10_zero_size_sink_transitions on a fresh decoder. -/
theorem C10_zero_size_sink_transitions_witness :
    decoder_sink (decoder_reset 16 8 4) [] =
      ({ decoder_reset 16 8 4 with st := DState.inputAvailable, input_index := 0 },
        0, .ok, [])
    ∧ decoder_finish
        { decoder_reset 16 8 4 with st := DState.inputAvailable, input_index := 0 } =
        DFinishRes.more :=
  C10_zero_size_sink_transitions (decoder_reset 16 8 4) (by decide) (by decide)

/-- Helper: strict monotonicity of powers of two, inverted. -/
theorem pow2_lt_pow2 {a b : Nat} (h : 2 ^ a < 2 ^ b) : a < b := by
  by_contra hle
  push_neg at hle
  have h2 : 2 ^ b ≤ 2 ^ a := Nat.pow_le_pow_right (by omega) hle
  omega

/-- Helper: the bit-consuming loop of get_bits takes its mid-loop
out-of-input exit exactly when fewer bits are available than
requested. -/
theorem getBitsLoop_underflow (c : Nat) :
    ∀ (d : Decoder) (tr : List DAccess),
      DBitIdxOk d.bit_index →
      (d.input_index < d.input_size ∨ d.input_size = 0) →
      ((getBitsLoop c d tr).1 = true ↔ davail d < c) := by
  induction c with
  | zero =>
    intro d tr hbi hin
    simp [getBitsLoop]
  | succ n ih =>
    intro d tr hbi hin
    by_cases hz : d.bit_index = 0
    · by_cases his : d.input_size = 0
      · have hpull : getBitsPull d tr = none := by
          unfold getBitsPull
          rw [if_pos hz, if_pos his]
        simp only [getBitsLoop]
        rw [hpull]
        refine iff_of_true rfl ?_
        have hd : davail d = bufferedBits d.bit_index
            + 8 * (d.input_size - d.input_index) := rfl
        rw [hd, hz, his]
        show 0 + 8 * (0 - d.input_index) < n + 1
        omega
      · by_cases hii : d.input_index + 1 = d.input_size
        · have hpull : getBitsPull d tr
              = some ({ d with current_byte := bget d.buffers d.input_index,
                               input_index := 0, input_size := 0,
                               bit_index := 0x80 },
                      tr ++ [.read d.input_index]) := by
            simp only [getBitsPull]
            rw [if_pos hz, if_neg his, if_pos hii]
          have hmain := ih
            { d with current_byte := bget d.buffers d.input_index,
                     input_index := 0, input_size := 0,
                     bit_accumulator :=
                       if bget d.buffers d.input_index &&& 0x80 ≠ 0 then
                         ((d.bit_accumulator <<< 1) % 2 ^ 32) ||| 1
                       else (d.bit_accumulator <<< 1) % 2 ^ 32,
                     bit_index := 0x80 >>> 1 }
            (tr ++ [.read d.input_index])
            (show DBitIdxOk (0x80 >>> 1) by decide) (Or.inr rfl)
          simp only [getBitsLoop]
          rw [hpull]
          refine Iff.trans hmain ?_
          have hd2 : davail
              { d with current_byte := bget d.buffers d.input_index,
                       input_index := 0, input_size := 0,
                       bit_accumulator :=
                         if bget d.buffers d.input_index &&& 0x80 ≠ 0 then
                           ((d.bit_accumulator <<< 1) % 2 ^ 32) ||| 1
                         else (d.bit_accumulator <<< 1) % 2 ^ 32,
                       bit_index := 0x80 >>> 1 } = 7 := rfl
          have hd : davail d = bufferedBits d.bit_index
              + 8 * (d.input_size - d.input_index) := rfl
          rw [hd2, hd, hz]
          show 7 < n ↔ 0 + 8 * (d.input_size - d.input_index) < n + 1
          omega
        · have hilt : d.input_index < d.input_size := by
            rcases hin with h | h
            · exact h
            · exact absurd h his
          have hpull : getBitsPull d tr
              = some ({ d with current_byte := bget d.buffers d.input_index,
                               input_index := d.input_index + 1,
                               bit_index := 0x80 },
                      tr ++ [.read d.input_index]) := by
            simp only [getBitsPull]
            rw [if_pos hz, if_neg his, if_neg hii]
          have hmain := ih
            { d with current_byte := bget d.buffers d.input_index,
                     input_index := d.input_index + 1,
                     bit_accumulator :=
                       if bget d.buffers d.input_index &&& 0x80 ≠ 0 then
                         ((d.bit_accumulator <<< 1) % 2 ^ 32) ||| 1
                       else (d.bit_accumulator <<< 1) % 2 ^ 32,
                     bit_index := 0x80 >>> 1 }
            (tr ++ [.read d.input_index])
            (show DBitIdxOk (0x80 >>> 1) by decide)
            (Or.inl (show d.input_index + 1 < d.input_size by omega))
          simp only [getBitsLoop]
          rw [hpull]
          refine Iff.trans hmain ?_
          have hd2 : davail
              { d with current_byte := bget d.buffers d.input_index,
                       input_index := d.input_index + 1,
                       bit_accumulator :=
                         if bget d.buffers d.input_index &&& 0x80 ≠ 0 then
                           ((d.bit_accumulator <<< 1) % 2 ^ 32) ||| 1
                         else (d.bit_accumulator <<< 1) % 2 ^ 32,
                       bit_index := 0x80 >>> 1 }
              = bufferedBits 64 + 8 * (d.input_size - (d.input_index + 1)) := rfl
          have hd : davail d = bufferedBits d.bit_index
              + 8 * (d.input_size - d.input_index) := rfl
          rw [hd2, hd, hz]
          show 7 + 8 * (d.input_size - (d.input_index + 1)) < n
            ↔ 0 + 8 * (d.input_size - d.input_index) < n + 1
          omega
    · have hpull : getBitsPull d tr = some (d, tr) := by
        unfold getBitsPull
        rw [if_neg hz]
      have hbi2 : DBitIdxOk (d.bit_index >>> 1) := by
        rcases hbi with h | h | h | h | h | h | h | h | h
        all_goals rw [h]
        all_goals decide
      have hkey : bufferedBits (d.bit_index >>> 1) + 1 = bufferedBits d.bit_index := by
        rcases hbi with h | h | h | h | h | h | h | h | h
        · exact absurd h hz
        all_goals rw [h]
        all_goals rfl
      have hmain := ih
        { d with bit_accumulator :=
                   if d.current_byte &&& d.bit_index ≠ 0 then
                     ((d.bit_accumulator <<< 1) % 2 ^ 32) ||| 1
                   else (d.bit_accumulator <<< 1) % 2 ^ 32,
                 bit_index := d.bit_index >>> 1 } tr hbi2 hin
      simp only [getBitsLoop]
      rw [hpull]
      refine Iff.trans hmain ?_
      have hd2 : davail
          { d with bit_accumulator :=
                     if d.current_byte &&& d.bit_index ≠ 0 then
                       ((d.bit_accumulator <<< 1) % 2 ^ 32) ||| 1
                     else (d.bit_accumulator <<< 1) % 2 ^ 32,
                   bit_index := d.bit_index >>> 1 }
          = bufferedBits (d.bit_index >>> 1)
            + 8 * (d.input_size - d.input_index) := rfl
      have hd : davail d = bufferedBits d.bit_index
          + 8 * (d.input_size - d.input_index) := rfl
      rw [hd2, hd]
      omega

/-- Helper: get_bits signals underflow (takes one of its two
(uint32_t)-1 return statements) exactly when fewer bits are available
than requested. -/
theorem get_bits_underflow_iff (d : Decoder) (count : Nat)
    (hbi : DBitIdxOk d.bit_index)
    (hin : d.input_index < d.input_size ∨ d.input_size = 0)
    (h1 : 1 ≤ count) (h31 : count ≤ 31) :
    ((get_bits d count).2.1 = true ↔ davail d < count) := by
  unfold get_bits
  rw [if_neg (by omega : ¬ 31 < count)]
  by_cases hearly : d.input_size = 0 ∧ d.bit_index < 2 ^ (count - 1)
  · rw [if_pos hearly]
    refine iff_of_true rfl ?_
    obtain ⟨hz0, hlt⟩ := hearly
    have hd : davail d = bufferedBits d.bit_index
        + 8 * (d.input_size - d.input_index) := rfl
    rcases hbi with h | h | h | h | h | h | h | h | h
    · rw [hd, h, hz0]
      show 0 + 8 * (0 - d.input_index) < count
      omega
    · rw [h] at hlt
      have hp := pow2_lt_pow2 (a := 0) (b := count - 1)
        (by rw [show (2:Nat) ^ 0 = 1 from rfl]; exact hlt)
      rw [hd, h, hz0]
      show 1 + 8 * (0 - d.input_index) < count
      omega
    · rw [h] at hlt
      have hp := pow2_lt_pow2 (a := 1) (b := count - 1)
        (by rw [show (2:Nat) ^ 1 = 2 from rfl]; exact hlt)
      rw [hd, h, hz0]
      show 2 + 8 * (0 - d.input_index) < count
      omega
    · rw [h] at hlt
      have hp := pow2_lt_pow2 (a := 2) (b := count - 1)
        (by rw [show (2:Nat) ^ 2 = 4 from rfl]; exact hlt)
      rw [hd, h, hz0]
      show 3 + 8 * (0 - d.input_index) < count
      omega
    · rw [h] at hlt
      have hp := pow2_lt_pow2 (a := 3) (b := count - 1)
        (by rw [show (2:Nat) ^ 3 = 8 from rfl]; exact hlt)
      rw [hd, h, hz0]
      show 4 + 8 * (0 - d.input_index) < count
      omega
    · rw [h] at hlt
      have hp := pow2_lt_pow2 (a := 4) (b := count - 1)
        (by rw [show (2:Nat) ^ 4 = 16 from rfl]; exact hlt)
      rw [hd, h, hz0]
      show 5 + 8 * (0 - d.input_index) < count
      omega
    · rw [h] at hlt
      have hp := pow2_lt_pow2 (a := 5) (b := count - 1)
        (by rw [show (2:Nat) ^ 5 = 32 from rfl]; exact hlt)
      rw [hd, h, hz0]
      show 6 + 8 * (0 - d.input_index) < count
      omega
    · rw [h] at hlt
      have hp := pow2_lt_pow2 (a := 6) (b := count - 1)
        (by rw [show (2:Nat) ^ 6 = 64 from rfl]; exact hlt)
      rw [hd, h, hz0]
      show 7 + 8 * (0 - d.input_index) < count
      omega
    · rw [h] at hlt
      have hp := pow2_lt_pow2 (a := 7) (b := count - 1)
        (by rw [show (2:Nat) ^ 7 = 128 from rfl]; exact hlt)
      rw [hd, h, hz0]
      show 8 + 8 * (0 - d.input_index) < count
      omega
  · rw [if_neg hearly]
    have hloop := getBitsLoop_underflow count d [] hbi hin
    rcases hres : getBitsLoop count d [] with ⟨fl, d1, tr⟩
    rw [hres] at hloop
    cases fl
    · exact iff_of_false (fun hc => Bool.noConfusion hc)
        (fun hb => Bool.noConfusion (hloop.mpr hb))
    · exact iff_of_true rfl (hloop.mp rfl)

/-- Helper: whenever get_bits takes an underflow return, the value it
hands the caller is the 0xFFFFFFFF sentinel. -/
theorem get_bits_flag_value (d : Decoder) (count : Nat)
    (h : (get_bits d count).2.1 = true) : (get_bits d count).1 = 0xFFFFFFFF := by
  unfold get_bits at h ⊢
  by_cases h31 : 31 < count
  · rw [if_pos h31]
  · rw [if_neg h31] at h ⊢
    by_cases hearly : d.input_size = 0 ∧ d.bit_index < 2 ^ (count - 1)
    · rw [if_pos hearly]
    · rw [if_neg hearly] at h ⊢
      rcases hres : getBitsLoop count d [] with ⟨fl, d1, tr⟩
      rw [hres] at h
      cases fl
      · exact Bool.noConfusion h
      · rfl

/-- Helper: st_yield_literal stays in YIELD_LITERAL when get_bits
returns the sentinel. -/
theorem st_yield_literal_d_retry (d : Decoder) (out : List Nat) (cap : Nat)
    (h : (get_bits d 8).1 = 0xFFFFFFFF) :
    (st_yield_literal_d d out cap).2.2.1 = DState.yieldLiteral := by
  simp only [st_yield_literal_d]
  by_cases hc : out.length < cap
  · rw [if_pos hc, if_pos h]
  · rw [if_neg hc]

/-- Helper: st_backref_index stays in BACKREF_INDEX when get_bits
returns the sentinel. -/
theorem st_backref_index_retry (d : Decoder)
    (h : (get_bits d d.w).1 = 0xFFFFFFFF) :
    (st_backref_index d).2.1 = DState.backrefIndex := by
  simp only [st_backref_index]
  rw [if_pos h]

/-- Helper: st_backref_count stays in BACKREF_COUNT when get_bits
returns the sentinel. -/
theorem st_backref_count_retry (d : Decoder)
    (h : (get_bits d d.l).1 = 0xFFFFFFFF) :
    (st_backref_count d).2.1 = DState.backrefCount := by
  simp only [st_backref_count]
  rw [if_pos h]

/-- Helper: st_input_available never tests for the sentinel: the
0xFFFFFFFF underflow value is truthy, so underflow makes it move to
YIELD_LITERAL instead of staying in INPUT_AVAILABLE. -/
theorem st_input_available_underflow (d : Decoder)
    (h : (get_bits d 1).2.1 = true) :
    (st_input_available d).2.1 = DState.yieldLiteral := by
  have hv := get_bits_flag_value d 1 h
  simp only [st_input_available]
  rw [if_pos (by rw [hv]; decide)]

set_option maxHeartbeats 1000000 in
/-- C3.  get_bits signals underflow (takes one of its (uint32_t)-1
return statements) exactly when fewer than count bits remain (buffered
bits of the current byte plus 8 per unread input byte), for any
one-hot-or-zero bit_index and consistent input region and 1 <= count
<= 31.  The three callers that test the sentinel (YIELD_LITERAL,
BACKREF_INDEX, BACKREF_COUNT) then stay in their state; the tag-bit
reader st_input_available, however, never tests the sentinel, and on
underflow the truthy 0xFFFFFFFF moves it to YIELD_LITERAL instead of
retrying INPUT_AVAILABLE. -/
theorem C3_get_bits_underflow (d : Decoder) (count : Nat)
    (out : List Nat) (cap : Nat)
    (hbi : DBitIdxOk d.bit_index)
    (hin : d.input_index < d.input_size ∨ d.input_size = 0)
    (h1 : 1 ≤ count) (h31 : count ≤ 31) :
    ((get_bits d count).2.1 = true ↔ davail d < count)
    ∧ ((get_bits d 8).1 = 0xFFFFFFFF →
        (st_yield_literal_d d out cap).2.2.1 = DState.yieldLiteral)
    ∧ ((get_bits d d.w).1 = 0xFFFFFFFF →
        (st_backref_index d).2.1 = DState.backrefIndex)
    ∧ ((get_bits d d.l).1 = 0xFFFFFFFF →
        (st_backref_count d).2.1 = DState.backrefCount)
    ∧ ((get_bits d 1).2.1 = true →
        (st_input_available d).2.1 = DState.yieldLiteral) :=
  ⟨get_bits_underflow_iff d count hbi hin h1 h31,
   st_yield_literal_d_retry d out cap,
   st_backref_index_retry d,
   st_backref_count_retry d,
   st_input_available_underflow d⟩

/-- Witness for C3_get_bits_underflow: the decoder produced by a
zero-size sink into a fresh (IBS 4, W 4, L 3) decoder, asking for one
bit. -/
theorem C3_get_bits_underflow_witness :
    (DBitIdxOk (decoder_sink (decoder_reset 4 4 3) []).1.bit_index
     ∧ ((decoder_sink (decoder_reset 4 4 3) []).1.input_index
          < (decoder_sink (decoder_reset 4 4 3) []).1.input_size
        ∨ (decoder_sink (decoder_reset 4 4 3) []).1.input_size = 0)
     ∧ 1 ≤ 1 ∧ 1 ≤ 31)
    ∧ (((get_bits (decoder_sink (decoder_reset 4 4 3) []).1 1).2.1 = true
         ↔ davail (decoder_sink (decoder_reset 4 4 3) []).1 < 1)
       ∧ ((get_bits (decoder_sink (decoder_reset 4 4 3) []).1 8).1 = 0xFFFFFFFF →
           (st_yield_literal_d (decoder_sink (decoder_reset 4 4 3) []).1 [] 1).2.2.1
             = DState.yieldLiteral)
       ∧ ((get_bits (decoder_sink (decoder_reset 4 4 3) []).1
             (decoder_sink (decoder_reset 4 4 3) []).1.w).1 = 0xFFFFFFFF →
           (st_backref_index (decoder_sink (decoder_reset 4 4 3) []).1).2.1
             = DState.backrefIndex)
       ∧ ((get_bits (decoder_sink (decoder_reset 4 4 3) []).1
             (decoder_sink (decoder_reset 4 4 3) []).1.l).1 = 0xFFFFFFFF →
           (st_backref_count (decoder_sink (decoder_reset 4 4 3) []).1).2.1
             = DState.backrefCount)
       ∧ ((get_bits (decoder_sink (decoder_reset 4 4 3) []).1 1).2.1 = true →
           (st_input_available (decoder_sink (decoder_reset 4 4 3) []).1).2.1
             = DState.yieldLiteral)) :=
  ⟨by decide,
   C3_get_bits_underflow (decoder_sink (decoder_reset 4 4 3) []).1 1 [] 1
     (by decide) (by decide) (by decide) (by decide)⟩

/-- Counterexample to the literal C3 claim: after a zero-size sink the
decoder is in INPUT_AVAILABLE with no bits at all; the one-bit tag
request underflows, yet the state machine does not stay in
INPUT_AVAILABLE - it transitions to YIELD_LITERAL because
st_input_available treats the 0xFFFFFFFF sentinel as a set tag bit. -/
theorem C3_input_available_moves_on_underflow :
    ((decoder_sink (decoder_reset 4 4 3) []).1.st = DState.inputAvailable
      ∧ davail (decoder_sink (decoder_reset 4 4 3) []).1 = 0)
    ∧ (get_bits (decoder_sink (decoder_reset 4 4 3) []).1 1).2.1 = true
    ∧ (st_input_available (decoder_sink (decoder_reset 4 4 3) []).1).2.1
        = DState.yieldLiteral := by
  decide

/-- Helper: the get_bits loop keeps the input invariant, never touches
ibs or w, and only ever reads strictly inside the input region. -/
theorem getBitsLoop_safe (c : Nat) :
    ∀ (d : Decoder) (tr : List DAccess), DInv d →
      DInv (getBitsLoop c d tr).2.1
      ∧ (getBitsLoop c d tr).2.1.ibs = d.ibs
      ∧ (getBitsLoop c d tr).2.1.w = d.w
      ∧ ∀ a ∈ (getBitsLoop c d tr).2.2, a ∈ tr ∨ a.idx < d.ibs := by
  induction c with
  | zero =>
    intro d tr h
    exact ⟨h, rfl, rfl, fun a ha => Or.inl ha⟩
  | succ n ih =>
    intro d tr h
    obtain ⟨hs, hi⟩ := h
    by_cases hz : d.bit_index = 0
    · by_cases his : d.input_size = 0
      · have hpull : getBitsPull d tr = none := by
          unfold getBitsPull
          rw [if_pos hz, if_pos his]
        simp only [getBitsLoop]
        rw [hpull]
        exact ⟨⟨hs, hi⟩, rfl, rfl, fun a ha => Or.inl ha⟩
      · have hidx : d.input_index < d.input_size := by
          rcases hi with h2 | h2
          · exact h2
          · exact absurd h2.2 his
        by_cases hii : d.input_index + 1 = d.input_size
        · have hpull : getBitsPull d tr
              = some ({ d with current_byte := bget d.buffers d.input_index,
                               input_index := 0, input_size := 0,
                               bit_index := 0x80 },
                      tr ++ [.read d.input_index]) := by
            simp only [getBitsPull]
            rw [if_pos hz, if_neg his, if_pos hii]
          have hrec := ih
            { d with current_byte := bget d.buffers d.input_index,
                     input_index := 0, input_size := 0,
                     bit_accumulator :=
                       if bget d.buffers d.input_index &&& 0x80 ≠ 0 then
                         ((d.bit_accumulator <<< 1) % 2 ^ 32) ||| 1
                       else (d.bit_accumulator <<< 1) % 2 ^ 32,
                     bit_index := 0x80 >>> 1 }
            (tr ++ [.read d.input_index]) ⟨Nat.zero_le _, Or.inr ⟨rfl, rfl⟩⟩
          simp only [getBitsLoop]
          rw [hpull]
          refine ⟨hrec.1, hrec.2.1, hrec.2.2.1, ?_⟩
          intro a ha
          rcases hrec.2.2.2 a ha with hmem | hb
          · rcases List.mem_append.mp hmem with hm | hm
            · exact Or.inl hm
            · right
              have heq : a = DAccess.read d.input_index := List.mem_singleton.mp hm
              rw [heq]
              show d.input_index < d.ibs
              omega
          · exact Or.inr hb
        · have hpull : getBitsPull d tr
              = some ({ d with current_byte := bget d.buffers d.input_index,
                               input_index := d.input_index + 1,
                               bit_index := 0x80 },
                      tr ++ [.read d.input_index]) := by
            simp only [getBitsPull]
            rw [if_pos hz, if_neg his, if_neg hii]
          have hrec := ih
            { d with current_byte := bget d.buffers d.input_index,
                     input_index := d.input_index + 1,
                     bit_accumulator :=
                       if bget d.buffers d.input_index &&& 0x80 ≠ 0 then
                         ((d.bit_accumulator <<< 1) % 2 ^ 32) ||| 1
                       else (d.bit_accumulator <<< 1) % 2 ^ 32,
                     bit_index := 0x80 >>> 1 }
            (tr ++ [.read d.input_index])
            ⟨hs, Or.inl (show d.input_index + 1 < d.input_size by omega)⟩
          simp only [getBitsLoop]
          rw [hpull]
          refine ⟨hrec.1, hrec.2.1, hrec.2.2.1, ?_⟩
          intro a ha
          rcases hrec.2.2.2 a ha with hmem | hb
          · rcases List.mem_append.mp hmem with hm | hm
            · exact Or.inl hm
            · right
              have heq : a = DAccess.read d.input_index := List.mem_singleton.mp hm
              rw [heq]
              show d.input_index < d.ibs
              omega
          · exact Or.inr hb
    · have hpull : getBitsPull d tr = some (d, tr) := by
        unfold getBitsPull
        rw [if_neg hz]
      have hrec := ih
        { d with bit_accumulator :=
                   if d.current_byte &&& d.bit_index ≠ 0 then
                     ((d.bit_accumulator <<< 1) % 2 ^ 32) ||| 1
                   else (d.bit_accumulator <<< 1) % 2 ^ 32,
                 bit_index := d.bit_index >>> 1 } tr ⟨hs, hi⟩
      simp only [getBitsLoop]
      rw [hpull]
      exact ⟨hrec.1, hrec.2.1, hrec.2.2.1, fun a ha => hrec.2.2.2 a ha⟩

/-- Helper: get_bits keeps the input invariant, never touches ibs or
w, and only reads inside the input region. -/
theorem get_bits_safe (d : Decoder) (count : Nat) (h : DInv d) :
    DInv (get_bits d count).2.2.1
    ∧ (get_bits d count).2.2.1.ibs = d.ibs
    ∧ (get_bits d count).2.2.1.w = d.w
    ∧ ∀ a ∈ (get_bits d count).2.2.2, a.idx < d.ibs := by
  unfold get_bits
  by_cases h31 : 31 < count
  · rw [if_pos h31]
    exact ⟨h, rfl, rfl, fun a ha => absurd ha (List.not_mem_nil a)⟩
  · rw [if_neg h31]
    by_cases hearly : d.input_size = 0 ∧ d.bit_index < 2 ^ (count - 1)
    · rw [if_pos hearly]
      exact ⟨h, rfl, rfl, fun a ha => absurd ha (List.not_mem_nil a)⟩
    · rw [if_neg hearly]
      have hloop := getBitsLoop_safe count d [] h
      rcases hres : getBitsLoop count d [] with ⟨fl, d1, tr⟩
      rw [hres] at hloop
      cases fl
      · refine ⟨hloop.1, hloop.2.1, hloop.2.2.1, ?_⟩
        intro a ha
        rcases hloop.2.2.2 a ha with hmem | hb
        · exact absurd hmem (List.not_mem_nil a)
        · exact hb
      · refine ⟨hloop.1, hloop.2.1, hloop.2.2.1, ?_⟩
        intro a ha
        rcases hloop.2.2.2 a ha with hmem | hb
        · exact absurd hmem (List.not_mem_nil a)
        · exact hb

/-- Helper: st_input_available accesses only the input region. -/
theorem st_input_available_safe (d : Decoder) (h : DInv d) :
    DInv (st_input_available d).1
    ∧ (st_input_available d).1.ibs = d.ibs
    ∧ (st_input_available d).1.w = d.w
    ∧ ∀ a ∈ (st_input_available d).2.2, a.idx < d.ibs + 2 ^ d.w := by
  have hg := get_bits_safe d 1 h
  exact ⟨hg.1, hg.2.1, hg.2.2.1,
    fun a ha => lt_of_lt_of_le (hg.2.2.2 a ha) (Nat.le_add_right _ _)⟩

/-- Helper: st_yield_literal reads the input region and writes one
masked window slot. -/
theorem st_yield_literal_d_safe (d : Decoder) (out : List Nat) (cap : Nat)
    (h : DInv d) :
    DInv (st_yield_literal_d d out cap).1
    ∧ (st_yield_literal_d d out cap).1.ibs = d.ibs
    ∧ (st_yield_literal_d d out cap).1.w = d.w
    ∧ ∀ a ∈ (st_yield_literal_d d out cap).2.2.2, a.idx < d.ibs + 2 ^ d.w := by
  have hg := get_bits_safe d 8 h
  have hpow : 0 < 2 ^ d.w := pow_pos (by omega) d.w
  simp only [st_yield_literal_d]
  by_cases hc : out.length < cap
  · rw [if_pos hc]
    by_cases hsent : (get_bits d 8).1 = 0xFFFFFFFF
    · rw [if_pos hsent]
      exact ⟨hg.1, hg.2.1, hg.2.2.1,
        fun a ha => lt_of_lt_of_le (hg.2.2.2 a ha) (Nat.le_add_right _ _)⟩
    · rw [if_neg hsent]
      refine ⟨hg.1, hg.2.1, hg.2.2.1, ?_⟩
      intro a ha
      rcases List.mem_append.mp ha with hm | hm
      · exact lt_of_lt_of_le (hg.2.2.2 a hm) (Nat.le_add_right _ _)
      · have heq : a = DAccess.write
            (d.ibs + ((get_bits d 8).2.2.1.head_index &&& (2 ^ d.w - 1))) :=
          List.mem_singleton.mp hm
        rw [heq]
        show d.ibs + ((get_bits d 8).2.2.1.head_index &&& (2 ^ d.w - 1))
          < d.ibs + 2 ^ d.w
        have hand := Nat.and_le_right
          (n := (get_bits d 8).2.2.1.head_index) (m := 2 ^ d.w - 1)
        omega
  · rw [if_neg hc]
    exact ⟨h, rfl, rfl, fun a ha => absurd ha (List.not_mem_nil a)⟩

/-- Helper: st_backref_index reads only the input region. -/
theorem st_backref_index_safe (d : Decoder) (h : DInv d) :
    DInv (st_backref_index d).1
    ∧ (st_backref_index d).1.ibs = d.ibs
    ∧ (st_backref_index d).1.w = d.w
    ∧ ∀ a ∈ (st_backref_index d).2.2, a.idx < d.ibs + 2 ^ d.w := by
  have hg := get_bits_safe d d.w h
  simp only [st_backref_index]
  by_cases hsent : (get_bits d d.w).1 = 0xFFFFFFFF
  · rw [if_pos hsent]
    exact ⟨hg.1, hg.2.1, hg.2.2.1,
      fun a ha => lt_of_lt_of_le (hg.2.2.2 a ha) (Nat.le_add_right _ _)⟩
  · rw [if_neg hsent]
    exact ⟨hg.1, hg.2.1, hg.2.2.1,
      fun a ha => lt_of_lt_of_le (hg.2.2.2 a ha) (Nat.le_add_right _ _)⟩

/-- Helper: st_backref_count reads only the input region. -/
theorem st_backref_count_safe (d : Decoder) (h : DInv d) :
    DInv (st_backref_count d).1
    ∧ (st_backref_count d).1.ibs = d.ibs
    ∧ (st_backref_count d).1.w = d.w
    ∧ ∀ a ∈ (st_backref_count d).2.2, a.idx < d.ibs + 2 ^ d.w := by
  have hg := get_bits_safe d d.l h
  simp only [st_backref_count]
  by_cases hsent : (get_bits d d.l).1 = 0xFFFFFFFF
  · rw [if_pos hsent]
    exact ⟨hg.1, hg.2.1, hg.2.2.1,
      fun a ha => lt_of_lt_of_le (hg.2.2.2 a ha) (Nat.le_add_right _ _)⟩
  · rw [if_neg hsent]
    exact ⟨hg.1, hg.2.1, hg.2.2.1,
      fun a ha => lt_of_lt_of_le (hg.2.2.2 a ha) (Nat.le_add_right _ _)⟩

/-- Helper: every access of the backref emit loop is offset by ibs and
masked, so it stays within ibs + mask. -/
theorem backrefEmit_safe (mask : Nat) :
    ∀ (n : Nat) (d : Decoder) (out : List Nat) (tr : List DAccess),
      DInv d →
      DInv (backrefEmit mask n d out tr).1
      ∧ (backrefEmit mask n d out tr).1.ibs = d.ibs
      ∧ (backrefEmit mask n d out tr).1.w = d.w
      ∧ ∀ a ∈ (backrefEmit mask n d out tr).2.2, a ∈ tr ∨ a.idx ≤ d.ibs + mask := by
  intro n
  induction n with
  | zero =>
    intro d out tr h
    exact ⟨h, rfl, rfl, fun a ha => Or.inl ha⟩
  | succ m ih =>
    intro d out tr h
    have hrec := ih
      { d with buffers := d.buffers.set (d.ibs + (d.head_index &&& mask))
                 (bget d.buffers
                   (d.ibs + ((d.head_index + 2 ^ 16 - d.output_index) &&& mask)))
               head_index := (d.head_index + 1) % 2 ^ 16 }
      (out ++ [bget d.buffers
        (d.ibs + ((d.head_index + 2 ^ 16 - d.output_index) &&& mask))])
      (tr ++ [.read (d.ibs + ((d.head_index + 2 ^ 16 - d.output_index) &&& mask)),
              .write (d.ibs + (d.head_index &&& mask))]) h
    refine ⟨hrec.1, hrec.2.1, hrec.2.2.1, ?_⟩
    intro a ha
    rcases hrec.2.2.2 a ha with hmem | hb
    · rcases List.mem_append.mp hmem with hm | hm
      · exact Or.inl hm
      · right
        rcases List.mem_cons.mp hm with heq | hm2
        · rw [heq]
          show d.ibs + ((d.head_index + 2 ^ 16 - d.output_index) &&& mask)
            ≤ d.ibs + mask
          have hand := Nat.and_le_right
            (n := d.head_index + 2 ^ 16 - d.output_index) (m := mask)
          omega
        · have heq : a = DAccess.write (d.ibs + (d.head_index &&& mask)) :=
            List.mem_singleton.mp hm2
          rw [heq]
          show d.ibs + (d.head_index &&& mask) ≤ d.ibs + mask
          have hand := Nat.and_le_right (n := d.head_index) (m := mask)
          omega
    · exact Or.inr hb

/-- Helper: st_yield_backref reads and writes only masked window
slots. -/
theorem st_yield_backref_safe (d : Decoder) (out : List Nat) (cap : Nat)
    (h : DInv d) :
    DInv (st_yield_backref d out cap).1
    ∧ (st_yield_backref d out cap).1.ibs = d.ibs
    ∧ (st_yield_backref d out cap).1.w = d.w
    ∧ ∀ a ∈ (st_yield_backref d out cap).2.2.2, a.idx < d.ibs + 2 ^ d.w := by
  have hpow : 0 < 2 ^ d.w := pow_pos (by omega) d.w
  simp only [st_yield_backref]
  by_cases hc : 0 < cap - out.length
  · rw [if_pos hc]
    have hemit := backrefEmit_safe (2 ^ d.w - 1)
      (if d.output_count < cap - out.length then d.output_count
       else cap - out.length) d out [] h
    by_cases hdone : (backrefEmit (2 ^ d.w - 1)
        (if d.output_count < cap - out.length then d.output_count
         else cap - out.length) d out []).1.output_count
        - (if d.output_count < cap - out.length then d.output_count
           else cap - out.length) = 0
    · rw [if_pos hdone]
      refine ⟨hemit.1, hemit.2.1, hemit.2.2.1, ?_⟩
      intro a ha
      rcases hemit.2.2.2 a ha with hmem | hb
      · exact absurd hmem (List.not_mem_nil a)
      · omega
    · rw [if_neg hdone]
      refine ⟨hemit.1, hemit.2.1, hemit.2.2.1, ?_⟩
      intro a ha
      rcases hemit.2.2.2 a ha with hmem | hb
      · exact absurd hmem (List.not_mem_nil a)
      · omega
  · rw [if_neg hc]
    exact ⟨h, rfl, rfl, fun a ha => absurd ha (List.not_mem_nil a)⟩

/-- Helper: decoder_sink preserves the invariant and writes only
inside the input region. -/
theorem decoder_sink_safe (d : Decoder) (inp : List Nat) (h : DInv d) :
    DInv (decoder_sink d inp).1
    ∧ (decoder_sink d inp).1.ibs = d.ibs
    ∧ (decoder_sink d inp).1.w = d.w
    ∧ ∀ a ∈ (decoder_sink d inp).2.2.2, a.idx < d.ibs := by
  obtain ⟨hs, hi⟩ := h
  have hmin := Nat.min_le_left (d.ibs - d.input_size) inp.length
  simp only [decoder_sink]
  split
  · exact ⟨⟨hs, hi⟩, rfl, rfl, fun a ha => absurd ha (List.not_mem_nil a)⟩
  · split
    · refine ⟨⟨?_, ?_⟩, rfl, rfl, ?_⟩
      · show d.input_size + min (d.ibs - d.input_size) inp.length ≤ d.ibs
        omega
      · show 0 < d.input_size + min (d.ibs - d.input_size) inp.length
          ∨ (0 = 0 ∧ d.input_size + min (d.ibs - d.input_size) inp.length = 0)
        omega
      · intro a ha
        rcases List.mem_map.mp ha with ⟨j, hj, rfl⟩
        have hj2 := List.mem_range.mp hj
        show d.input_size + j < d.ibs
        omega
    · refine ⟨⟨?_, ?_⟩, rfl, rfl, ?_⟩
      · show d.input_size + min (d.ibs - d.input_size) inp.length ≤ d.ibs
        omega
      · show d.input_index < d.input_size + min (d.ibs - d.input_size) inp.length
          ∨ (d.input_index = 0
             ∧ d.input_size + min (d.ibs - d.input_size) inp.length = 0)
        rcases hi with h2 | h2
        · left
          omega
        · obtain ⟨hz1, hz2⟩ := h2
          omega
      · intro a ha
        rcases List.mem_map.mp ha with ⟨j, hj, rfl⟩
        have hj2 := List.mem_range.mp hj
        show d.input_size + j < d.ibs
        omega

/-- Helper: the decoder poll loop preserves the invariant and every
access it appends to the trace is inside the ibs + 2^w buffers. -/
theorem dPollLoop_safe (cap : Nat) :
    ∀ (fuel : Nat) (d : Decoder) (out : List Nat) (tr : List DAccess)
      (r : DPollRes × Decoder × List Nat × List DAccess),
      DInv d → dPollLoop cap fuel d out tr = some r →
      DInv r.2.1 ∧ r.2.1.ibs = d.ibs ∧ r.2.1.w = d.w
      ∧ ∀ a ∈ r.2.2.2, a ∈ tr ∨ a.idx < d.ibs + 2 ^ d.w := by
  intro fuel
  induction fuel with
  | zero => intro d out tr r h hp; simp [dPollLoop] at hp
  | succ n ih =>
    intro d out tr r h hp
    simp only [dPollLoop] at hp
    revert hp
    cases hst : d.st <;> intro hp
    case empty =>
      cases hp
      exact ⟨h, rfl, rfl, fun a ha => Or.inl ha⟩
    case inputAvailable =>
      have hstep := st_input_available_safe d h
      change (if (st_input_available d).2.1 = DState.inputAvailable then
          if out.length = cap then
            some (DPollRes.more,
              { (st_input_available d).1 with st := (st_input_available d).2.1 },
              out, tr ++ (st_input_available d).2.2)
          else
            some (DPollRes.empty,
              { (st_input_available d).1 with st := (st_input_available d).2.1 },
              out, tr ++ (st_input_available d).2.2)
        else dPollLoop cap n
          { (st_input_available d).1 with st := (st_input_available d).2.1 }
          out (tr ++ (st_input_available d).2.2)) = some r at hp
      split at hp
      · split at hp
        · cases hp
          refine ⟨hstep.1, hstep.2.1, hstep.2.2.1, ?_⟩
          intro a ha
          rcases List.mem_append.mp ha with hm | hm
          · exact Or.inl hm
          · exact Or.inr (hstep.2.2.2 a hm)
        · cases hp
          refine ⟨hstep.1, hstep.2.1, hstep.2.2.1, ?_⟩
          intro a ha
          rcases List.mem_append.mp ha with hm | hm
          · exact Or.inl hm
          · exact Or.inr (hstep.2.2.2 a hm)
      · have hrec := ih
          { (st_input_available d).1 with st := (st_input_available d).2.1 }
          out (tr ++ (st_input_available d).2.2) r hstep.1 hp
        refine ⟨hrec.1, hrec.2.1.trans hstep.2.1, hrec.2.2.1.trans hstep.2.2.1, ?_⟩
        intro a ha
        rcases hrec.2.2.2 a ha with hm | hb
        · rcases List.mem_append.mp hm with hm2 | hm2
          · exact Or.inl hm2
          · exact Or.inr (hstep.2.2.2 a hm2)
        · right
          have hb2 : a.idx < (st_input_available d).1.ibs
              + 2 ^ (st_input_available d).1.w := hb
          rw [hstep.2.1, hstep.2.2.1] at hb2
          exact hb2
    case yieldLiteral =>
      have hstep := st_yield_literal_d_safe d out cap h
      change (if (st_yield_literal_d d out cap).2.2.1 = DState.yieldLiteral then
          if (st_yield_literal_d d out cap).2.1.length = cap then
            some (DPollRes.more,
              { (st_yield_literal_d d out cap).1 with
                st := (st_yield_literal_d d out cap).2.2.1 },
              (st_yield_literal_d d out cap).2.1,
              tr ++ (st_yield_literal_d d out cap).2.2.2)
          else
            some (DPollRes.empty,
              { (st_yield_literal_d d out cap).1 with
                st := (st_yield_literal_d d out cap).2.2.1 },
              (st_yield_literal_d d out cap).2.1,
              tr ++ (st_yield_literal_d d out cap).2.2.2)
        else dPollLoop cap n
          { (st_yield_literal_d d out cap).1 with
            st := (st_yield_literal_d d out cap).2.2.1 }
          (st_yield_literal_d d out cap).2.1
          (tr ++ (st_yield_literal_d d out cap).2.2.2)) = some r at hp
      split at hp
      · split at hp
        · cases hp
          refine ⟨hstep.1, hstep.2.1, hstep.2.2.1, ?_⟩
          intro a ha
          rcases List.mem_append.mp ha with hm | hm
          · exact Or.inl hm
          · exact Or.inr (hstep.2.2.2 a hm)
        · cases hp
          refine ⟨hstep.1, hstep.2.1, hstep.2.2.1, ?_⟩
          intro a ha
          rcases List.mem_append.mp ha with hm | hm
          · exact Or.inl hm
          · exact Or.inr (hstep.2.2.2 a hm)
      · have hrec := ih
          { (st_yield_literal_d d out cap).1 with
            st := (st_yield_literal_d d out cap).2.2.1 }
          (st_yield_literal_d d out cap).2.1
          (tr ++ (st_yield_literal_d d out cap).2.2.2) r hstep.1 hp
        refine ⟨hrec.1, hrec.2.1.trans hstep.2.1, hrec.2.2.1.trans hstep.2.2.1, ?_⟩
        intro a ha
        rcases hrec.2.2.2 a ha with hm | hb
        · rcases List.mem_append.mp hm with hm2 | hm2
          · exact Or.inl hm2
          · exact Or.inr (hstep.2.2.2 a hm2)
        · right
          have hb2 : a.idx < (st_yield_literal_d d out cap).1.ibs
              + 2 ^ (st_yield_literal_d d out cap).1.w := hb
          rw [hstep.2.1, hstep.2.2.1] at hb2
          exact hb2
    case backrefIndex =>
      have hstep := st_backref_index_safe d h
      change (if (st_backref_index d).2.1 = DState.backrefIndex then
          if out.length = cap then
            some (DPollRes.more,
              { (st_backref_index d).1 with st := (st_backref_index d).2.1 },
              out, tr ++ (st_backref_index d).2.2)
          else
            some (DPollRes.empty,
              { (st_backref_index d).1 with st := (st_backref_index d).2.1 },
              out, tr ++ (st_backref_index d).2.2)
        else dPollLoop cap n
          { (st_backref_index d).1 with st := (st_backref_index d).2.1 }
          out (tr ++ (st_backref_index d).2.2)) = some r at hp
      split at hp
      · split at hp
        · cases hp
          refine ⟨hstep.1, hstep.2.1, hstep.2.2.1, ?_⟩
          intro a ha
          rcases List.mem_append.mp ha with hm | hm
          · exact Or.inl hm
          · exact Or.inr (hstep.2.2.2 a hm)
        · cases hp
          refine ⟨hstep.1, hstep.2.1, hstep.2.2.1, ?_⟩
          intro a ha
          rcases List.mem_append.mp ha with hm | hm
          · exact Or.inl hm
          · exact Or.inr (hstep.2.2.2 a hm)
      · have hrec := ih
          { (st_backref_index d).1 with st := (st_backref_index d).2.1 }
          out (tr ++ (st_backref_index d).2.2) r hstep.1 hp
        refine ⟨hrec.1, hrec.2.1.trans hstep.2.1, hrec.2.2.1.trans hstep.2.2.1, ?_⟩
        intro a ha
        rcases hrec.2.2.2 a ha with hm | hb
        · rcases List.mem_append.mp hm with hm2 | hm2
          · exact Or.inl hm2
          · exact Or.inr (hstep.2.2.2 a hm2)
        · right
          have hb2 : a.idx < (st_backref_index d).1.ibs
              + 2 ^ (st_backref_index d).1.w := hb
          rw [hstep.2.1, hstep.2.2.1] at hb2
          exact hb2
    case backrefCount =>
      have hstep := st_backref_count_safe d h
      change (if (st_backref_count d).2.1 = DState.backrefCount then
          if out.length = cap then
            some (DPollRes.more,
              { (st_backref_count d).1 with st := (st_backref_count d).2.1 },
              out, tr ++ (st_backref_count d).2.2)
          else
            some (DPollRes.empty,
              { (st_backref_count d).1 with st := (st_backref_count d).2.1 },
              out, tr ++ (st_backref_count d).2.2)
        else dPollLoop cap n
          { (st_backref_count d).1 with st := (st_backref_count d).2.1 }
          out (tr ++ (st_backref_count d).2.2)) = some r at hp
      split at hp
      · split at hp
        · cases hp
          refine ⟨hstep.1, hstep.2.1, hstep.2.2.1, ?_⟩
          intro a ha
          rcases List.mem_append.mp ha with hm | hm
          · exact Or.inl hm
          · exact Or.inr (hstep.2.2.2 a hm)
        · cases hp
          refine ⟨hstep.1, hstep.2.1, hstep.2.2.1, ?_⟩
          intro a ha
          rcases List.mem_append.mp ha with hm | hm
          · exact Or.inl hm
          · exact Or.inr (hstep.2.2.2 a hm)
      · have hrec := ih
          { (st_backref_count d).1 with st := (st_backref_count d).2.1 }
          out (tr ++ (st_backref_count d).2.2) r hstep.1 hp
        refine ⟨hrec.1, hrec.2.1.trans hstep.2.1, hrec.2.2.1.trans hstep.2.2.1, ?_⟩
        intro a ha
        rcases hrec.2.2.2 a ha with hm | hb
        · rcases List.mem_append.mp hm with hm2 | hm2
          · exact Or.inl hm2
          · exact Or.inr (hstep.2.2.2 a hm2)
        · right
          have hb2 : a.idx < (st_backref_count d).1.ibs
              + 2 ^ (st_backref_count d).1.w := hb
          rw [hstep.2.1, hstep.2.2.1] at hb2
          exact hb2
    case yieldBackref =>
      have hstep := st_yield_backref_safe d out cap h
      change (if (st_yield_backref d out cap).2.2.1 = DState.yieldBackref then
          if (st_yield_backref d out cap).2.1.length = cap then
            some (DPollRes.more,
              { (st_yield_backref d out cap).1 with
                st := (st_yield_backref d out cap).2.2.1 },
              (st_yield_backref d out cap).2.1,
              tr ++ (st_yield_backref d out cap).2.2.2)
          else
            some (DPollRes.empty,
              { (st_yield_backref d out cap).1 with
                st := (st_yield_backref d out cap).2.2.1 },
              (st_yield_backref d out cap).2.1,
              tr ++ (st_yield_backref d out cap).2.2.2)
        else dPollLoop cap n
          { (st_yield_backref d out cap).1 with
            st := (st_yield_backref d out cap).2.2.1 }
          (st_yield_backref d out cap).2.1
          (tr ++ (st_yield_backref d out cap).2.2.2)) = some r at hp
      split at hp
      · split at hp
        · cases hp
          refine ⟨hstep.1, hstep.2.1, hstep.2.2.1, ?_⟩
          intro a ha
          rcases List.mem_append.mp ha with hm | hm
          · exact Or.inl hm
          · exact Or.inr (hstep.2.2.2 a hm)
        · cases hp
          refine ⟨hstep.1, hstep.2.1, hstep.2.2.1, ?_⟩
          intro a ha
          rcases List.mem_append.mp ha with hm | hm
          · exact Or.inl hm
          · exact Or.inr (hstep.2.2.2 a hm)
      · have hrec := ih
          { (st_yield_backref d out cap).1 with
            st := (st_yield_backref d out cap).2.2.1 }
          (st_yield_backref d out cap).2.1
          (tr ++ (st_yield_backref d out cap).2.2.2) r hstep.1 hp
        refine ⟨hrec.1, hrec.2.1.trans hstep.2.1, hrec.2.2.1.trans hstep.2.2.1, ?_⟩
        intro a ha
        rcases hrec.2.2.2 a ha with hm | hb
        · rcases List.mem_append.mp hm with hm2 | hm2
          · exact Or.inl hm2
          · exact Or.inr (hstep.2.2.2 a hm2)
        · right
          have hb2 : a.idx < (st_yield_backref d out cap).1.ibs
              + 2 ^ (st_yield_backref d out cap).1.w := hb
          rw [hstep.2.1, hstep.2.2.1] at hb2
          exact hb2
    case checkForMoreInput =>
      change (if st_check_for_input d = DState.checkForMoreInput then
          if out.length = cap then
            some (DPollRes.more, { d with st := st_check_for_input d }, out,
              tr ++ [])
          else
            some (DPollRes.empty, { d with st := st_check_for_input d }, out,
              tr ++ [])
        else dPollLoop cap n { d with st := st_check_for_input d } out
          (tr ++ [])) = some r at hp
      split at hp
      · split at hp
        · cases hp
          refine ⟨h, rfl, rfl, ?_⟩
          intro a ha
          rcases List.mem_append.mp ha with hm | hm
          · exact Or.inl hm
          · exact absurd hm (List.not_mem_nil a)
        · cases hp
          refine ⟨h, rfl, rfl, ?_⟩
          intro a ha
          rcases List.mem_append.mp ha with hm | hm
          · exact Or.inl hm
          · exact absurd hm (List.not_mem_nil a)
      · have hrec := ih { d with st := st_check_for_input d } out (tr ++ []) r
          h hp
        refine ⟨hrec.1, hrec.2.1, hrec.2.2.1, ?_⟩
        intro a ha
        rcases hrec.2.2.2 a ha with hm | hb
        · rcases List.mem_append.mp hm with hm2 | hm2
          · exact Or.inl hm2
          · exact absurd hm2 (List.not_mem_nil a)
        · exact Or.inr hb

/-- C2.  Decoder memory safety on arbitrary (adversarial) compressed
input: a fresh decoder satisfies the input-region invariant, sink
preserves it and only writes inside the input region, and every
completed poll preserves it with every recorded buffer access (input
reads, masked window reads and writes) strictly below ibs + 2^W, the
size of the decoder buffers array. -/
theorem C2_decoder_memory_safety (ibs w l : Nat) (d : Decoder)
    (inp : List Nat) (cap fuel : Nat) (h : DInv d) :
    DInv (decoder_reset ibs w l)
    ∧ (DInv (decoder_sink d inp).1
       ∧ ∀ a ∈ (decoder_sink d inp).2.2.2, a.idx < d.ibs + 2 ^ d.w)
    ∧ (∀ r, decoder_poll d cap fuel = some r →
        DInv r.2.1 ∧ ∀ a ∈ r.2.2.2, a.idx < d.ibs + 2 ^ d.w) := by
  have hsink := decoder_sink_safe d inp h
  refine ⟨⟨Nat.zero_le _, Or.inr ⟨rfl, rfl⟩⟩,
    ⟨hsink.1, ?_⟩, ?_⟩
  · intro a ha
    exact lt_of_lt_of_le (hsink.2.2.2 a ha) (Nat.le_add_right _ _)
  · intro r hr
    have hloop := dPollLoop_safe cap fuel d [] [] r h hr
    refine ⟨hloop.1, ?_⟩
    intro a ha
    rcases hloop.2.2.2 a ha with hm | hb
    · exact absurd hm (List.not_mem_nil a)
    · exact hb

/-- Witness for C2_decoder_memory_safety: a fresh (IBS 4, W 4, L 3)
decoder holding one sunk byte, sink of two more bytes, and a poll. -/
theorem C2_decoder_memory_safety_witness :
    DInv (decoder_sink (decoder_reset 4 4 3) [170]).1
    ∧ (DInv (decoder_reset 4 4 3)
       ∧ (DInv (decoder_sink (decoder_sink (decoder_reset 4 4 3) [170]).1
            [1, 2]).1
          ∧ ∀ a ∈ (decoder_sink (decoder_sink (decoder_reset 4 4 3) [170]).1
              [1, 2]).2.2.2,
              a.idx < (decoder_sink (decoder_reset 4 4 3) [170]).1.ibs
                + 2 ^ (decoder_sink (decoder_reset 4 4 3) [170]).1.w)
       ∧ (∀ r, decoder_poll (decoder_sink (decoder_reset 4 4 3) [170]).1 4 32
            = some r →
            DInv r.2.1
            ∧ ∀ a ∈ r.2.2.2,
                a.idx < (decoder_sink (decoder_reset 4 4 3) [170]).1.ibs
                  + 2 ^ (decoder_sink (decoder_reset 4 4 3) [170]).1.w)) :=
  ⟨by decide,
   C2_decoder_memory_safety 4 4 3 (decoder_sink (decoder_reset 4 4 3) [170]).1
     [1, 2] 4 32 (by decide)⟩

/-- Helper: a candidate whose first byte differs from the needle
matches zero bytes. -/
theorem matchLen_first_ne (buf : List Nat) (q needle m : Nat)
    (h : bget buf q ≠ bget buf needle) : matchLen buf q needle m = 0 := by
  cases m with
  | zero => rfl
  | succ k =>
    rw [matchLen]
    rw [if_neg h]

/-- Helper: a positive match length forces the first bytes to agree. -/
theorem matchLen_pos_first (buf : List Nat) (q needle m : Nat)
    (h : 0 < matchLen buf q needle m) : bget buf q = bget buf needle := by
  by_contra hne
  rw [matchLen_first_ne buf q needle m hne] at h
  omega

/-- Helper: prevIdxGo returns the sentinel or an in-range offset whose
byte is v. -/
theorem prevIdxGo_spec (buf : List Nat) (v : Nat) :
    ∀ i, prevIdxGo buf v i = MATCH_NOT_FND
      ∨ (prevIdxGo buf v i < i ∧ bget buf (prevIdxGo buf v i) = v) := by
  intro i
  induction i with
  | zero => exact Or.inl rfl
  | succ j ih =>
    by_cases hb : bget buf j = v
    · have hr : prevIdxGo buf v (j + 1) = j := by
        simp [prevIdxGo, hb]
      right
      rw [hr]
      exact ⟨Nat.lt_succ_self j, hb⟩
    · have hr : prevIdxGo buf v (j + 1) = prevIdxGo buf v j := by
        simp [prevIdxGo, hb]
      rw [hr]
      rcases ih with h | ⟨h1, h2⟩
      · exact Or.inl h
      · exact Or.inr ⟨Nat.lt_succ_of_lt h1, h2⟩

/-- Helper: no offset strictly between prevIdxGo and i holds byte v. -/
theorem prevIdxGo_gap (buf : List Nat) (v : Nat) :
    ∀ i q, q < i → prevIdxGo buf v i < q → bget buf q ≠ v := by
  intro i
  induction i with
  | zero => intro q hq _; exact absurd hq (Nat.not_lt_zero q)
  | succ j ih =>
    intro q hq hlt
    by_cases hb : bget buf j = v
    · have hr : prevIdxGo buf v (j + 1) = j := by
        simp [prevIdxGo, hb]
      rw [hr] at hlt
      exact absurd hq (by omega)
    · have hr : prevIdxGo buf v (j + 1) = prevIdxGo buf v j := by
        simp [prevIdxGo, hb]
      rw [hr] at hlt
      rcases Nat.lt_succ_iff_lt_or_eq.mp hq with h | h
      · exact ih q h hlt
      · rw [h]
        exact hb

/-- Helper: when prevIdxGo reports the sentinel (and i itself is below
the sentinel), no offset below i holds byte v. -/
theorem prevIdxGo_none (buf : List Nat) (v : Nat) :
    ∀ i, i ≤ MATCH_NOT_FND → prevIdxGo buf v i = MATCH_NOT_FND →
      ∀ q, q < i → bget buf q ≠ v := by
  intro i
  induction i with
  | zero => intro _ _ q hq; exact absurd hq (Nat.not_lt_zero q)
  | succ j ih =>
    intro hle hnone q hq
    have hS : MATCH_NOT_FND = 65535 := rfl
    by_cases hb : bget buf j = v
    · have hr : prevIdxGo buf v (j + 1) = j := by
        simp [prevIdxGo, hb]
      rw [hr] at hnone
      exfalso
      omega
    · have hr : prevIdxGo buf v (j + 1) = prevIdxGo buf v j := by
        simp [prevIdxGo, hb]
      rw [hr] at hnone
      rcases Nat.lt_succ_iff_lt_or_eq.mp hq with h | h
      · exact ih (by omega) hnone q h
      · rw [h]
        exact hb

/-- Helper: the scan invariant extends downwards across a stretch of
candidates at or below the break-even point. -/
theorem FlmInv_extend (buf : List Nat) (needle maxlen lo lo2 : Nat)
    (acc : Nat × Nat) (h : FlmInv buf needle maxlen lo acc) (hle : lo2 ≤ lo)
    (hlow : ∀ q, lo2 ≤ q → q < lo → matchLen buf q needle maxlen ≤ 2) :
    FlmInv buf needle maxlen lo2 acc := by
  obtain ⟨h1, h2⟩ := h
  constructor
  · intro hz q hq1 hq2
    by_cases hql : q < lo
    · exact hlow q hq1 hql
    · exact h1 hz q (by omega) hq2
  · intro hp
    obtain ⟨a1, a2, a3, a4, a5, a6, a7⟩ := h2 hp
    refine ⟨a1, a2, by omega, a4, a5, ?_, a7⟩
    intro q hq1 hq2
    by_cases hql : q < lo
    · have := hlow q hq1 hql
      omega
    · exact a6 q (by omega) hq2

/-- Helper: walking the chain from the sentinel returns the
accumulator unchanged. -/
theorem flmIdxLoop_sent (buf idx : List Nat) (start needle maxlen : Nat) :
    ∀ (fuel : Nat) (acc : Nat × Nat),
      flmIdxLoop buf idx start needle maxlen fuel MATCH_NOT_FND acc = acc := by
  intro fuel acc
  cases fuel with
  | zero => rfl
  | succ n => simp [flmIdxLoop]

/-- Helper: walking the do_indexing chain from an in-range same-byte
head establishes the same scan invariant as the full descending scan:
every candidate the chain skips has a different first byte and hence a
zero-length match. -/
theorem flmIdxLoop_inv (buf idx : List Nat) (start needle maxlen : Nat)
    (hidx : ∀ i, i < needle → idxget idx i = prevIdx buf i)
    (hneedle : needle ≤ MATCH_NOT_FND) :
    ∀ (fuel pos : Nat) (acc : Nat × Nat),
      start ≤ pos → pos < needle → pos < fuel →
      bget buf pos = bget buf needle →
      FlmInv buf needle maxlen (pos + 1) acc →
      FlmInv buf needle maxlen start
        (flmIdxLoop buf idx start needle maxlen fuel pos acc) := by
  intro fuel
  induction fuel with
  | zero =>
    intro pos acc _ _ hpf _ _
    exact absurd hpf (Nat.not_lt_zero pos)
  | succ n ih =>
    intro pos acc hsp hpn hpf hbyte hinv
    have hS : MATCH_NOT_FND = 65535 := rfl
    simp only [flmIdxLoop]
    rw [if_neg (show ¬ pos = MATCH_NOT_FND by omega)]
    by_cases hbrk : (flmStep buf needle maxlen pos acc).2 = true
    · rw [if_pos hbrk]
      exact flmStep_brk buf needle maxlen pos acc start hsp hpn hinv hbrk
    · rw [if_neg hbrk]
      have hstep := flmStep_inv buf needle maxlen pos acc hpn hinv
      have hprev : idxget idx pos = prevIdxGo buf (bget buf pos) pos :=
        hidx pos hpn
      by_cases hlt : idxget idx pos < start
      · rw [if_pos hlt]
        rw [hprev] at hlt
        refine FlmInv_extend buf needle maxlen pos start _ hstep hsp ?_
        intro q hq1 hq2
        have hne : bget buf q ≠ bget buf pos :=
          prevIdxGo_gap buf (bget buf pos) pos q hq2 (by omega)
        rw [hbyte] at hne
        rw [matchLen_first_ne buf q needle maxlen hne]
        omega
      · rw [if_neg hlt]
        rw [hprev] at hlt
        rcases prevIdxGo_spec buf (bget buf pos) pos with hsent | ⟨hplt, hpbyte⟩
        · rw [hprev, hsent, flmIdxLoop_sent]
          refine FlmInv_extend buf needle maxlen pos start _ hstep hsp ?_
          intro q hq1 hq2
          have hne : bget buf q ≠ bget buf pos :=
            prevIdxGo_none buf (bget buf pos) pos (by omega) hsent q hq2
          rw [hbyte] at hne
          rw [matchLen_first_ne buf q needle maxlen hne]
          omega
        · rw [hprev]
          refine ih (prevIdxGo buf (bget buf pos) pos) _ (by omega)
            (Nat.lt_trans hplt hpn) (by omega) ?_ ?_
          · rw [hpbyte]
            exact hbyte
          · refine FlmInv_extend buf needle maxlen pos
              (prevIdxGo buf (bget buf pos) pos + 1) _ hstep (by omega) ?_
            intro q hq1 hq2
            have hne : bget buf q ≠ bget buf pos :=
              prevIdxGo_gap buf (bget buf pos) pos q hq2 (by omega)
            rw [hbyte] at hne
            rw [matchLen_first_ne buf q needle maxlen hne]
            omega

/-- Helper: the scan invariant pins the result: any two accumulators
summarising the same full candidate range agree on the best length and
(when a match exists) on its position. -/
theorem FlmInv_unique (buf : List Nat) (needle maxlen start : Nat)
    (acc1 acc2 : Nat × Nat)
    (h1 : FlmInv buf needle maxlen start acc1)
    (h2 : FlmInv buf needle maxlen start acc2) :
    acc1.1 = acc2.1 ∧ (0 < acc1.1 → acc1.2 = acc2.2) := by
  obtain ⟨h1a, h1b⟩ := h1
  obtain ⟨h2a, h2b⟩ := h2
  rcases Nat.eq_zero_or_pos acc1.1 with hz1 | hp1
  · rcases Nat.eq_zero_or_pos acc2.1 with hz2 | hp2
    · exact ⟨by omega, fun hc => absurd hc (by omega)⟩
    · obtain ⟨b1, b2, b3, b4, b5, b6, b7⟩ := h2b hp2
      have hc := h1a hz1 acc2.2 b3 b4
      exfalso
      omega
  · obtain ⟨a1, a2, a3, a4, a5, a6, a7⟩ := h1b hp1
    rcases Nat.eq_zero_or_pos acc2.1 with hz2 | hp2
    · have hc := h2a hz2 acc1.2 a3 a4
      exfalso
      omega
    · obtain ⟨b1, b2, b3, b4, b5, b6, b7⟩ := h2b hp2
      have hle1 := b6 acc1.2 a3 a4
      have hle2 := a6 acc2.2 b3 b4
      refine ⟨by omega, fun _ => ?_⟩
      by_cases hlt : acc1.2 < acc2.2
      · have := a7 acc2.2 hlt b4
        exfalso
        omega
      · by_cases hgt : acc2.2 < acc1.2
        · have := b7 acc1.2 hgt a4
          exfalso
          omega
        · omega

/-- Helper: with a correct do_indexing chain below end_, the indexed
search returns exactly what the plain descending scan returns. -/
theorem find_longest_match_idx_eq (buf idx : List Nat)
    (start end_ maxlen : Nat)
    (hidx : ∀ i, i ≤ end_ → idxget idx i = prevIdx buf i)
    (hend : end_ ≤ MATCH_NOT_FND) (hse : start ≤ end_) :
    find_longest_match_idx buf idx start end_ maxlen
      = find_longest_match buf start end_ maxlen := by
  have hS : MATCH_NOT_FND = 65535 := rfl
  unfold find_longest_match_idx find_longest_match
  by_cases heq : start = end_
  · rw [if_pos heq, if_pos heq]
  · rw [if_neg heq, if_neg heq]
    have hlt : start < end_ := by omega
    have hinv0 : FlmInv buf end_ maxlen (start + (end_ - 1 - start) + 1)
        (0, MATCH_NOT_FND) :=
      ⟨fun _ q hq1 hq2 => by omega, fun h => absurd h (by omega)⟩
    have hplain := flmLoop_inv buf start end_ maxlen (end_ - 1 - start)
      (0, MATCH_NOT_FND) (by omega) hinv0
    set rP := flmLoop buf start end_ maxlen (end_ - 1 - start) (0, MATCH_NOT_FND)
      with hrP
    have hpos0 : idxget idx end_ = prevIdxGo buf (bget buf end_) end_ :=
      hidx end_ (Nat.le_refl _)
    by_cases hp0 : idxget idx end_ < start
    · rw [if_pos hp0]
      rw [hpos0] at hp0
      have hz : rP.1 = 0 := by
        by_contra hnz
        obtain ⟨a1, a2, a3, a4, a5, a6, a7⟩ := hplain.2 (by omega)
        have hfb : bget buf rP.2 = bget buf end_ :=
          matchLen_pos_first buf rP.2 end_ maxlen (by omega)
        exact prevIdxGo_gap buf (bget buf end_) end_ rP.2 a4 (by omega) hfb
      rw [if_neg (by omega)]
    · rw [if_neg hp0]
      rw [hpos0] at hp0
      rcases prevIdxGo_spec buf (bget buf end_) end_ with hsent | ⟨hplt, hpbyte⟩
      · rw [hpos0, hsent, flmIdxLoop_sent]
        have hz : rP.1 = 0 := by
          by_contra hnz
          obtain ⟨a1, a2, a3, a4, a5, a6, a7⟩ := hplain.2 (by omega)
          have hfb : bget buf rP.2 = bget buf end_ :=
            matchLen_pos_first buf rP.2 end_ maxlen (by omega)
          exact prevIdxGo_none buf (bget buf end_) end_ (by omega) hsent rP.2 a4 hfb
        rw [if_neg (show ¬ 0 < (0, MATCH_NOT_FND).1 by decide),
          if_neg (by omega)]
      · have hinv1 : FlmInv buf end_ maxlen
            (prevIdxGo buf (bget buf end_) end_ + 1) (0, MATCH_NOT_FND) := by
          refine ⟨?_, fun h => absurd h (by omega)⟩
          intro _ q hq1 hq2
          have hne : bget buf q ≠ bget buf end_ :=
            prevIdxGo_gap buf (bget buf end_) end_ q hq2 (by omega)
          rw [matchLen_first_ne buf q end_ maxlen hne]
          omega
        have hidxinv := flmIdxLoop_inv buf idx start end_ maxlen
          (fun i hi => hidx i (by omega)) hend (end_ + 1)
          (prevIdxGo buf (bget buf end_) end_) (0, MATCH_NOT_FND)
          (by omega) hplt (by omega) hpbyte hinv1
        rw [hpos0]
        set rI := flmIdxLoop buf idx start end_ maxlen (end_ + 1)
          (prevIdxGo buf (bget buf end_) end_) (0, MATCH_NOT_FND) with hrI
        have hu := FlmInv_unique buf end_ maxlen start rI rP hidxinv hplain
        rcases Nat.eq_zero_or_pos rP.1 with hz | hp
        · rw [if_neg (by omega), if_neg (by omega)]
        · have hq := hu.2 (by omega)
          rw [if_pos (by omega), if_pos (by omega), hu.1, hq]

/-- Helper: getD after set at the written slot. -/
theorem idxget_set_self (idx : List Nat) (i x : Nat) (h : i < idx.length) :
    idxget (idx.set i x) i = x := by
  unfold idxget
  rw [List.getD_eq_getElem?_getD, List.getElem?_set_self h]
  rfl

/-- Helper: getD after set at another slot. -/
theorem idxget_set_ne (idx : List Nat) (i x j : Nat) (h : i ≠ j) :
    idxget (idx.set i x) j = idxget idx j := by
  unfold idxget
  rw [List.getD_eq_getElem?_getD, List.getElem?_set_ne h,
    ← List.getD_eq_getElem?_getD]

/-- Helper: the filling loop of do_indexing computes, at every offset
it writes, the previous offset with the same byte. -/
theorem buildIndexGo_get (buf : List Nat) :
    ∀ (n i : Nat) (idx : List Nat) (last : Nat → Nat),
      (∀ v, last v = prevIdxGo buf v i) →
      ∀ j, j < idx.length →
        ((j < i → idxget (buildIndexGo buf n i idx last) j = idxget idx j)
         ∧ (i ≤ j → j < i + n →
             idxget (buildIndexGo buf n i idx last) j = prevIdx buf j)) := by
  intro n
  induction n with
  | zero =>
    intro i idx last hlast j hj
    constructor
    · intro _
      rfl
    · intro h1 h2
      exact absurd h2 (by omega)
  | succ m ih =>
    intro i idx last hlast j hj
    have hlast' : ∀ v, (fun x => if x = bget buf i then i else last x) v
        = prevIdxGo buf v (i + 1) := by
      intro v
      by_cases hv : v = bget buf i
      · have hstep : prevIdxGo buf v (i + 1) = i := by
          rw [show prevIdxGo buf v (i + 1)
              = if bget buf i = v then i else prevIdxGo buf v i from rfl]
          rw [if_pos hv.symm]
        rw [hstep]
        simp [hv]
      · have hstep : prevIdxGo buf v (i + 1) = prevIdxGo buf v i := by
          rw [show prevIdxGo buf v (i + 1)
              = if bget buf i = v then i else prevIdxGo buf v i from rfl]
          rw [if_neg (fun hc => hv hc.symm)]
        rw [hstep]
        simp only [if_neg hv]
        exact hlast v
    have hlen : j < (idx.set i (last (bget buf i))).length := by
      rw [List.length_set]
      exact hj
    have hrec := ih (i + 1) (idx.set i (last (bget buf i)))
      (fun x => if x = bget buf i then i else last x) hlast' j hlen
    constructor
    · intro hji
      simp only [buildIndexGo]
      rw [hrec.1 (by omega), idxget_set_ne idx i (last (bget buf i)) j (by omega)]
    · intro hij hjn
      simp only [buildIndexGo]
      rcases Nat.eq_or_lt_of_le hij with hji | hji
      · subst hji
        rw [hrec.1 (by omega), idxget_set_self idx i (last (bget buf i)) hj,
          hlast (bget buf i)]
        rfl
      · exact hrec.2 (by omega) (by omega)

/-- Helper: do_indexing builds the previous-same-byte chain over the
occupied part of the encoder buffer. -/
theorem buildIndex_get (e : Encoder)
    (hsz : inputOffset e + e.input_size ≤ 2 * ibsz e) :
    ∀ j, j < inputOffset e + e.input_size →
      idxget (buildIndex e) j = prevIdx e.buffer j := by
  intro j hj
  have hlen : j < (List.replicate (2 * ibsz e) MATCH_NOT_FND).length := by
    rw [List.length_replicate]
    omega
  have h := buildIndexGo_get e.buffer (inputOffset e + e.input_size) 0
    (List.replicate (2 * ibsz e) MATCH_NOT_FND) (fun _ => MATCH_NOT_FND)
    (fun v => rfl) j hlen
  exact h.2 (Nat.zero_le j) (by omega)

/-- Helper: during an active search (msi below input_size), the
indexed finder invoked on the current do_indexing table returns
exactly what the plain finder returns. -/
theorem searchRes_idx_eq (e : Encoder) (hinv : EncInv e) (hw : e.w ≤ 15)
    (hl : e.l ≤ e.w) (hmsi : e.msi < e.input_size) :
    searchRes true { e with search_index := buildIndex e } = searchRes false e := by
  obtain ⟨hA, hB, hC, hD, hE⟩ := hinv
  have hib : ibsz e = 2 ^ e.w := rfl
  have hio : inputOffset e = 2 ^ e.w := rfl
  have hSE : searchEnd e = inputOffset e + e.msi := rfl
  have hS : MATCH_NOT_FND = 65535 := rfl
  have hp1 : 0 < 2 ^ e.w := pow_pos (by omega) e.w
  have h15 : (2 : Nat) ^ 15 = 32768 := by norm_num
  have hpw : 2 ^ e.w ≤ 32768 := by
    have := Nat.pow_le_pow_right (show 1 ≤ 2 by omega) hw
    omega
  show find_longest_match_idx e.buffer (buildIndex e) (searchStart e)
      (searchEnd e) (searchMax e)
    = find_longest_match e.buffer (searchStart e) (searchEnd e) (searchMax e)
  apply find_longest_match_idx_eq
  · intro i hi
    exact buildIndex_get e (by omega) i (by omega)
  · omega
  · unfold searchStart
    split
    · omega
    · split
      · refine Nat.max_le.mpr ⟨by omega, ?_⟩
        have hll : lasz e = 2 ^ e.l := rfl
        have := Nat.pow_le_pow_right (show 1 ≤ 2 by omega) hl
        omega
      · omega

/-- Helper: with a freshly built index, one search step in the indexed
encoder does exactly what the plain search step does, apart from
carrying the index. -/
theorem st_step_search_idx_eq (e : Encoder) (hinv : EncInv e) (hw : e.w ≤ 15)
    (hl : e.l ≤ e.w) :
    st_step_search true { e with search_index := buildIndex e }
      = ({ (st_step_search false e).1 with search_index := buildIndex e },
         (st_step_search false e).2) := by
  have hcond : (({ e with search_index := buildIndex e } : Encoder).input_size
      ≤ ({ e with search_index := buildIndex e } : Encoder).msi
        + (if is_finishing { e with search_index := buildIndex e } = true then 0
           else lasz { e with search_index := buildIndex e }))
      ↔ e.input_size ≤ e.msi + (if is_finishing e = true then 0 else lasz e) :=
    Iff.rfl
  by_cases hb : e.input_size ≤ e.msi + (if is_finishing e = true then 0 else lasz e)
  · unfold st_step_search
    rw [if_pos (hcond.mpr hb), if_pos hb]
  · unfold st_step_search
    rw [if_neg (fun hc => hb (hcond.mp hc)), if_neg hb]
    rw [searchRes_idx_eq e hinv hw hl (by omega)]
    rcases searchRes false e with _ | ⟨dist, len⟩
    · rfl
    · rfl

/-- Helper: push_bits ignores and preserves the search index. -/
theorem push_bits_idx :
    ∀ (c bits : Nat) (f : Encoder) (out : List Nat) (six : List Nat),
      push_bits c bits { f with search_index := six } out
        = ({ (push_bits c bits f out).1 with search_index := six },
           (push_bits c bits f out).2) := by
  intro c
  induction c with
  | zero => intro bits f out six; rfl
  | succ n ih =>
    intro bits f out six
    simp only [push_bits]
    split
    next hbi =>
      exact ih bits { f with current_byte := 0, bit_index := 0x80 }
        (out ++ [if bits &&& (1 <<< n) ≠ 0 then f.current_byte ||| f.bit_index
                 else f.current_byte]) six
    next hbi =>
      exact ih bits
        { f with
          current_byte := if bits &&& (1 <<< n) ≠ 0 then
              f.current_byte ||| f.bit_index
            else f.current_byte,
          bit_index := f.bit_index >>> 1 } out six

/-- Helper: push_outgoing_bits ignores and preserves the search
index. -/
theorem push_outgoing_bits_idx (f : Encoder) (out : List Nat) (six : List Nat) :
    push_outgoing_bits { f with search_index := six } out
      = ({ (push_outgoing_bits f out).1 with search_index := six },
         (push_outgoing_bits f out).2) := by
  simp only [push_outgoing_bits, push_bits_idx]

/-- Helper: st_yield_tag_bit ignores and preserves the search index. -/
theorem st_yield_tag_bit_idx (f : Encoder) (out : List Nat) (cap : Nat)
    (six : List Nat) :
    st_yield_tag_bit { f with search_index := six } out cap
      = ({ (st_yield_tag_bit f out cap).1 with search_index := six },
         (st_yield_tag_bit f out cap).2) := by
  simp only [st_yield_tag_bit, push_bits_idx]
  split
  next hc =>
    split
    next hm => rfl
    next hm => rfl
  next hc => rfl

/-- Helper: st_yield_literal ignores and preserves the search index. -/
theorem st_yield_literal_idx (f : Encoder) (out : List Nat) (cap : Nat)
    (six : List Nat) :
    st_yield_literal { f with search_index := six } out cap
      = ({ (st_yield_literal f out cap).1 with search_index := six },
         (st_yield_literal f out cap).2) := by
  simp only [st_yield_literal, push_literal_byte, inputOffset, ibsz,
    on_final_literal, push_bits_idx]
  split
  next hc =>
    split
    next hm => rfl
    next hm => rfl
  next hc => rfl

/-- Helper: st_yield_br_index ignores and preserves the search
index. -/
theorem st_yield_br_index_idx (f : Encoder) (out : List Nat) (cap : Nat)
    (six : List Nat) :
    st_yield_br_index { f with search_index := six } out cap
      = ({ (st_yield_br_index f out cap).1 with search_index := six },
         (st_yield_br_index f out cap).2) := by
  simp only [st_yield_br_index, push_outgoing_bits_idx]
  split
  next hc =>
    split
    next hm => rfl
    next hm => rfl
  next hc => rfl

/-- Helper: st_yield_br_length ignores and preserves the search
index. -/
theorem st_yield_br_length_idx (f : Encoder) (out : List Nat) (cap : Nat)
    (six : List Nat) :
    st_yield_br_length { f with search_index := six } out cap
      = ({ (st_yield_br_length f out cap).1 with search_index := six },
         (st_yield_br_length f out cap).2) := by
  simp only [st_yield_br_length, push_outgoing_bits_idx]
  split
  next hc =>
    split
    next hm => rfl
    next hm => rfl
  next hc => rfl

/-- Helper: st_save_backlog ignores and preserves the search index. -/
theorem st_save_backlog_idx (f : Encoder) (six : List Nat) :
    st_save_backlog { f with search_index := six }
      = ({ (st_save_backlog f).1 with search_index := six },
         (st_save_backlog f).2) := by
  simp only [st_save_backlog, save_backlog, memmoveDown, is_finishing,
    has_literal, backlogPart, ibsz]
  split
  next hfin =>
    split
    next hlit => rfl
    next hlit => rfl
  next hfin =>
    split
    next hbl => rfl
    next hbl => rfl

/-- Helper: st_flush_bit_buffer ignores and preserves the search
index. -/
theorem st_flush_bit_buffer_idx (f : Encoder) (out : List Nat) (cap : Nat)
    (six : List Nat) :
    st_flush_bit_buffer { f with search_index := six } out cap
      = ({ (st_flush_bit_buffer f out cap).1 with search_index := six },
         (st_flush_bit_buffer f out cap).2) := by
  simp only [st_flush_bit_buffer]
  split
  next h1 => rfl
  next h1 =>
    split
    next h2 => rfl
    next h2 => rfl

/-- Helper: encoder_sink ignores and preserves the search index. -/
theorem encoder_sink_idx (f : Encoder) (inp : List Nat) (six : List Nat) :
    encoder_sink { f with search_index := six } inp
      = ({ (encoder_sink f inp).1 with search_index := six },
         (encoder_sink f inp).2) := by
  simp only [encoder_sink, is_finishing, ibsz, inputOffset]
  split
  next h1 => rfl
  next h1 =>
    split
    next h2 => rfl
    next h2 =>
      split
      next h3 => rfl
      next h3 => rfl

/-- Helper: encoder_finish ignores and preserves the search index. -/
theorem encoder_finish_idx (f : Encoder) (six : List Nat) :
    encoder_finish { f with search_index := six }
      = ({ (encoder_finish f).1 with search_index := six },
         (encoder_finish f).2) := by
  simp only [encoder_finish]
  split
  next h1 => rfl
  next h1 => rfl

/-- Helper: rebuilding the index only looks at the buffer, the staged
input size and the window exponent. -/
theorem buildIndex_congr (a b : Encoder) (hb : a.buffer = b.buffer)
    (hi : a.input_size = b.input_size) (hw : a.w = b.w) :
    buildIndex a = buildIndex b := by
  unfold buildIndex inputOffset ibsz
  rw [hb, hi, hw]

/-- Helper: one search step never touches the buffer, the staged
input, or the configuration. -/
theorem st_step_search_core (useIdx : Bool) (e : Encoder) :
    (st_step_search useIdx e).1.buffer = e.buffer
    ∧ (st_step_search useIdx e).1.input_size = e.input_size
    ∧ (st_step_search useIdx e).1.w = e.w
    ∧ (st_step_search useIdx e).1.l = e.l := by
  unfold st_step_search
  by_cases hb : e.input_size ≤ e.msi + (if is_finishing e = true then 0 else lasz e)
  · rw [if_pos hb]
    exact ⟨rfl, rfl, rfl, rfl⟩
  · rw [if_neg hb]
    rcases searchRes useIdx e with _ | ⟨dist, len⟩
    · exact ⟨rfl, rfl, rfl, rfl⟩
    · exact ⟨rfl, rfl, rfl, rfl⟩

/-- Helper: st_yield_tag_bit keeps buffer, staged input and the
configuration. -/
theorem st_yield_tag_bit_core4 (f : Encoder) (out : List Nat) (cap : Nat) :
    (st_yield_tag_bit f out cap).1.buffer = f.buffer
    ∧ (st_yield_tag_bit f out cap).1.input_size = f.input_size
    ∧ (st_yield_tag_bit f out cap).1.w = f.w
    ∧ (st_yield_tag_bit f out cap).1.l = f.l := by
  rw [st_yield_tag_bit]
  split
  · split
    · obtain ⟨hw, hl, hbuf, his, _⟩ := push_bits_core 1 1 f out
      exact ⟨hbuf, his, hw, hl⟩
    · obtain ⟨hw, hl, hbuf, his, _⟩ := push_bits_core 1 0 f out
      exact ⟨hbuf, his, hw, hl⟩
  · exact ⟨rfl, rfl, rfl, rfl⟩

/-- Helper: st_yield_literal keeps buffer, staged input and the
configuration. -/
theorem st_yield_literal_core4 (f : Encoder) (out : List Nat) (cap : Nat) :
    (st_yield_literal f out cap).1.buffer = f.buffer
    ∧ (st_yield_literal f out cap).1.input_size = f.input_size
    ∧ (st_yield_literal f out cap).1.w = f.w
    ∧ (st_yield_literal f out cap).1.l = f.l := by
  have hcore := push_bits_core 8 (bget f.buffer (inputOffset f + (f.msi - 1))) f out
  obtain ⟨hw, hl, hbuf, his, _⟩ := hcore
  simp only [st_yield_literal]
  split
  · split
    · exact ⟨hbuf, his, hw, hl⟩
    · split
      · exact ⟨hbuf, his, hw, hl⟩
      · exact ⟨hbuf, his, hw, hl⟩
  · exact ⟨rfl, rfl, rfl, rfl⟩

/-- Helper: st_yield_br_index keeps buffer, staged input and the
configuration. -/
theorem st_yield_br_index_core4 (f : Encoder) (out : List Nat) (cap : Nat) :
    (st_yield_br_index f out cap).1.buffer = f.buffer
    ∧ (st_yield_br_index f out cap).1.input_size = f.input_size
    ∧ (st_yield_br_index f out cap).1.w = f.w
    ∧ (st_yield_br_index f out cap).1.l = f.l := by
  obtain ⟨hw, hl, hbuf, his, _⟩ := push_outgoing_bits_core f out
  simp only [st_yield_br_index]
  split
  · split
    · exact ⟨hbuf, his, hw, hl⟩
    · exact ⟨hbuf, his, hw, hl⟩
  · exact ⟨rfl, rfl, rfl, rfl⟩

/-- Helper: st_yield_br_length keeps buffer, staged input and the
configuration. -/
theorem st_yield_br_length_core4 (f : Encoder) (out : List Nat) (cap : Nat) :
    (st_yield_br_length f out cap).1.buffer = f.buffer
    ∧ (st_yield_br_length f out cap).1.input_size = f.input_size
    ∧ (st_yield_br_length f out cap).1.w = f.w
    ∧ (st_yield_br_length f out cap).1.l = f.l := by
  obtain ⟨hw, hl, hbuf, his, _⟩ := push_outgoing_bits_core f out
  simp only [st_yield_br_length]
  split
  · split
    · exact ⟨hbuf, his, hw, hl⟩
    · exact ⟨hbuf, his, hw, hl⟩
  · exact ⟨rfl, rfl, rfl, rfl⟩

/-- Helper: when st_save_backlog stays inside the search cluster (the
finishing path), it keeps buffer, staged input and the
configuration. -/
theorem st_save_backlog_keep (f : Encoder) (h : sixOk (st_save_backlog f).2) :
    (st_save_backlog f).1.buffer = f.buffer
    ∧ (st_save_backlog f).1.input_size = f.input_size
    ∧ (st_save_backlog f).1.w = f.w
    ∧ (st_save_backlog f).1.l = f.l := by
  by_cases hfin : is_finishing f = true
  · by_cases hlit : has_literal f = true
    · have he : st_save_backlog f
          = ({ f with flags := f.flags ||| 4 }, EState.yieldTagBit) := by
        rw [st_save_backlog, if_pos hfin, if_pos hlit]
      rw [he]
      exact ⟨rfl, rfl, rfl, rfl⟩
    · have he : st_save_backlog f = (f, EState.flushBits) := by
        rw [st_save_backlog, if_pos hfin, if_neg hlit]
      rw [he] at h
      exact absurd h (show ¬ sixOk EState.flushBits by decide)
  · have he : st_save_backlog f = (save_backlog f, EState.notFull) := by
      rw [st_save_backlog, if_neg hfin]
    rw [he] at h
    exact absurd h (show ¬ sixOk EState.notFull by decide)

/-- Helper: st_save_backlog keeps the configuration. -/
theorem st_save_backlog_wl (f : Encoder) :
    (st_save_backlog f).1.w = f.w ∧ (st_save_backlog f).1.l = f.l := by
  rw [st_save_backlog]
  split
  · split
    · exact ⟨rfl, rfl⟩
    · exact ⟨rfl, rfl⟩
  · exact ⟨rfl, rfl⟩

/-- Helper: st_flush_bit_buffer never changes the encoder. -/
theorem st_flush_fst (f : Encoder) (out : List Nat) (cap : Nat) :
    (st_flush_bit_buffer f out cap).1 = f := by
  rw [st_flush_bit_buffer]
  split
  · rfl
  · split
    · rfl
    · rfl

/-- Helper: st_flush_bit_buffer only moves to DONE or stays in
FLUSH_BITS. -/
theorem st_flush_state (f : Encoder) (out : List Nat) (cap : Nat) :
    (st_flush_bit_buffer f out cap).2.2 = EState.done
    ∨ (st_flush_bit_buffer f out cap).2.2 = EState.flushBits := by
  rw [st_flush_bit_buffer]
  split
  · exact Or.inl rfl
  · split
    · exact Or.inl rfl
    · exact Or.inr rfl

/-- Unfolding equation for pollLoop in the FLUSH_BITS state. -/
theorem pollLoop_eq_flushBits (uI : Bool) (cap n : Nat) (e : Encoder)
    (out : List Nat) (h : e.st = EState.flushBits) :
    pollLoop uI cap (n + 1) e out
      = some (EPollRes.empty,
          { (st_flush_bit_buffer e out cap).1 with
            st := (st_flush_bit_buffer e out cap).2.2 },
          (st_flush_bit_buffer e out cap).2.1) := by
  obtain ⟨w, l, buf, isz, msi, fl, st, mp, ml, ob, oc, bi, cb, sx⟩ := e
  have h2 : st = EState.flushBits := h
  subst h2
  rfl

/-- Unfolding equation for pollLoop in the SEARCH state. -/
theorem pollLoop_eq_search (uI : Bool) (cap n : Nat) (e : Encoder)
    (out : List Nat) (h : e.st = EState.search) :
    pollLoop uI cap (n + 1) e out
      = (if (st_step_search uI e).2 = EState.search then
           if out.length = cap then
             some (EPollRes.more,
               { (st_step_search uI e).1 with st := (st_step_search uI e).2 },
               out)
           else pollLoop uI cap n
             { (st_step_search uI e).1 with st := (st_step_search uI e).2 } out
         else pollLoop uI cap n
           { (st_step_search uI e).1 with st := (st_step_search uI e).2 } out) := by
  obtain ⟨w, l, buf, isz, msi, fl, st, mp, ml, ob, oc, bi, cb, sx⟩ := e
  have h2 : st = EState.search := h
  subst h2
  rfl

/-- Unfolding equation for pollLoop in the SAVE_BACKLOG state. -/
theorem pollLoop_eq_saveBacklog (uI : Bool) (cap n : Nat) (e : Encoder)
    (out : List Nat) (h : e.st = EState.saveBacklog) :
    pollLoop uI cap (n + 1) e out
      = (if (st_save_backlog e).2 = EState.saveBacklog then
           if out.length = cap then
             some (EPollRes.more,
               { (st_save_backlog e).1 with st := (st_save_backlog e).2 },
               out)
           else pollLoop uI cap n
             { (st_save_backlog e).1 with st := (st_save_backlog e).2 } out
         else pollLoop uI cap n
           { (st_save_backlog e).1 with st := (st_save_backlog e).2 } out) := by
  obtain ⟨w, l, buf, isz, msi, fl, st, mp, ml, ob, oc, bi, cb, sx⟩ := e
  have h2 : st = EState.saveBacklog := h
  subst h2
  rfl

/-- Unfolding equation for pollLoop in the YIELD_TAG_BIT state. -/
theorem pollLoop_eq_yieldTagBit (uI : Bool) (cap n : Nat) (e : Encoder)
    (out : List Nat) (h : e.st = EState.yieldTagBit) :
    pollLoop uI cap (n + 1) e out
      = (if (st_yield_tag_bit e out cap).2.2 = EState.yieldTagBit then
           if (st_yield_tag_bit e out cap).2.1.length = cap then
             some (EPollRes.more,
               { (st_yield_tag_bit e out cap).1 with
                 st := (st_yield_tag_bit e out cap).2.2 },
               (st_yield_tag_bit e out cap).2.1)
           else pollLoop uI cap n
             { (st_yield_tag_bit e out cap).1 with
               st := (st_yield_tag_bit e out cap).2.2 }
             (st_yield_tag_bit e out cap).2.1
         else pollLoop uI cap n
           { (st_yield_tag_bit e out cap).1 with
             st := (st_yield_tag_bit e out cap).2.2 }
           (st_yield_tag_bit e out cap).2.1) := by
  obtain ⟨w, l, buf, isz, msi, fl, st, mp, ml, ob, oc, bi, cb, sx⟩ := e
  have h2 : st = EState.yieldTagBit := h
  subst h2
  rfl

/-- Unfolding equation for pollLoop in the YIELD_LITERAL state. -/
theorem pollLoop_eq_yieldLiteral (uI : Bool) (cap n : Nat) (e : Encoder)
    (out : List Nat) (h : e.st = EState.yieldLiteral) :
    pollLoop uI cap (n + 1) e out
      = (if (st_yield_literal e out cap).2.2 = EState.yieldLiteral then
           if (st_yield_literal e out cap).2.1.length = cap then
             some (EPollRes.more,
               { (st_yield_literal e out cap).1 with
                 st := (st_yield_literal e out cap).2.2 },
               (st_yield_literal e out cap).2.1)
           else pollLoop uI cap n
             { (st_yield_literal e out cap).1 with
               st := (st_yield_literal e out cap).2.2 }
             (st_yield_literal e out cap).2.1
         else pollLoop uI cap n
           { (st_yield_literal e out cap).1 with
             st := (st_yield_literal e out cap).2.2 }
           (st_yield_literal e out cap).2.1) := by
  obtain ⟨w, l, buf, isz, msi, fl, st, mp, ml, ob, oc, bi, cb, sx⟩ := e
  have h2 : st = EState.yieldLiteral := h
  subst h2
  rfl

/-- Unfolding equation for pollLoop in the YIELD_BR_INDEX state. -/
theorem pollLoop_eq_yieldBrIndex (uI : Bool) (cap n : Nat) (e : Encoder)
    (out : List Nat) (h : e.st = EState.yieldBrIndex) :
    pollLoop uI cap (n + 1) e out
      = (if (st_yield_br_index e out cap).2.2 = EState.yieldBrIndex then
           if (st_yield_br_index e out cap).2.1.length = cap then
             some (EPollRes.more,
               { (st_yield_br_index e out cap).1 with
                 st := (st_yield_br_index e out cap).2.2 },
               (st_yield_br_index e out cap).2.1)
           else pollLoop uI cap n
             { (st_yield_br_index e out cap).1 with
               st := (st_yield_br_index e out cap).2.2 }
             (st_yield_br_index e out cap).2.1
         else pollLoop uI cap n
           { (st_yield_br_index e out cap).1 with
             st := (st_yield_br_index e out cap).2.2 }
           (st_yield_br_index e out cap).2.1) := by
  obtain ⟨w, l, buf, isz, msi, fl, st, mp, ml, ob, oc, bi, cb, sx⟩ := e
  have h2 : st = EState.yieldBrIndex := h
  subst h2
  rfl

/-- Unfolding equation for pollLoop in the YIELD_BR_LENGTH state. -/
theorem pollLoop_eq_yieldBrLength (uI : Bool) (cap n : Nat) (e : Encoder)
    (out : List Nat) (h : e.st = EState.yieldBrLength) :
    pollLoop uI cap (n + 1) e out
      = (if (st_yield_br_length e out cap).2.2 = EState.yieldBrLength then
           if (st_yield_br_length e out cap).2.1.length = cap then
             some (EPollRes.more,
               { (st_yield_br_length e out cap).1 with
                 st := (st_yield_br_length e out cap).2.2 },
               (st_yield_br_length e out cap).2.1)
           else pollLoop uI cap n
             { (st_yield_br_length e out cap).1 with
               st := (st_yield_br_length e out cap).2.2 }
             (st_yield_br_length e out cap).2.1
         else pollLoop uI cap n
           { (st_yield_br_length e out cap).1 with
             st := (st_yield_br_length e out cap).2.2 }
           (st_yield_br_length e out cap).2.1) := by
  obtain ⟨w, l, buf, isz, msi, fl, st, mp, ml, ob, oc, bi, cb, sx⟩ := e
  have h2 : st = EState.yieldBrLength := h
  subst h2
  rfl


set_option maxHeartbeats 2000000 in
/-- Helper: the encoder poll loop with the byte-chain index enabled
simulates the loop with the index disabled: same result code, same
output bytes, same encoder state apart from the carried index, which
stays the index of the current buffer whenever the machine is inside
the search cluster. -/
theorem pollLoop_idx (cap : Nat) :
    ∀ (fuel : Nat) (f : Encoder) (six : List Nat) (out : List Nat),
      (sixOk f.st → six = buildIndex f) →
      EncInv f → f.w ≤ 15 → f.l ≤ f.w →
      (match pollLoop false cap fuel f out with
       | none => pollLoop true cap fuel { f with search_index := six } out = none
       | some r => ∃ six2,
           pollLoop true cap fuel { f with search_index := six } out
             = some (r.1, { r.2.1 with search_index := six2 }, r.2.2)
           ∧ (sixOk r.2.1.st → six2 = buildIndex r.2.1)
           ∧ r.2.1.w = f.w ∧ r.2.1.l = f.l) := by
  intro fuel
  induction fuel with
  | zero =>
    intro f six out hs hinv hw hl
    simp [pollLoop]
  | succ n ih =>
    intro f six out hs hinv hw hl
    obtain ⟨hA, hB, hC, hD, hE⟩ := hinv
    cases hst : f.st
    case notFull =>
      rw [← hst]
      have hR : pollLoop false cap (n + 1) f out = some (EPollRes.empty, f, out) := by
        simp only [pollLoop, hst]
      have hL : pollLoop true cap (n + 1) { f with search_index := six } out
          = some (EPollRes.empty, { f with search_index := six }, out) := by
        simp only [pollLoop, hst]
      rw [hR, hL]
      exact ⟨six, rfl, hs, rfl, rfl⟩
    case done =>
      rw [← hst]
      have hR : pollLoop false cap (n + 1) f out = some (EPollRes.empty, f, out) := by
        simp only [pollLoop, hst]
      have hL : pollLoop true cap (n + 1) { f with search_index := six } out
          = some (EPollRes.empty, { f with search_index := six }, out) := by
        simp only [pollLoop, hst]
      rw [hR, hL]
      exact ⟨six, rfl, hs, rfl, rfl⟩
    case flushBits =>
      rw [← hst]
      have hR : pollLoop false cap (n + 1) f out
          = some (EPollRes.empty,
              { (st_flush_bit_buffer f out cap).1 with
                st := (st_flush_bit_buffer f out cap).2.2 },
              (st_flush_bit_buffer f out cap).2.1) := by
        simp only [pollLoop, hst]
      have hL : pollLoop true cap (n + 1) { f with search_index := six } out
          = some (EPollRes.empty,
              { (st_flush_bit_buffer f out cap).1 with
                st := (st_flush_bit_buffer f out cap).2.2, search_index := six },
              (st_flush_bit_buffer f out cap).2.1) := by
        rw [pollLoop_eq_flushBits true cap n ({ f with search_index := six }) out hst,
          st_flush_bit_buffer_idx]
      rw [hR, hL]
      refine ⟨six, rfl, ?_, ?_, ?_⟩
      · intro hs2
        exfalso
        have hs3 : sixOk (st_flush_bit_buffer f out cap).2.2 := hs2
        rcases st_flush_state f out cap with h | h <;> rw [h] at hs3
        · exact absurd hs3 (by decide)
        · exact absurd hs3 (by decide)
      · show (st_flush_bit_buffer f out cap).1.w = f.w
        rw [st_flush_fst]
      · show (st_flush_bit_buffer f out cap).1.l = f.l
        rw [st_flush_fst]
    case filled =>
      rw [← hst]
      have hbif : buildIndex { f with search_index := six } = buildIndex f := rfl
      have hR : pollLoop false cap (n + 1) f out
          = pollLoop false cap n { f with st := EState.search } out := by
        simp only [pollLoop, hst]
        rfl
      have hL : pollLoop true cap (n + 1) { f with search_index := six } out
          = pollLoop true cap n
              { f with st := EState.search, search_index := buildIndex f } out := by
        simp only [pollLoop, hst, hbif]
        rfl
      rw [hR, hL]
      have hmain := ih { f with st := EState.search } (buildIndex f) out
        (fun _ => rfl) ⟨hA, hB, fun hc => EState.noConfusion hc, hD, hE⟩ hw hl
      exact hmain
    case search =>
      rw [← hst]
      have hsix : six = buildIndex f := hs (Or.inl hst)
      subst hsix
      have hIdxEq := st_step_search_idx_eq f ⟨hA, hB, hC, hD, hE⟩ hw hl
      have hcore := st_step_search_core false f
      have hstep := st_step_search_inv false f ⟨hA, hB, hC, hD, hE⟩
      have hR : pollLoop false cap (n + 1) f out
          = (if (st_step_search false f).2 = EState.search then
               if out.length = cap then
                 some (EPollRes.more,
                   { (st_step_search false f).1 with st := (st_step_search false f).2 },
                   out)
               else pollLoop false cap n
                 { (st_step_search false f).1 with st := (st_step_search false f).2 }
                 out
             else pollLoop false cap n
               { (st_step_search false f).1 with st := (st_step_search false f).2 }
               out) := by
        simp only [pollLoop, hst]
      have hL : pollLoop true cap (n + 1)
            { f with search_index := buildIndex f } out
          = (if (st_step_search false f).2 = EState.search then
               if out.length = cap then
                 some (EPollRes.more,
                   { (st_step_search false f).1 with
                     st := (st_step_search false f).2,
                     search_index := buildIndex f },
                   out)
               else pollLoop true cap n
                 { (st_step_search false f).1 with
                   st := (st_step_search false f).2,
                   search_index := buildIndex f }
                 out
             else pollLoop true cap n
               { (st_step_search false f).1 with
                 st := (st_step_search false f).2,
                 search_index := buildIndex f }
               out) := by
        rw [pollLoop_eq_search true cap n ({ f with search_index := buildIndex f }) out hst,
          hIdxEq]
      rw [hR, hL]
      have hmaint : sixOk ({ (st_step_search false f).1 with
            st := (st_step_search false f).2 } : Encoder).st →
          buildIndex f = buildIndex { (st_step_search false f).1 with
            st := (st_step_search false f).2 } := by
        intro _
        exact (buildIndex_congr _ f hcore.1 hcore.2.1 hcore.2.2.1).symm
      by_cases hcond : (st_step_search false f).2 = EState.search
      · rw [if_pos hcond, if_pos hcond]
        by_cases hlen : out.length = cap
        · rw [if_pos hlen, if_pos hlen]
          exact ⟨buildIndex f, rfl, hmaint, hcore.2.2.1, hcore.2.2.2⟩
        · rw [if_neg hlen, if_neg hlen]
          have hmain := ih
            { (st_step_search false f).1 with st := (st_step_search false f).2 }
            (buildIndex f) out hmaint hstep
            (by rw [show ({ (st_step_search false f).1 with
                st := (st_step_search false f).2 } : Encoder).w = f.w
                from hcore.2.2.1]; exact hw)
            (by rw [show ({ (st_step_search false f).1 with
                st := (st_step_search false f).2 } : Encoder).l = f.l
                from hcore.2.2.2,
                show ({ (st_step_search false f).1 with
                st := (st_step_search false f).2 } : Encoder).w = f.w
                from hcore.2.2.1]; exact hl)
          rcases hro : pollLoop false cap n
              { (st_step_search false f).1 with st := (st_step_search false f).2 }
              out with _ | r
          · rw [hro] at hmain
            exact hmain
          · rw [hro] at hmain
            obtain ⟨six2, hT, hm1, hm2, hm3⟩ := hmain
            exact ⟨six2, hT, hm1, hm2.trans hcore.2.2.1, hm3.trans hcore.2.2.2⟩
      · rw [if_neg hcond, if_neg hcond]
        have hmain := ih
          { (st_step_search false f).1 with st := (st_step_search false f).2 }
          (buildIndex f) out hmaint hstep
          (by rw [show ({ (st_step_search false f).1 with
              st := (st_step_search false f).2 } : Encoder).w = f.w
              from hcore.2.2.1]; exact hw)
          (by rw [show ({ (st_step_search false f).1 with
              st := (st_step_search false f).2 } : Encoder).l = f.l
              from hcore.2.2.2,
              show ({ (st_step_search false f).1 with
              st := (st_step_search false f).2 } : Encoder).w = f.w
              from hcore.2.2.1]; exact hl)
        rcases hro : pollLoop false cap n
            { (st_step_search false f).1 with st := (st_step_search false f).2 }
            out with _ | r
        · rw [hro] at hmain
          exact hmain
        · rw [hro] at hmain
          obtain ⟨six2, hT, hm1, hm2, hm3⟩ := hmain
          exact ⟨six2, hT, hm1, hm2.trans hcore.2.2.1, hm3.trans hcore.2.2.2⟩
    case saveBacklog =>
      rw [← hst]
      have hsix : six = buildIndex f := hs (Or.inr (Or.inr (Or.inr (Or.inr (Or.inr hst)))))
      have hstep := st_save_backlog_inv f ⟨hA, hB, hC, hD, hE⟩
      have hwl := st_save_backlog_wl f
      have hR : pollLoop false cap (n + 1) f out
          = (if (st_save_backlog f).2 = EState.saveBacklog then
               if out.length = cap then
                 some (EPollRes.more,
                   { (st_save_backlog f).1 with st := (st_save_backlog f).2 }, out)
               else pollLoop false cap n
                 { (st_save_backlog f).1 with st := (st_save_backlog f).2 } out
             else pollLoop false cap n
               { (st_save_backlog f).1 with st := (st_save_backlog f).2 } out) := by
        simp only [pollLoop, hst]
      have hL : pollLoop true cap (n + 1) { f with search_index := six } out
          = (if (st_save_backlog f).2 = EState.saveBacklog then
               if out.length = cap then
                 some (EPollRes.more,
                   { (st_save_backlog f).1 with
                     st := (st_save_backlog f).2,
                     search_index := six }, out)
               else pollLoop true cap n
                 { (st_save_backlog f).1 with
                   st := (st_save_backlog f).2,
                   search_index := six } out
             else pollLoop true cap n
               { (st_save_backlog f).1 with
                 st := (st_save_backlog f).2,
                 search_index := six } out) := by
        rw [pollLoop_eq_saveBacklog true cap n ({ f with search_index := six }) out hst,
          st_save_backlog_idx]
      rw [hR, hL]
      have hmaint : sixOk ({ (st_save_backlog f).1 with
            st := (st_save_backlog f).2 } : Encoder).st →
          six = buildIndex { (st_save_backlog f).1 with
            st := (st_save_backlog f).2 } := by
        intro hs2
        have hkeep := st_save_backlog_keep f hs2
        rw [hsix]
        exact (buildIndex_congr _ f hkeep.1 hkeep.2.1 hkeep.2.2.1).symm
      by_cases hcond : (st_save_backlog f).2 = EState.saveBacklog
      · rw [if_pos hcond, if_pos hcond]
        by_cases hlen : out.length = cap
        · rw [if_pos hlen, if_pos hlen]
          exact ⟨six, rfl, hmaint, hwl.1, hwl.2⟩
        · rw [if_neg hlen, if_neg hlen]
          have hmain := ih
            { (st_save_backlog f).1 with st := (st_save_backlog f).2 }
            six out hmaint hstep
            (by rw [show ({ (st_save_backlog f).1 with
                st := (st_save_backlog f).2 } : Encoder).w = f.w from hwl.1]
                exact hw)
            (by rw [show ({ (st_save_backlog f).1 with
                st := (st_save_backlog f).2 } : Encoder).l = f.l from hwl.2,
                show ({ (st_save_backlog f).1 with
                st := (st_save_backlog f).2 } : Encoder).w = f.w from hwl.1]
                exact hl)
          rcases hro : pollLoop false cap n
              { (st_save_backlog f).1 with st := (st_save_backlog f).2 }
              out with _ | r
          · rw [hro] at hmain
            exact hmain
          · rw [hro] at hmain
            obtain ⟨six2, hT, hm1, hm2, hm3⟩ := hmain
            exact ⟨six2, hT, hm1, hm2.trans hwl.1, hm3.trans hwl.2⟩
      · rw [if_neg hcond, if_neg hcond]
        have hmain := ih
          { (st_save_backlog f).1 with st := (st_save_backlog f).2 }
          six out hmaint hstep
          (by rw [show ({ (st_save_backlog f).1 with
              st := (st_save_backlog f).2 } : Encoder).w = f.w from hwl.1]
              exact hw)
          (by rw [show ({ (st_save_backlog f).1 with
              st := (st_save_backlog f).2 } : Encoder).l = f.l from hwl.2,
              show ({ (st_save_backlog f).1 with
              st := (st_save_backlog f).2 } : Encoder).w = f.w from hwl.1]
              exact hl)
        rcases hro : pollLoop false cap n
            { (st_save_backlog f).1 with st := (st_save_backlog f).2 }
            out with _ | r
        · rw [hro] at hmain
          exact hmain
        · rw [hro] at hmain
          obtain ⟨six2, hT, hm1, hm2, hm3⟩ := hmain
          exact ⟨six2, hT, hm1, hm2.trans hwl.1, hm3.trans hwl.2⟩
    case yieldTagBit =>
      rw [← hst]
      have hsix : six = buildIndex f := hs (Or.inr (Or.inl hst))
      have hstep := st_yield_tag_bit_inv f out cap ⟨hA, hB, hC, hD, hE⟩
      have hcore := st_yield_tag_bit_core4 f out cap
      have hR : pollLoop false cap (n + 1) f out
          = (if (st_yield_tag_bit f out cap).2.2 = EState.yieldTagBit then
               if (st_yield_tag_bit f out cap).2.1.length = cap then
                 some (EPollRes.more,
                   { (st_yield_tag_bit f out cap).1 with
                     st := (st_yield_tag_bit f out cap).2.2 },
                   (st_yield_tag_bit f out cap).2.1)
               else pollLoop false cap n
                 { (st_yield_tag_bit f out cap).1 with
                   st := (st_yield_tag_bit f out cap).2.2 }
                 (st_yield_tag_bit f out cap).2.1
             else pollLoop false cap n
               { (st_yield_tag_bit f out cap).1 with
                 st := (st_yield_tag_bit f out cap).2.2 }
               (st_yield_tag_bit f out cap).2.1) := by
        simp only [pollLoop, hst]
      have hL : pollLoop true cap (n + 1) { f with search_index := six } out
          = (if (st_yield_tag_bit f out cap).2.2 = EState.yieldTagBit then
               if (st_yield_tag_bit f out cap).2.1.length = cap then
                 some (EPollRes.more,
                   { (st_yield_tag_bit f out cap).1 with
                     st := (st_yield_tag_bit f out cap).2.2,
                     search_index := six },
                   (st_yield_tag_bit f out cap).2.1)
               else pollLoop true cap n
                 { (st_yield_tag_bit f out cap).1 with
                   st := (st_yield_tag_bit f out cap).2.2, search_index := six }
                 (st_yield_tag_bit f out cap).2.1
             else pollLoop true cap n
               { (st_yield_tag_bit f out cap).1 with
                 st := (st_yield_tag_bit f out cap).2.2, search_index := six }
               (st_yield_tag_bit f out cap).2.1) := by
        rw [pollLoop_eq_yieldTagBit true cap n ({ f with search_index := six }) out hst,
          st_yield_tag_bit_idx]
      rw [hR, hL]
      have hmaint : sixOk ({ (st_yield_tag_bit f out cap).1 with
            st := (st_yield_tag_bit f out cap).2.2 } : Encoder).st →
          six = buildIndex { (st_yield_tag_bit f out cap).1 with
            st := (st_yield_tag_bit f out cap).2.2 } := by
        intro _
        rw [hsix]
        exact (buildIndex_congr _ f hcore.1 hcore.2.1 hcore.2.2.1).symm
      by_cases hcond : (st_yield_tag_bit f out cap).2.2 = EState.yieldTagBit
      · rw [if_pos hcond, if_pos hcond]
        by_cases hlen : (st_yield_tag_bit f out cap).2.1.length = cap
        · rw [if_pos hlen, if_pos hlen]
          exact ⟨six, rfl, hmaint, hcore.2.2.1, hcore.2.2.2⟩
        · rw [if_neg hlen, if_neg hlen]
          have hmain := ih
            { (st_yield_tag_bit f out cap).1 with
              st := (st_yield_tag_bit f out cap).2.2 }
            six (st_yield_tag_bit f out cap).2.1 hmaint hstep
            (by rw [show ({ (st_yield_tag_bit f out cap).1 with
                st := (st_yield_tag_bit f out cap).2.2 } : Encoder).w = f.w
                from hcore.2.2.1]
                exact hw)
            (by rw [show ({ (st_yield_tag_bit f out cap).1 with
                st := (st_yield_tag_bit f out cap).2.2 } : Encoder).l = f.l
                from hcore.2.2.2,
                show ({ (st_yield_tag_bit f out cap).1 with
                st := (st_yield_tag_bit f out cap).2.2 } : Encoder).w = f.w
                from hcore.2.2.1]
                exact hl)
          rcases hro : pollLoop false cap n
              { (st_yield_tag_bit f out cap).1 with
                st := (st_yield_tag_bit f out cap).2.2 }
              (st_yield_tag_bit f out cap).2.1 with _ | r
          · rw [hro] at hmain
            exact hmain
          · rw [hro] at hmain
            obtain ⟨six2, hT, hm1, hm2, hm3⟩ := hmain
            exact ⟨six2, hT, hm1, hm2.trans hcore.2.2.1, hm3.trans hcore.2.2.2⟩
      · rw [if_neg hcond, if_neg hcond]
        have hmain := ih
          { (st_yield_tag_bit f out cap).1 with
            st := (st_yield_tag_bit f out cap).2.2 }
          six (st_yield_tag_bit f out cap).2.1 hmaint hstep
          (by rw [show ({ (st_yield_tag_bit f out cap).1 with
              st := (st_yield_tag_bit f out cap).2.2 } : Encoder).w = f.w
              from hcore.2.2.1]
              exact hw)
          (by rw [show ({ (st_yield_tag_bit f out cap).1 with
              st := (st_yield_tag_bit f out cap).2.2 } : Encoder).l = f.l
              from hcore.2.2.2,
              show ({ (st_yield_tag_bit f out cap).1 with
              st := (st_yield_tag_bit f out cap).2.2 } : Encoder).w = f.w
              from hcore.2.2.1]
              exact hl)
        rcases hro : pollLoop false cap n
            { (st_yield_tag_bit f out cap).1 with
              st := (st_yield_tag_bit f out cap).2.2 }
            (st_yield_tag_bit f out cap).2.1 with _ | r
        · rw [hro] at hmain
          exact hmain
        · rw [hro] at hmain
          obtain ⟨six2, hT, hm1, hm2, hm3⟩ := hmain
          exact ⟨six2, hT, hm1, hm2.trans hcore.2.2.1, hm3.trans hcore.2.2.2⟩
    case yieldLiteral =>
      rw [← hst]
      have hsix : six = buildIndex f := hs (Or.inr (Or.inr (Or.inl hst)))
      have hstep := st_yield_literal_inv f out cap ⟨hA, hB, hC, hD, hE⟩
      have hcore := st_yield_literal_core4 f out cap
      have hR : pollLoop false cap (n + 1) f out
          = (if (st_yield_literal f out cap).2.2 = EState.yieldLiteral then
               if (st_yield_literal f out cap).2.1.length = cap then
                 some (EPollRes.more,
                   { (st_yield_literal f out cap).1 with
                     st := (st_yield_literal f out cap).2.2 },
                   (st_yield_literal f out cap).2.1)
               else pollLoop false cap n
                 { (st_yield_literal f out cap).1 with
                   st := (st_yield_literal f out cap).2.2 }
                 (st_yield_literal f out cap).2.1
             else pollLoop false cap n
               { (st_yield_literal f out cap).1 with
                 st := (st_yield_literal f out cap).2.2 }
               (st_yield_literal f out cap).2.1) := by
        simp only [pollLoop, hst]
      have hL : pollLoop true cap (n + 1) { f with search_index := six } out
          = (if (st_yield_literal f out cap).2.2 = EState.yieldLiteral then
               if (st_yield_literal f out cap).2.1.length = cap then
                 some (EPollRes.more,
                   { (st_yield_literal f out cap).1 with
                     st := (st_yield_literal f out cap).2.2,
                     search_index := six },
                   (st_yield_literal f out cap).2.1)
               else pollLoop true cap n
                 { (st_yield_literal f out cap).1 with
                   st := (st_yield_literal f out cap).2.2, search_index := six }
                 (st_yield_literal f out cap).2.1
             else pollLoop true cap n
               { (st_yield_literal f out cap).1 with
                 st := (st_yield_literal f out cap).2.2, search_index := six }
               (st_yield_literal f out cap).2.1) := by
        rw [pollLoop_eq_yieldLiteral true cap n ({ f with search_index := six }) out hst,
          st_yield_literal_idx]
      rw [hR, hL]
      have hmaint : sixOk ({ (st_yield_literal f out cap).1 with
            st := (st_yield_literal f out cap).2.2 } : Encoder).st →
          six = buildIndex { (st_yield_literal f out cap).1 with
            st := (st_yield_literal f out cap).2.2 } := by
        intro _
        rw [hsix]
        exact (buildIndex_congr _ f hcore.1 hcore.2.1 hcore.2.2.1).symm
      by_cases hcond : (st_yield_literal f out cap).2.2 = EState.yieldLiteral
      · rw [if_pos hcond, if_pos hcond]
        by_cases hlen : (st_yield_literal f out cap).2.1.length = cap
        · rw [if_pos hlen, if_pos hlen]
          exact ⟨six, rfl, hmaint, hcore.2.2.1, hcore.2.2.2⟩
        · rw [if_neg hlen, if_neg hlen]
          have hmain := ih
            { (st_yield_literal f out cap).1 with
              st := (st_yield_literal f out cap).2.2 }
            six (st_yield_literal f out cap).2.1 hmaint hstep
            (by rw [show ({ (st_yield_literal f out cap).1 with
                st := (st_yield_literal f out cap).2.2 } : Encoder).w = f.w
                from hcore.2.2.1]
                exact hw)
            (by rw [show ({ (st_yield_literal f out cap).1 with
                st := (st_yield_literal f out cap).2.2 } : Encoder).l = f.l
                from hcore.2.2.2,
                show ({ (st_yield_literal f out cap).1 with
                st := (st_yield_literal f out cap).2.2 } : Encoder).w = f.w
                from hcore.2.2.1]
                exact hl)
          rcases hro : pollLoop false cap n
              { (st_yield_literal f out cap).1 with
                st := (st_yield_literal f out cap).2.2 }
              (st_yield_literal f out cap).2.1 with _ | r
          · rw [hro] at hmain
            exact hmain
          · rw [hro] at hmain
            obtain ⟨six2, hT, hm1, hm2, hm3⟩ := hmain
            exact ⟨six2, hT, hm1, hm2.trans hcore.2.2.1, hm3.trans hcore.2.2.2⟩
      · rw [if_neg hcond, if_neg hcond]
        have hmain := ih
          { (st_yield_literal f out cap).1 with
            st := (st_yield_literal f out cap).2.2 }
          six (st_yield_literal f out cap).2.1 hmaint hstep
          (by rw [show ({ (st_yield_literal f out cap).1 with
              st := (st_yield_literal f out cap).2.2 } : Encoder).w = f.w
              from hcore.2.2.1]
              exact hw)
          (by rw [show ({ (st_yield_literal f out cap).1 with
              st := (st_yield_literal f out cap).2.2 } : Encoder).l = f.l
              from hcore.2.2.2,
              show ({ (st_yield_literal f out cap).1 with
              st := (st_yield_literal f out cap).2.2 } : Encoder).w = f.w
              from hcore.2.2.1]
              exact hl)
        rcases hro : pollLoop false cap n
            { (st_yield_literal f out cap).1 with
              st := (st_yield_literal f out cap).2.2 }
            (st_yield_literal f out cap).2.1 with _ | r
        · rw [hro] at hmain
          exact hmain
        · rw [hro] at hmain
          obtain ⟨six2, hT, hm1, hm2, hm3⟩ := hmain
          exact ⟨six2, hT, hm1, hm2.trans hcore.2.2.1, hm3.trans hcore.2.2.2⟩
    case yieldBrIndex =>
      rw [← hst]
      have hsix : six = buildIndex f := hs (Or.inr (Or.inr (Or.inr (Or.inl hst))))
      have hstep := st_yield_br_index_inv f out cap ⟨hA, hB, hC, hD, hE⟩
      have hcore := st_yield_br_index_core4 f out cap
      have hR : pollLoop false cap (n + 1) f out
          = (if (st_yield_br_index f out cap).2.2 = EState.yieldBrIndex then
               if (st_yield_br_index f out cap).2.1.length = cap then
                 some (EPollRes.more,
                   { (st_yield_br_index f out cap).1 with
                     st := (st_yield_br_index f out cap).2.2 },
                   (st_yield_br_index f out cap).2.1)
               else pollLoop false cap n
                 { (st_yield_br_index f out cap).1 with
                   st := (st_yield_br_index f out cap).2.2 }
                 (st_yield_br_index f out cap).2.1
             else pollLoop false cap n
               { (st_yield_br_index f out cap).1 with
                 st := (st_yield_br_index f out cap).2.2 }
               (st_yield_br_index f out cap).2.1) := by
        simp only [pollLoop, hst]
      have hL : pollLoop true cap (n + 1) { f with search_index := six } out
          = (if (st_yield_br_index f out cap).2.2 = EState.yieldBrIndex then
               if (st_yield_br_index f out cap).2.1.length = cap then
                 some (EPollRes.more,
                   { (st_yield_br_index f out cap).1 with
                     st := (st_yield_br_index f out cap).2.2,
                     search_index := six },
                   (st_yield_br_index f out cap).2.1)
               else pollLoop true cap n
                 { (st_yield_br_index f out cap).1 with
                   st := (st_yield_br_index f out cap).2.2, search_index := six }
                 (st_yield_br_index f out cap).2.1
             else pollLoop true cap n
               { (st_yield_br_index f out cap).1 with
                 st := (st_yield_br_index f out cap).2.2, search_index := six }
               (st_yield_br_index f out cap).2.1) := by
        rw [pollLoop_eq_yieldBrIndex true cap n ({ f with search_index := six }) out hst,
          st_yield_br_index_idx]
      rw [hR, hL]
      have hmaint : sixOk ({ (st_yield_br_index f out cap).1 with
            st := (st_yield_br_index f out cap).2.2 } : Encoder).st →
          six = buildIndex { (st_yield_br_index f out cap).1 with
            st := (st_yield_br_index f out cap).2.2 } := by
        intro _
        rw [hsix]
        exact (buildIndex_congr _ f hcore.1 hcore.2.1 hcore.2.2.1).symm
      by_cases hcond : (st_yield_br_index f out cap).2.2 = EState.yieldBrIndex
      · rw [if_pos hcond, if_pos hcond]
        by_cases hlen : (st_yield_br_index f out cap).2.1.length = cap
        · rw [if_pos hlen, if_pos hlen]
          exact ⟨six, rfl, hmaint, hcore.2.2.1, hcore.2.2.2⟩
        · rw [if_neg hlen, if_neg hlen]
          have hmain := ih
            { (st_yield_br_index f out cap).1 with
              st := (st_yield_br_index f out cap).2.2 }
            six (st_yield_br_index f out cap).2.1 hmaint hstep
            (by rw [show ({ (st_yield_br_index f out cap).1 with
                st := (st_yield_br_index f out cap).2.2 } : Encoder).w = f.w
                from hcore.2.2.1]
                exact hw)
            (by rw [show ({ (st_yield_br_index f out cap).1 with
                st := (st_yield_br_index f out cap).2.2 } : Encoder).l = f.l
                from hcore.2.2.2,
                show ({ (st_yield_br_index f out cap).1 with
                st := (st_yield_br_index f out cap).2.2 } : Encoder).w = f.w
                from hcore.2.2.1]
                exact hl)
          rcases hro : pollLoop false cap n
              { (st_yield_br_index f out cap).1 with
                st := (st_yield_br_index f out cap).2.2 }
              (st_yield_br_index f out cap).2.1 with _ | r
          · rw [hro] at hmain
            exact hmain
          · rw [hro] at hmain
            obtain ⟨six2, hT, hm1, hm2, hm3⟩ := hmain
            exact ⟨six2, hT, hm1, hm2.trans hcore.2.2.1, hm3.trans hcore.2.2.2⟩
      · rw [if_neg hcond, if_neg hcond]
        have hmain := ih
          { (st_yield_br_index f out cap).1 with
            st := (st_yield_br_index f out cap).2.2 }
          six (st_yield_br_index f out cap).2.1 hmaint hstep
          (by rw [show ({ (st_yield_br_index f out cap).1 with
              st := (st_yield_br_index f out cap).2.2 } : Encoder).w = f.w
              from hcore.2.2.1]
              exact hw)
          (by rw [show ({ (st_yield_br_index f out cap).1 with
              st := (st_yield_br_index f out cap).2.2 } : Encoder).l = f.l
              from hcore.2.2.2,
              show ({ (st_yield_br_index f out cap).1 with
              st := (st_yield_br_index f out cap).2.2 } : Encoder).w = f.w
              from hcore.2.2.1]
              exact hl)
        rcases hro : pollLoop false cap n
            { (st_yield_br_index f out cap).1 with
              st := (st_yield_br_index f out cap).2.2 }
            (st_yield_br_index f out cap).2.1 with _ | r
        · rw [hro] at hmain
          exact hmain
        · rw [hro] at hmain
          obtain ⟨six2, hT, hm1, hm2, hm3⟩ := hmain
          exact ⟨six2, hT, hm1, hm2.trans hcore.2.2.1, hm3.trans hcore.2.2.2⟩
    case yieldBrLength =>
      rw [← hst]
      have hsix : six = buildIndex f := hs (Or.inr (Or.inr (Or.inr (Or.inr (Or.inl hst)))))
      have hstep := st_yield_br_length_inv f out cap ⟨hA, hB, hC, hD, hE⟩
      have hcore := st_yield_br_length_core4 f out cap
      have hR : pollLoop false cap (n + 1) f out
          = (if (st_yield_br_length f out cap).2.2 = EState.yieldBrLength then
               if (st_yield_br_length f out cap).2.1.length = cap then
                 some (EPollRes.more,
                   { (st_yield_br_length f out cap).1 with
                     st := (st_yield_br_length f out cap).2.2 },
                   (st_yield_br_length f out cap).2.1)
               else pollLoop false cap n
                 { (st_yield_br_length f out cap).1 with
                   st := (st_yield_br_length f out cap).2.2 }
                 (st_yield_br_length f out cap).2.1
             else pollLoop false cap n
               { (st_yield_br_length f out cap).1 with
                 st := (st_yield_br_length f out cap).2.2 }
               (st_yield_br_length f out cap).2.1) := by
        simp only [pollLoop, hst]
      have hL : pollLoop true cap (n + 1) { f with search_index := six } out
          = (if (st_yield_br_length f out cap).2.2 = EState.yieldBrLength then
               if (st_yield_br_length f out cap).2.1.length = cap then
                 some (EPollRes.more,
                   { (st_yield_br_length f out cap).1 with
                     st := (st_yield_br_length f out cap).2.2,
                     search_index := six },
                   (st_yield_br_length f out cap).2.1)
               else pollLoop true cap n
                 { (st_yield_br_length f out cap).1 with
                   st := (st_yield_br_length f out cap).2.2, search_index := six }
                 (st_yield_br_length f out cap).2.1
             else pollLoop true cap n
               { (st_yield_br_length f out cap).1 with
                 st := (st_yield_br_length f out cap).2.2, search_index := six }
               (st_yield_br_length f out cap).2.1) := by
        rw [pollLoop_eq_yieldBrLength true cap n ({ f with search_index := six }) out hst,
          st_yield_br_length_idx]
      rw [hR, hL]
      have hmaint : sixOk ({ (st_yield_br_length f out cap).1 with
            st := (st_yield_br_length f out cap).2.2 } : Encoder).st →
          six = buildIndex { (st_yield_br_length f out cap).1 with
            st := (st_yield_br_length f out cap).2.2 } := by
        intro _
        rw [hsix]
        exact (buildIndex_congr _ f hcore.1 hcore.2.1 hcore.2.2.1).symm
      by_cases hcond : (st_yield_br_length f out cap).2.2 = EState.yieldBrLength
      · rw [if_pos hcond, if_pos hcond]
        by_cases hlen : (st_yield_br_length f out cap).2.1.length = cap
        · rw [if_pos hlen, if_pos hlen]
          exact ⟨six, rfl, hmaint, hcore.2.2.1, hcore.2.2.2⟩
        · rw [if_neg hlen, if_neg hlen]
          have hmain := ih
            { (st_yield_br_length f out cap).1 with
              st := (st_yield_br_length f out cap).2.2 }
            six (st_yield_br_length f out cap).2.1 hmaint hstep
            (by rw [show ({ (st_yield_br_length f out cap).1 with
                st := (st_yield_br_length f out cap).2.2 } : Encoder).w = f.w
                from hcore.2.2.1]
                exact hw)
            (by rw [show ({ (st_yield_br_length f out cap).1 with
                st := (st_yield_br_length f out cap).2.2 } : Encoder).l = f.l
                from hcore.2.2.2,
                show ({ (st_yield_br_length f out cap).1 with
                st := (st_yield_br_length f out cap).2.2 } : Encoder).w = f.w
                from hcore.2.2.1]
                exact hl)
          rcases hro : pollLoop false cap n
              { (st_yield_br_length f out cap).1 with
                st := (st_yield_br_length f out cap).2.2 }
              (st_yield_br_length f out cap).2.1 with _ | r
          · rw [hro] at hmain
            exact hmain
          · rw [hro] at hmain
            obtain ⟨six2, hT, hm1, hm2, hm3⟩ := hmain
            exact ⟨six2, hT, hm1, hm2.trans hcore.2.2.1, hm3.trans hcore.2.2.2⟩
      · rw [if_neg hcond, if_neg hcond]
        have hmain := ih
          { (st_yield_br_length f out cap).1 with
            st := (st_yield_br_length f out cap).2.2 }
          six (st_yield_br_length f out cap).2.1 hmaint hstep
          (by rw [show ({ (st_yield_br_length f out cap).1 with
              st := (st_yield_br_length f out cap).2.2 } : Encoder).w = f.w
              from hcore.2.2.1]
              exact hw)
          (by rw [show ({ (st_yield_br_length f out cap).1 with
              st := (st_yield_br_length f out cap).2.2 } : Encoder).l = f.l
              from hcore.2.2.2,
              show ({ (st_yield_br_length f out cap).1 with
              st := (st_yield_br_length f out cap).2.2 } : Encoder).w = f.w
              from hcore.2.2.1]
              exact hl)
        rcases hro : pollLoop false cap n
            { (st_yield_br_length f out cap).1 with
              st := (st_yield_br_length f out cap).2.2 }
            (st_yield_br_length f out cap).2.1 with _ | r
        · rw [hro] at hmain
          exact hmain
        · rw [hro] at hmain
          obtain ⟨six2, hT, hm1, hm2, hm3⟩ := hmain
          exact ⟨six2, hT, hm1, hm2.trans hcore.2.2.1, hm3.trans hcore.2.2.2⟩


/-- Helper: sinking never changes the window exponent or lookahead
exponent. -/
theorem encoder_sink_wl (e : Encoder) (inp : List Nat) :
    (encoder_sink e inp).1.w = e.w ∧ (encoder_sink e inp).1.l = e.l := by
  simp only [encoder_sink]
  split
  next => exact ⟨rfl, rfl⟩
  next =>
    split
    next => exact ⟨rfl, rfl⟩
    next =>
      split
      next => exact ⟨rfl, rfl⟩
      next => exact ⟨rfl, rfl⟩

/-- Helper: a successful sink leaves the machine in NOT_FULL or FILLED. -/
theorem encoder_sink_ok_st (e : Encoder) (inp : List Nat)
    (h : (encoder_sink e inp).2.2 = ESinkRes.ok) :
    (encoder_sink e inp).1.st = EState.notFull
    ∨ (encoder_sink e inp).1.st = EState.filled := by
  revert h
  simp only [encoder_sink]
  split
  next => intro h; exact ESinkRes.noConfusion h
  next =>
    split
    next => intro h; exact ESinkRes.noConfusion h
    next hne =>
      split
      next => intro _; exact Or.inr rfl
      next => intro _; exact Or.inl (not_not.mp hne)

/-- Helper: finishing never changes the window exponent or lookahead
exponent. -/
theorem encoder_finish_wl (e : Encoder) :
    (encoder_finish e).1.w = e.w ∧ (encoder_finish e).1.l = e.l := by
  simp only [encoder_finish]
  split
  next => exact ⟨rfl, rfl⟩
  next => exact ⟨rfl, rfl⟩

/-- Helper: finishing either moves to FILLED or keeps the state. -/
theorem encoder_finish_st (e : Encoder) :
    (encoder_finish e).1.st = EState.filled ∨ (encoder_finish e).1.st = e.st := by
  simp only [encoder_finish]
  split
  next => exact Or.inl rfl
  next => exact Or.inr rfl

/-- Helper: NOT_FULL and FILLED are outside the search cluster. -/
theorem notFull_filled_not_sixOk (s : EState)
    (h : s = EState.notFull ∨ s = EState.filled) : ¬ sixOk s := by
  rcases h with h | h <;> rw [h] <;> decide

/-- Helper: a completed poll call preserves the encoder invariants. -/
theorem encoder_poll_inv (useIdx : Bool) (e : Encoder) (cap fuel : Nat)
    (r : EPollRes × Encoder × List Nat) (h : EncInv e)
    (hp : encoder_poll useIdx e cap fuel = some r) : EncInv r.2.1 := by
  rw [encoder_poll] at hp
  by_cases hc : cap = 0
  · rw [if_pos hc] at hp
    injection hp with hp2
    subst hp2
    exact h
  · rw [if_neg hc] at hp
    exact pollLoop_inv useIdx cap fuel e [] r h hp

/-- Helper: heatshrink_encoder_poll with the index enabled simulates
the poll with the index disabled. -/
theorem encoder_poll_idx (cap fuel : Nat) (f : Encoder) (six : List Nat)
    (hs : sixOk f.st → six = buildIndex f) (hinv : EncInv f)
    (hw : f.w ≤ 15) (hl : f.l ≤ f.w) :
    match encoder_poll false f cap fuel with
    | none => encoder_poll true { f with search_index := six } cap fuel = none
    | some r => ∃ six2,
        encoder_poll true { f with search_index := six } cap fuel
          = some (r.1, { r.2.1 with search_index := six2 }, r.2.2)
        ∧ (sixOk r.2.1.st → six2 = buildIndex r.2.1)
        ∧ r.2.1.w = f.w ∧ r.2.1.l = f.l := by
  by_cases hc : cap = 0
  · have hF : encoder_poll false f cap fuel
        = some (EPollRes.errMisuse, f, []) := by
      rw [encoder_poll, if_pos hc]
    have hT : encoder_poll true { f with search_index := six } cap fuel
        = some (EPollRes.errMisuse, { f with search_index := six }, []) := by
      rw [encoder_poll, if_pos hc]
    rw [hF, hT]
    exact ⟨six, rfl, hs, rfl, rfl⟩
  · simp only [encoder_poll, if_neg hc]
    exact pollLoop_idx cap fuel f six [] hs hinv hw hl

set_option maxHeartbeats 1000000 in
/-- Helper: one drive round (sink, finish once all input is sunk, poll)
with the index enabled simulates the round with the index disabled:
same progress, same output bytes, same encoder apart from the index. -/
theorem encDriveRound_idx (cap fuel : Nat) (f : Encoder)
    (rem outA six : List Nat)
    (hinv : EncInv f) (hw : f.w ≤ 15) (hl : f.l ≤ f.w) :
    match encDriveRound false cap fuel (f, rem, outA) with
    | none =>
      encDriveRound true cap fuel ({ f with search_index := six }, rem, outA) = none
    | some s' => ∃ six2,
        encDriveRound true cap fuel ({ f with search_index := six }, rem, outA)
          = some ({ s'.1 with search_index := six2 }, s'.2.1, s'.2.2)
        ∧ EncInv s'.1 ∧ s'.1.w = f.w ∧ s'.1.l = f.l := by
  rcases hsink : encoder_sink f rem with ⟨e1, acc, res⟩
  have hsinkT : encoder_sink { f with search_index := six } rem
      = ({ e1 with search_index := six }, acc, res) := by
    rw [encoder_sink_idx, hsink]
  cases res with
  | errMisuse =>
    have hF : encDriveRound false cap fuel (f, rem, outA) = none := by
      simp only [encDriveRound, hsink]
    have hT : encDriveRound true cap fuel
        ({ f with search_index := six }, rem, outA) = none := by
      simp only [encDriveRound, hsinkT]
    rw [hF, hT]
  | ok =>
    have hinv1 : EncInv e1 := by
      have h0 := encoder_sink_inv f rem hinv
      rw [hsink] at h0
      exact h0
    have hwl1 : e1.w = f.w ∧ e1.l = f.l := by
      have h0 := encoder_sink_wl f rem
      rw [hsink] at h0
      exact h0
    have h1st : e1.st = EState.notFull ∨ e1.st = EState.filled := by
      have h0 := encoder_sink_ok_st f rem (by rw [hsink])
      rw [hsink] at h0
      exact h0
    have he2T : (if rem.drop acc = [] then
          (encoder_finish { e1 with search_index := six }).1
        else { e1 with search_index := six })
        = { (if rem.drop acc = [] then (encoder_finish e1).1 else e1) with
            search_index := six } := by
      by_cases hr : rem.drop acc = []
      · rw [if_pos hr, if_pos hr, encoder_finish_idx]
      · rw [if_neg hr, if_neg hr]
    have hinvE : EncInv (if rem.drop acc = [] then (encoder_finish e1).1 else e1) := by
      by_cases hr : rem.drop acc = []
      · rw [if_pos hr]
        exact encoder_finish_inv e1 hinv1
      · rw [if_neg hr]
        exact hinv1
    have hwE : (if rem.drop acc = [] then (encoder_finish e1).1 else e1).w = f.w := by
      by_cases hr : rem.drop acc = []
      · rw [if_pos hr, (encoder_finish_wl e1).1]
        exact hwl1.1
      · rw [if_neg hr]
        exact hwl1.1
    have hlE : (if rem.drop acc = [] then (encoder_finish e1).1 else e1).l = f.l := by
      by_cases hr : rem.drop acc = []
      · rw [if_pos hr, (encoder_finish_wl e1).2]
        exact hwl1.2
      · rw [if_neg hr]
        exact hwl1.2
    have hstE : (if rem.drop acc = [] then (encoder_finish e1).1 else e1).st
          = EState.notFull
        ∨ (if rem.drop acc = [] then (encoder_finish e1).1 else e1).st
          = EState.filled := by
      by_cases hr : rem.drop acc = []
      · rw [if_pos hr]
        rcases encoder_finish_st e1 with h | h
        · exact Or.inr h
        · rw [h]
          exact h1st
      · rw [if_neg hr]
        exact h1st
    have hFr : encDriveRound false cap fuel (f, rem, outA)
        = (match encoder_poll false
              (if rem.drop acc = [] then (encoder_finish e1).1 else e1) cap fuel with
           | some (.empty, e3, o) => some (e3, rem.drop acc, outA ++ o)
           | _ => none) := by
      simp only [encDriveRound, hsink]
    have hTr : encDriveRound true cap fuel ({ f with search_index := six }, rem, outA)
        = (match encoder_poll true
              { (if rem.drop acc = [] then (encoder_finish e1).1 else e1) with
                search_index := six } cap fuel with
           | some (.empty, e3, o) => some (e3, rem.drop acc, outA ++ o)
           | _ => none) := by
      simp only [encDriveRound, hsinkT]
      rw [he2T]
    have hpoll := encoder_poll_idx cap fuel
      (if rem.drop acc = [] then (encoder_finish e1).1 else e1) six
      (fun hx => absurd hx (notFull_filled_not_sixOk _ hstE)) hinvE
      (by rw [hwE]; exact hw) (by rw [hlE, hwE]; exact hl)
    rw [hFr, hTr]
    rcases hp : encoder_poll false
        (if rem.drop acc = [] then (encoder_finish e1).1 else e1) cap fuel with _ | r
    · rw [hp] at hpoll
      have hpT : encoder_poll true
          { (if rem.drop acc = [] then (encoder_finish e1).1 else e1) with
            search_index := six } cap fuel = none := hpoll
      rw [hpT]
    · rcases r with ⟨pres, e3, o⟩
      rw [hp] at hpoll
      obtain ⟨six2, hT2, hsix2, hw3, hl3⟩ := hpoll
      rw [hT2]
      cases pres with
      | empty =>
        refine ⟨six2, rfl, ?_, ?_, ?_⟩
        · exact encoder_poll_inv false
            (if rem.drop acc = [] then (encoder_finish e1).1 else e1) cap fuel
            (EPollRes.empty, e3, o) hinvE hp
        · exact hw3.trans hwE
        · exact hl3.trans hlE
      | more => rfl
      | errMisuse => rfl

/-- Unfolding equation for one step of encodeDrive. -/
theorem encodeDrive_succ (uI : Bool) (w l : Nat) (inp : List Nat) (n : Nat)
    (s : Encoder × List Nat × List Nat) :
    encodeDrive uI w l inp (n + 1) s
      = (match encDriveRound uI 4096 1000000 s with
         | some s' =>
           if s'.2.1 = [] then
             if (encoder_finish s'.1).2 = EFinishRes.done then some s'.2.2 else none
           else encodeDrive uI w l inp n s'
         | none => none) := rfl

set_option maxHeartbeats 1000000 in
/-- Helper: the complete encoder drive returns the same result with the
index enabled as with it disabled, from any encoder whose fields
satisfy the encoder invariants; the index carried by the enabled run is
arbitrary because the drive only enters poll from outside the search
cluster. -/
theorem encodeDrive_idx (w l : Nat) (inp : List Nat) :
    ∀ (rounds : Nat) (f : Encoder) (rem outA six : List Nat),
      EncInv f → f.w ≤ 15 → f.l ≤ f.w →
      encodeDrive true w l inp rounds ({ f with search_index := six }, rem, outA)
        = encodeDrive false w l inp rounds (f, rem, outA) := by
  intro rounds
  induction rounds with
  | zero =>
    intro f rem outA six hinv hw hl
    rfl
  | succ n ih =>
    intro f rem outA six hinv hw hl
    have hround := encDriveRound_idx 4096 1000000 f rem outA six hinv hw hl
    rcases hres : encDriveRound false 4096 1000000 (f, rem, outA) with _ | s2
    · rw [hres] at hround
      have hT : encDriveRound true 4096 1000000
          ({ f with search_index := six }, rem, outA) = none := hround
      rw [encodeDrive_succ, encodeDrive_succ, hres, hT]
    · rw [hres] at hround
      obtain ⟨six2, hT, hinv2, hw2, hl2⟩ := hround
      rw [encodeDrive_succ, encodeDrive_succ, hres, hT]
      simp only [encoder_finish_idx]
      by_cases hrem : s2.2.1 = []
      · rw [if_pos hrem, if_pos hrem]
      · rw [if_neg hrem, if_neg hrem]
        exact ih s2.1 s2.2.1 s2.2.2 six2 hinv2
          (by rw [hw2]; exact hw) (by rw [hl2, hw2]; exact hl)

/-- C9: for every input byte sequence and every valid (W, L), the
complete encoded output produced with the byte-chain search index
enabled is byte-identical to the output produced with the index
disabled, and the two find_longest_match implementations return the
same (distance, length) answer whenever the chain index correctly
records, for every position up to the scan end, the previous position
holding the same byte. -/
theorem C9_index_determinism (w l : Nat) (inp : List Nat)
    (buf idx : List Nat) (start end_ maxlen : Nat)
    (hv : validCfg w l)
    (hidx : ∀ i, i ≤ end_ → idxget idx i = prevIdx buf i)
    (hend : end_ ≤ MATCH_NOT_FND) (hse : start ≤ end_) :
    encode true w l inp = encode false w l inp
    ∧ find_longest_match_idx buf idx start end_ maxlen
        = find_longest_match buf start end_ maxlen := by
  obtain ⟨h4, h15, h3, hlw⟩ := hv
  constructor
  · show encodeDrive true w l inp (inp.length + 2) (encoder_reset w l, inp, [])
        = encodeDrive false w l inp (inp.length + 2) (encoder_reset w l, inp, [])
    exact encodeDrive_idx w l inp (inp.length + 2) (encoder_reset w l) inp []
      (encoder_reset w l).search_index (encoder_reset_inv w l) h15 hlw
  · exact find_longest_match_idx_eq buf idx start end_ maxlen hidx hend hse

/-- Witness for C9: the hypotheses hold and the conclusion follows at
W = 4, L = 3, input [1, 2, 3], and the empty scan instance. -/
theorem C9_index_determinism_witness :
    validCfg 4 3
    ∧ (∀ i, i ≤ 0 → idxget [] i = prevIdx [] i)
    ∧ (0 : Nat) ≤ MATCH_NOT_FND ∧ (0 : Nat) ≤ 0
    ∧ (encode true 4 3 [1, 2, 3] = encode false 4 3 [1, 2, 3]
       ∧ find_longest_match_idx [] [] 0 0 0 = find_longest_match [] 0 0 0) :=
  ⟨by decide,
   fun i hi => by
     have h0 : i = 0 := Nat.le_zero.mp hi
     rw [h0]
     decide,
   by decide, by decide,
   C9_index_determinism 4 3 [1, 2, 3] [] [] 0 0 0 (by decide)
     (fun i hi => by
       have h0 : i = 0 := Nat.le_zero.mp hi
       rw [h0]
       decide)
     (by decide) (by decide)⟩

end Heatshrink
